import Mathlib

/-! # Smart-Pointers: reference counted handles over control blocks

Shallow embedding of `weak/sw_fwd.h` (control blocks), `shared-from-this/shared.h`
(`SharedPtr`, `MakeShared`, `EnableSharedFromThis`) and `weak/weak.h` (`WeakPtr`); then
of `unique/unique.h` (`UniquePtr`, with the deleter calls recorded in a list) and of
`shared/shared.h` (the `SharedPtr` that stands alone, namespace `Standalone`).

* A raw pointer is a natural number, `0` being `nullptr`; the pointee with index `i` of the
  object heap lives at address `i + 1`.
* A control block pointer is `Option Nat`: `none` is `nullptr`, `some b` the block with
  index `b` of the block heap.
* The `size_t` counters are naturals below `2 ^ 64`; `++` and `--` wrap around.
* The compile time test `std::is_convertible_v<T*, EFSTBase*>` is the boolean `efst`.
* `delete control_block_` marks the block as freed; every later access through a pointer
  to it is undefined behaviour and is reported as `Err.dangling`.
* The number of `DeleteT` calls on a block is recorded in the block (ghost field).
-/

namespace SmartPointers

/-- Number of values of a `size_t` counter, `2 ^ 64`. -/
def SIZE : Nat := 18446744073709551616

/-- Failures of an operation: the C++ exception `BadWeakPtr`, the two kinds of undefined
behaviour that the handles can run into, and the use of a handle variable that is not
live (not a C++ program). -/
inductive Err where
  | BadWeakPtr
  | nullDeref
  | dangling
  | badHandle
deriving DecidableEq, Repr

/-- Counters of `class ControlBlockBase`, both initialised with `0`. -/
structure ControlBlockBase where
  weak_ref_counter_ : Nat
  ref_counter_ : Nat
deriving DecidableEq, Repr

namespace ControlBlockBase

/-- Default member initialisers `weak_ref_counter_ = 0`, `ref_counter_ = 0`. -/
def init : ControlBlockBase := { weak_ref_counter_ := 0, ref_counter_ := 0 }

/-- Body `ref_counter_++`. -/
def AddReference (c : ControlBlockBase) : ControlBlockBase :=
  { c with ref_counter_ := (c.ref_counter_ + 1) % SIZE }

/-- Body `ref_counter_--`: the `size_t` value `0` wraps around to `SIZE - 1`. -/
def RemoveReference (c : ControlBlockBase) : ControlBlockBase :=
  { c with ref_counter_ := if c.ref_counter_ = 0 then SIZE - 1 else c.ref_counter_ - 1 }

/-- Body `return ref_counter_`. -/
def GetRefCounter (c : ControlBlockBase) : Nat := c.ref_counter_

/-- Body `weak_ref_counter_++`. -/
def AddWeakRef (c : ControlBlockBase) : ControlBlockBase :=
  { c with weak_ref_counter_ := (c.weak_ref_counter_ + 1) % SIZE }

/-- Body `weak_ref_counter_--`: the `size_t` value `0` wraps around to `SIZE - 1`. -/
def DecWeakRef (c : ControlBlockBase) : ControlBlockBase :=
  { c with weak_ref_counter_ :=
      if c.weak_ref_counter_ = 0 then SIZE - 1 else c.weak_ref_counter_ - 1 }

/-- Body `return weak_ref_counter_`. -/
def GetWeakRefCounter (c : ControlBlockBase) : Nat := c.weak_ref_counter_

end ControlBlockBase

/-- The two derived classes: `ControlBlockPointer<T>` with its member `ptr_`, and
`ControlBlockHolder<T>` whose `storage_` holds the pointee (its address is what
`GetPointer()` returns). -/
inductive BlockKind where
  | pointer (ptr_ : Nat)
  | holder (storage_ : Nat)
deriving DecidableEq, Repr

/-- A control block on the heap: the counters, the derived class, and two ghost fields,
`freed` (set by `delete control_block_`) and `deleteT_calls` (number of `DeleteT` calls). -/
structure Block where
  base : ControlBlockBase
  kind : BlockKind
  freed : Bool
  deleteT_calls : Nat
deriving DecidableEq, Repr

/-- Constructor `ControlBlockPointer(T* ptr) : ptr_(ptr) { if (ptr_) AddReference(); }`. -/
def ControlBlockPointer.new (ptr : Nat) : Block :=
  { base := if ptr ≠ 0 then ControlBlockBase.init.AddReference else ControlBlockBase.init
    kind := BlockKind.pointer ptr
    freed := false
    deleteT_calls := 0 }

/-- Constructor `ControlBlockHolder(Args&&...)`: the pointee is built in `storage_`, then
`AddReference()`. -/
def ControlBlockHolder.new (storage : Nat) : Block :=
  { base := ControlBlockBase.init.AddReference
    kind := BlockKind.holder storage
    freed := false
    deleteT_calls := 0 }

/-- Address of the object that `DeleteT` tears down (`0` when there is none). -/
def Block.pointee (blk : Block) : Nat :=
  match blk.kind with
  | BlockKind.pointer p => p
  | BlockKind.holder p => p

/-- Fields of `WeakPtr<T>`. -/
structure WeakPtr where
  ptr_ : Nat
  control_block_ : Option Nat
deriving DecidableEq, Repr

/-- Fields of `SharedPtr<T>`. -/
structure SharedPtr where
  ptr_ : Nat
  control_block_ : Option Nat
deriving DecidableEq, Repr

/-- An object of the pointee type `T`. The member `weak_this_` exists when `T` derives
from `EnableSharedFromThis<T>` and is not looked at otherwise; `destroyed` is set by the
destructor of the object. -/
structure Pointee where
  weak_this_ : WeakPtr
  destroyed : Bool
deriving DecidableEq, Repr

/-- The heap: control blocks and pointees. -/
structure Mem where
  blocks : List Block
  objs : List Pointee
deriving DecidableEq, Repr

namespace Mem

/-- The empty heap. -/
def empty : Mem := { blocks := [], objs := [] }

/-- Read through a control block pointer: the block has to be allocated and not freed. -/
def block (m : Mem) (b : Nat) : Except Err Block :=
  match m.blocks[b]? with
  | some blk => if blk.freed then Except.error Err.dangling else Except.ok blk
  | none => Except.error Err.dangling

/-- Overwrite the block with index `b`. -/
def setBlock (m : Mem) (b : Nat) (blk : Block) : Mem :=
  { m with blocks := m.blocks.set b blk }

/-- Allocation `new ControlBlock...`: the new block gets the next index. -/
def alloc (m : Mem) (blk : Block) : Nat × Mem :=
  (m.blocks.length, { m with blocks := m.blocks ++ [blk] })

/-- Read through a raw pointer to a pointee: the pointer is not null and the object is
alive. -/
def obj (m : Mem) (p : Nat) : Except Err Pointee :=
  if p = 0 then Except.error Err.nullDeref
  else match m.objs[p - 1]? with
    | some o => if o.destroyed then Except.error Err.dangling else Except.ok o
    | none => Except.error Err.dangling

/-- Overwrite the pointee at address `p`. -/
def setObj (m : Mem) (p : Nat) (o : Pointee) : Mem :=
  { m with objs := m.objs.set (p - 1) o }

/-- A new pointee (its `weak_this_` default constructed); returns its address. -/
def newObj (m : Mem) : Nat × Mem :=
  (m.objs.length + 1,
   { m with objs := m.objs ++ [{ weak_this_ := { ptr_ := 0, control_block_ := none }
                                 destroyed := false }] })

/-- Call `control_block_->AddReference()`. -/
def AddReference (m : Mem) (b : Nat) : Except Err Mem := do
  let blk ← m.block b
  pure (m.setBlock b { blk with base := blk.base.AddReference })

/-- Call `control_block_->RemoveReference()`. -/
def RemoveReference (m : Mem) (b : Nat) : Except Err Mem := do
  let blk ← m.block b
  pure (m.setBlock b { blk with base := blk.base.RemoveReference })

/-- Call `control_block_->AddWeakRef()`. -/
def AddWeakRef (m : Mem) (b : Nat) : Except Err Mem := do
  let blk ← m.block b
  pure (m.setBlock b { blk with base := blk.base.AddWeakRef })

/-- Call `control_block_->DecWeakRef()`. -/
def DecWeakRef (m : Mem) (b : Nat) : Except Err Mem := do
  let blk ← m.block b
  pure (m.setBlock b { blk with base := blk.base.DecWeakRef })

/-- Statement `delete control_block_`: the destructors of the block classes in
`sw_fwd.h` have empty bodies, the block is given back. -/
def free (m : Mem) (b : Nat) : Except Err Mem := do
  let blk ← m.block b
  pure (m.setBlock b { blk with freed := true })

end Mem

namespace WeakPtr

/-- Constructor `WeakPtr() : ptr_(nullptr), control_block_(nullptr)`. -/
def default : WeakPtr := { ptr_ := 0, control_block_ := none }

/-- Private `WeakPtr::TryDeleteBlock`. -/
def TryDeleteBlock (this : WeakPtr) (m : Mem) : Except Err Mem :=
  match this.control_block_ with
  | none => pure m
  | some b => do
    let blk ← m.block b
    if blk.base.GetRefCounter = 0 ∧ blk.base.GetWeakRefCounter = 1 then
      m.free b
    else
      m.DecWeakRef b

/-- Constructor `WeakPtr(const WeakPtr& other)`; `this != &other` holds for an object
under construction. -/
def copy (other : WeakPtr) (m : Mem) : Except Err (WeakPtr × Mem) := do
  let this : WeakPtr := { ptr_ := other.ptr_, control_block_ := other.control_block_ }
  match this.control_block_ with
  | some b =>
    let m1 ← m.AddWeakRef b
    pure (this, m1)
  | none => pure (this, m)

/-- Constructor `WeakPtr(WeakPtr&& other)`; returns the new handle and the moved-from
`other`. -/
def move (other : WeakPtr) : WeakPtr × WeakPtr :=
  ({ ptr_ := other.ptr_, control_block_ := other.control_block_ }, WeakPtr.default)

/-- Constructors `WeakPtr(const SharedPtr<T>& other)` and `WeakPtr(const SharedPtr<Y>&)`:
`control_block_->AddWeakRef()` is called without a null test. -/
def ofShared (other : SharedPtr) (m : Mem) : Except Err (WeakPtr × Mem) := do
  let this : WeakPtr := { ptr_ := other.ptr_, control_block_ := other.control_block_ }
  match this.control_block_ with
  | some b =>
    let m1 ← m.AddWeakRef b
    pure (this, m1)
  | none => Except.error Err.nullDeref

/-- Copy assignment `operator=(const WeakPtr& other)` for `this != &other`. -/
def copyAssign (this other : WeakPtr) (m : Mem) : Except Err (WeakPtr × Mem) := do
  let m1 ← this.TryDeleteBlock m
  let this1 : WeakPtr := { ptr_ := other.ptr_, control_block_ := other.control_block_ }
  match this1.control_block_ with
  | some b =>
    let m2 ← m1.AddWeakRef b
    pure (this1, m2)
  | none => pure (this1, m1)

/-- Move assignment `operator=(WeakPtr&& other)` for `this != &other`; returns the new
`*this` and the moved-from `other`. -/
def moveAssign (this other : WeakPtr) (m : Mem) : Except Err (WeakPtr × WeakPtr × Mem) := do
  let m1 ← this.TryDeleteBlock m
  pure ({ ptr_ := other.ptr_, control_block_ := other.control_block_ }, WeakPtr.default, m1)

/-- Destructor `~WeakPtr()`. -/
def dtor (this : WeakPtr) (m : Mem) : Except Err Mem :=
  this.TryDeleteBlock m

/-- Member `Reset()`. -/
def Reset (this : WeakPtr) (m : Mem) : Except Err (WeakPtr × Mem) := do
  let m1 ← this.TryDeleteBlock m
  pure (WeakPtr.default, m1)

/-- Member `Swap(WeakPtr& other)`. -/
def Swap (this other : WeakPtr) : WeakPtr × WeakPtr := (other, this)

/-- Member `UseCount()`. -/
def UseCount (this : WeakPtr) (m : Mem) : Except Err Nat :=
  match this.control_block_ with
  | none => pure 0
  | some b => do
    let blk ← m.block b
    pure blk.base.GetRefCounter

/-- Member `Expired()`. -/
def Expired (this : WeakPtr) (m : Mem) : Except Err Bool :=
  match this.control_block_ with
  | none => pure true
  | some b => do
    let blk ← m.block b
    pure (blk.base.GetRefCounter == 0)

end WeakPtr

namespace Mem

/-- Destructor of the pointee at address `p`: the members are destroyed, among them
`weak_this_` when `T` derives from `EnableSharedFromThis<T>`. -/
def destroyPointee (efst : Bool) (m : Mem) (p : Nat) : Except Err Mem := do
  let o ← m.obj p
  let m1 ← if efst then o.weak_this_.TryDeleteBlock m else pure m
  pure (m1.setObj p { o with destroyed := true })

/-- Virtual call `control_block_->DeleteT()`: `delete ptr_` for a `ControlBlockPointer`
(nothing happens for a null `ptr_`), `GetPointer()->~T()` for a `ControlBlockHolder`. -/
def DeleteT (efst : Bool) (m : Mem) (b : Nat) : Except Err Mem := do
  let blk ← m.block b
  let m1 := m.setBlock b { blk with deleteT_calls := blk.deleteT_calls + 1 }
  match blk.kind with
  | BlockKind.pointer p => if p = 0 then pure m1 else m1.destroyPointee efst p
  | BlockKind.holder p => m1.destroyPointee efst p

/-- Statement `x->weak_this_ = *this` of the `SharedPtr` constructors: `*this` is
converted by `WeakPtr(const SharedPtr<T>&)` to a temporary, which is move-assigned to the
member and then destroyed. -/
def assignWeakThis (m : Mem) (x : Nat) (this : SharedPtr) : Except Err Mem := do
  let o ← m.obj x
  let (tmp, m1) ← WeakPtr.ofShared this m
  let (wt, tmp1, m2) ← WeakPtr.moveAssign o.weak_this_ tmp m1
  let m3 ← tmp1.dtor m2
  pure (m3.setObj x { o with weak_this_ := wt })

end Mem

namespace SharedPtr

/-- Constructors `SharedPtr()` and `SharedPtr(std::nullptr_t)`. -/
def default : SharedPtr := { ptr_ := 0, control_block_ := none }

/-- Private `SharedPtr::TryToDeleteBlock`. -/
def TryToDeleteBlock (efst : Bool) (this : SharedPtr) (m : Mem) : Except Err Mem :=
  match this.control_block_ with
  | none => pure m
  | some b => do
    let blk ← m.block b
    if blk.base.GetWeakRefCounter = 0 ∧ blk.base.GetRefCounter = 1 then
      let m1 ← m.DeleteT efst b
      m1.free b
    else if blk.base.GetWeakRefCounter > 0 ∧ blk.base.GetRefCounter = 1 then
      let m1 ← m.RemoveReference b
      m1.DeleteT efst b
    else
      m.RemoveReference b

/-- Constructors `SharedPtr(T* ptr)` and `SharedPtr(Y* ptr)`. -/
def ofRaw (efst : Bool) (ptr : Nat) (m : Mem) : Except Err (SharedPtr × Mem) := do
  let (b, m1) := m.alloc (ControlBlockPointer.new ptr)
  let this : SharedPtr := { ptr_ := ptr, control_block_ := some b }
  let m2 ← if efst then m1.assignWeakThis ptr this else pure m1
  pure (this, m2)

/-- Constructors `SharedPtr(const SharedPtr<T>& other)` and `SharedPtr(const SharedPtr<Y>&)`. -/
def copy (efst : Bool) (other : SharedPtr) (m : Mem) : Except Err (SharedPtr × Mem) := do
  let this : SharedPtr := { ptr_ := other.ptr_, control_block_ := other.control_block_ }
  let m1 ← match this.control_block_ with
    | some b => m.AddReference b
    | none => pure m
  let m2 ← if efst then m1.assignWeakThis other.ptr_ this else pure m1
  pure (this, m2)

/-- Constructors `SharedPtr(SharedPtr&& other)` and `SharedPtr(SharedPtr<Y>&&)`; returns
the new handle and the moved-from `other`. -/
def move (efst : Bool) (other : SharedPtr) (m : Mem) :
    Except Err (SharedPtr × SharedPtr × Mem) := do
  let this : SharedPtr := { ptr_ := other.ptr_, control_block_ := other.control_block_ }
  let m1 ← if efst then m.assignWeakThis other.ptr_ this else pure m
  pure (this, SharedPtr.default, m1)

/-- Constructor `SharedPtr(ControlBlockHolder<Y>* block)`. -/
def ofHolder (efst : Bool) (b : Nat) (m : Mem) : Except Err (SharedPtr × Mem) := do
  let blk ← m.block b
  let this : SharedPtr := { ptr_ := blk.pointee, control_block_ := some b }
  let m1 ← if efst then m.assignWeakThis this.ptr_ this else pure m
  pure (this, m1)

/-- Function `MakeShared<T>(args...)`: `new ControlBlockHolder<T>(args...)` handed to the
constructor above. -/
def MakeShared (efst : Bool) (m : Mem) : Except Err (SharedPtr × Mem) :=
  let (p, m1) := m.newObj
  let (b, m2) := m1.alloc (ControlBlockHolder.new p)
  SharedPtr.ofHolder efst b m2

/-- Aliasing constructor `SharedPtr(const SharedPtr<X>& other, T* ptr)`. -/
def aliasing (other : SharedPtr) (ptr : Nat) (m : Mem) : Except Err (SharedPtr × Mem) := do
  let this : SharedPtr := { ptr_ := ptr, control_block_ := other.control_block_ }
  match this.control_block_ with
  | some b =>
    let m1 ← m.AddReference b
    pure (this, m1)
  | none => pure (this, m)

/-- Promotion `explicit SharedPtr(const WeakPtr<T>& other)`:
`other.control_block_->GetRefCounter()` is read without a null test. -/
def ofWeak (other : WeakPtr) (m : Mem) : Except Err (SharedPtr × Mem) :=
  match other.control_block_ with
  | none => Except.error Err.nullDeref
  | some b => do
    let blk ← m.block b
    if blk.base.GetRefCounter = 0 then
      Except.error Err.BadWeakPtr
    else
      let m1 ← m.AddReference b
      pure ({ ptr_ := other.ptr_, control_block_ := some b }, m1)

/-- Copy assignment `operator=(const SharedPtr& other)` for `this != &other`. -/
def copyAssign (efst : Bool) (this other : SharedPtr) (m : Mem) :
    Except Err (SharedPtr × Mem) := do
  let m1 ← this.TryToDeleteBlock efst m
  let this1 : SharedPtr := { ptr_ := other.ptr_, control_block_ := other.control_block_ }
  match this1.control_block_ with
  | some b =>
    let m2 ← m1.AddReference b
    pure (this1, m2)
  | none => pure (this1, m1)

/-- Move assignment `operator=(SharedPtr&& other)` for `this != &other`; returns the new
`*this` and the moved-from `other`. -/
def moveAssign (efst : Bool) (this other : SharedPtr) (m : Mem) :
    Except Err (SharedPtr × SharedPtr × Mem) := do
  let m1 ← this.TryToDeleteBlock efst m
  pure ({ ptr_ := other.ptr_, control_block_ := other.control_block_ }, SharedPtr.default, m1)

/-- Destructor `~SharedPtr()`. -/
def dtor (efst : Bool) (this : SharedPtr) (m : Mem) : Except Err Mem :=
  this.TryToDeleteBlock efst m

/-- Member `Reset()`. -/
def Reset (efst : Bool) (this : SharedPtr) (m : Mem) : Except Err (SharedPtr × Mem) := do
  let m1 ← this.TryToDeleteBlock efst m
  pure (SharedPtr.default, m1)

/-- Members `Reset(T* ptr)` and `Reset(Y* ptr)`. -/
def ResetPtr (efst : Bool) (this : SharedPtr) (ptr : Nat) (m : Mem) :
    Except Err (SharedPtr × Mem) := do
  let m1 ← this.TryToDeleteBlock efst m
  let (b, m2) := m1.alloc (ControlBlockPointer.new ptr)
  pure ({ ptr_ := ptr, control_block_ := some b }, m2)

/-- Member `Swap(SharedPtr& other)`. -/
def Swap (this other : SharedPtr) : SharedPtr × SharedPtr := (other, this)

/-- Member `Get()`. -/
def Get (this : SharedPtr) : Nat := this.ptr_

/-- Member `UseCount()`. -/
def UseCount (this : SharedPtr) (m : Mem) : Except Err Nat :=
  match this.control_block_ with
  | some b => do
    let blk ← m.block b
    pure blk.base.GetRefCounter
  | none => pure 0

/-- Conversion `explicit operator bool()`. -/
def toBool (this : SharedPtr) : Bool := this.control_block_ != none

end SharedPtr

/-- Member `WeakPtr::Lock()`. -/
def WeakPtr.Lock (this : WeakPtr) (m : Mem) : Except Err (SharedPtr × Mem) :=
  match this.control_block_ with
  | none => pure (SharedPtr.default, m)
  | some _ => do
    let e ← this.Expired m
    if e then pure (SharedPtr.default, m) else SharedPtr.ofWeak this m

/-- Comparison `operator==(const SharedPtr<T>& left, const SharedPtr<U>& right)`, with body
`return left.Get() == right.Get()`. -/
def SharedPtr.operatorEq (left right : SharedPtr) : Bool := left.Get == right.Get

namespace EnableSharedFromThis

/-- Member `SharedFromThis()` of the object at address `x`, with body
`return SharedPtr<T>(weak_this_)`. -/
def SharedFromThis (x : Nat) (m : Mem) : Except Err (SharedPtr × Mem) := do
  let o ← m.obj x
  SharedPtr.ofWeak o.weak_this_ m

/-- Member `WeakFromThis()` of the object at address `x`, with body `return weak_this_`
(a copy of the member). -/
def WeakFromThis (x : Nat) (m : Mem) : Except Err (WeakPtr × Mem) := do
  let o ← m.obj x
  WeakPtr.copy o.weak_this_ m

end EnableSharedFromThis

/-- A program state: the heap and the handle variables created so far. A variable whose
destructor has run is `none`. -/
structure State where
  mem : Mem
  shared : List (Option SharedPtr)
  weak : List (Option WeakPtr)
deriving DecidableEq, Repr

/-- The operations of the public interface, on handle variables named by their index.
Constructors create the next variable. -/
inductive Op where
  | newObj
  | sDefault
  | sFromRaw (ptr : Nat)
  | sMakeShared
  | sCopy (src : Nat)
  | sMove (src : Nat)
  | sAlias (src : Nat) (ptr : Nat)
  | sFromWeak (src : Nat)
  | sCopyAssign (dst src : Nat)
  | sMoveAssign (dst src : Nat)
  | sReset (h : Nat)
  | sResetPtr (h : Nat) (ptr : Nat)
  | sSwap (a b : Nat)
  | sDestroy (h : Nat)
  | wDefault
  | wCopy (src : Nat)
  | wMove (src : Nat)
  | wFromShared (src : Nat)
  | wCopyAssign (dst src : Nat)
  | wMoveAssign (dst src : Nat)
  | wReset (h : Nat)
  | wSwap (a b : Nat)
  | wDestroy (h : Nat)
  | wLock (h : Nat)
deriving DecidableEq, Repr

namespace State

/-- The state before the first operation. -/
def init : State := { mem := Mem.empty, shared := [], weak := [] }

/-- The live `SharedPtr` variable with index `i`. -/
def getShared (s : State) (i : Nat) : Except Err SharedPtr :=
  match s.shared[i]? with
  | some (some h) => Except.ok h
  | _ => Except.error Err.badHandle

/-- The live `WeakPtr` variable with index `i`. -/
def getWeak (s : State) (i : Nat) : Except Err WeakPtr :=
  match s.weak[i]? with
  | some (some w) => Except.ok w
  | _ => Except.error Err.badHandle

end State

/-- One operation of a program over a pointee type `T`; `efst` says whether `T` derives
from `EnableSharedFromThis<T>`. A `BadWeakPtr` thrown by the promoting constructor is
caught by the program: no variable is created and the state stays as it was. -/
def step (efst : Bool) (op : Op) (s : State) : Except Err State :=
  match op with
  | Op.newObj => pure { s with mem := s.mem.newObj.2 }
  | Op.sDefault => pure { s with shared := s.shared ++ [some SharedPtr.default] }
  | Op.sFromRaw ptr => do
    let (h, m) ← SharedPtr.ofRaw efst ptr s.mem
    pure { s with mem := m, shared := s.shared ++ [some h] }
  | Op.sMakeShared => do
    let (h, m) ← SharedPtr.MakeShared efst s.mem
    pure { s with mem := m, shared := s.shared ++ [some h] }
  | Op.sCopy src => do
    let other ← s.getShared src
    let (h, m) ← SharedPtr.copy efst other s.mem
    pure { s with mem := m, shared := s.shared ++ [some h] }
  | Op.sMove src => do
    let other ← s.getShared src
    let (h, other1, m) ← SharedPtr.move efst other s.mem
    pure { s with mem := m, shared := (s.shared.set src (some other1)) ++ [some h] }
  | Op.sAlias src ptr => do
    let other ← s.getShared src
    let (h, m) ← SharedPtr.aliasing other ptr s.mem
    pure { s with mem := m, shared := s.shared ++ [some h] }
  | Op.sFromWeak src => do
    let other ← s.getWeak src
    match SharedPtr.ofWeak other s.mem with
    | Except.ok (h, m) => pure { s with mem := m, shared := s.shared ++ [some h] }
    | Except.error Err.BadWeakPtr => pure s
    | Except.error e => Except.error e
  | Op.sCopyAssign dst src => do
    let this ← s.getShared dst
    let other ← s.getShared src
    if dst = src then pure s
    else
      let (this1, m) ← SharedPtr.copyAssign efst this other s.mem
      pure { s with mem := m, shared := s.shared.set dst (some this1) }
  | Op.sMoveAssign dst src => do
    let this ← s.getShared dst
    let other ← s.getShared src
    if dst = src then pure s
    else
      let (this1, other1, m) ← SharedPtr.moveAssign efst this other s.mem
      pure { s with mem := m
                    shared := (s.shared.set dst (some this1)).set src (some other1) }
  | Op.sReset h => do
    let this ← s.getShared h
    let (this1, m) ← SharedPtr.Reset efst this s.mem
    pure { s with mem := m, shared := s.shared.set h (some this1) }
  | Op.sResetPtr h ptr => do
    let this ← s.getShared h
    let (this1, m) ← SharedPtr.ResetPtr efst this ptr s.mem
    pure { s with mem := m, shared := s.shared.set h (some this1) }
  | Op.sSwap a b => do
    let this ← s.getShared a
    let other ← s.getShared b
    let (this1, other1) := SharedPtr.Swap this other
    pure { s with shared := (s.shared.set a (some this1)).set b (some other1) }
  | Op.sDestroy h => do
    let this ← s.getShared h
    let m ← SharedPtr.dtor efst this s.mem
    pure { s with mem := m, shared := s.shared.set h none }
  | Op.wDefault => pure { s with weak := s.weak ++ [some WeakPtr.default] }
  | Op.wCopy src => do
    let other ← s.getWeak src
    let (w, m) ← WeakPtr.copy other s.mem
    pure { s with mem := m, weak := s.weak ++ [some w] }
  | Op.wMove src => do
    let other ← s.getWeak src
    let (w, other1) := WeakPtr.move other
    pure { s with weak := (s.weak.set src (some other1)) ++ [some w] }
  | Op.wFromShared src => do
    let other ← s.getShared src
    let (w, m) ← WeakPtr.ofShared other s.mem
    pure { s with mem := m, weak := s.weak ++ [some w] }
  | Op.wCopyAssign dst src => do
    let this ← s.getWeak dst
    let other ← s.getWeak src
    if dst = src then pure s
    else
      let (this1, m) ← WeakPtr.copyAssign this other s.mem
      pure { s with mem := m, weak := s.weak.set dst (some this1) }
  | Op.wMoveAssign dst src => do
    let this ← s.getWeak dst
    let other ← s.getWeak src
    if dst = src then pure s
    else
      let (this1, other1, m) ← WeakPtr.moveAssign this other s.mem
      pure { s with mem := m, weak := (s.weak.set dst (some this1)).set src (some other1) }
  | Op.wReset h => do
    let this ← s.getWeak h
    let (this1, m) ← WeakPtr.Reset this s.mem
    pure { s with mem := m, weak := s.weak.set h (some this1) }
  | Op.wSwap a b => do
    let this ← s.getWeak a
    let other ← s.getWeak b
    let (this1, other1) := WeakPtr.Swap this other
    pure { s with weak := (s.weak.set a (some this1)).set b (some other1) }
  | Op.wDestroy h => do
    let this ← s.getWeak h
    let m ← WeakPtr.dtor this s.mem
    pure { s with mem := m, weak := s.weak.set h none }
  | Op.wLock h => do
    let this ← s.getWeak h
    let (r, m) ← WeakPtr.Lock this s.mem
    pure { s with mem := m, shared := s.shared ++ [some r] }

/-- A program: the operations are run from left to right, undefined behaviour stops it. -/
def run (efst : Bool) : List Op → State → Except Err State
  | [], s => pure s
  | op :: ops, s => do
    let s1 ← step efst op s
    run efst ops s1

/-! ## Reference counts seen from the handles -/

/-- A block that manages a pointee: a `ControlBlockHolder`, or a `ControlBlockPointer`
built from a pointer that is not null. -/
def Block.good (blk : Block) : Bool :=
  match blk.kind with
  | BlockKind.pointer p => p != 0
  | BlockKind.holder _ => true

/-- Whether a `SharedPtr` variable is live and holds a pointer to block `b`. -/
def sharesBlock (b : Nat) (o : Option SharedPtr) : Bool :=
  match o with
  | some h => h.control_block_ == some b
  | none => false

/-- Whether a `WeakPtr` variable is live and holds a pointer to block `b`. -/
def observesBlock (b : Nat) (o : Option WeakPtr) : Bool :=
  match o with
  | some w => w.control_block_ == some b
  | none => false

/-- Whether the member `weak_this_` of a pointee that is alive points to block `b`. -/
def selfObserves (b : Nat) (o : Pointee) : Bool :=
  !o.destroyed && o.weak_this_.control_block_ == some b

/-- Number of live `SharedPtr` variables that share block `b`. -/
def countShared (l : List (Option SharedPtr)) (b : Nat) : Nat := l.countP (sharesBlock b)

/-- Number of live `WeakPtr` variables that reference block `b`. -/
def countWeak (l : List (Option WeakPtr)) (b : Nat) : Nat := l.countP (observesBlock b)

/-- Number of `weak_this_` members of live pointees that reference block `b`; there are no
such members when the pointee type does not derive from `EnableSharedFromThis`. -/
def countThis (efst : Bool) (objs : List Pointee) (b : Nat) : Nat :=
  if efst then objs.countP (selfObserves b) else 0

/-- What a good block has to say when `ns` strong and `nw` weak references to it exist. -/
structure GoodInv (blk : Block) (ns nw : Nat) : Prop where
  ref_eq : blk.freed = false → blk.base.ref_counter_ = ns
  live : blk.freed = false → 0 < ns + nw
  gone : blk.freed = true → ns = 0 ∧ nw = 0
  deleted : blk.deleteT_calls = if ns = 0 then 1 else 0

/-- The entry of the block heap for one block index against the numbers `ns` of strong and
`nw` of weak references to it: no reference to a block that was never allocated, the weak
counter of a block that is not freed is `nw`, a good block satisfies `GoodInv`, and no weak
reference to a block that was freed. -/
def BInv : Option Block → Nat → Nat → Prop
  | none, ns, nw => ns = 0 ∧ nw = 0
  | some blk, ns, nw =>
    (blk.freed = false → blk.base.weak_ref_counter_ = nw) ∧
      (blk.good = true → GoodInv blk ns nw) ∧ (blk.freed = true → nw = 0)

/-- The heap agrees, block by block, with `cs b` strong references and `cw b` weak
references held by handle variables (the `weak_this_` members are added). -/
def MInv (efst : Bool) (m : Mem) (cs cw : Nat → Nat) : Prop :=
  ∀ b, BInv m.blocks[b]? (cs b) (cw b + countThis efst m.objs b)

/-- The invariant of the state machine. -/
def Inv (efst : Bool) (s : State) : Prop :=
  MInv efst s.mem (countShared s.shared) (countWeak s.weak)

/-- Number of handle variables and pointees ever created. -/
def State.size (s : State) : Nat := s.shared.length + s.weak.length + s.mem.objs.length

/-- Heap `m1` is a later stage of heap `m`: every block of `m` is still a block of `m1`, of
the same class and for the same pointee (`kind` never changes after the constructor). -/
def Mem.Ext (m m1 : Mem) : Prop :=
  ∀ (b : Nat) (blk : Block), m.blocks[b]? = some blk →
    ∃ blk1 : Block, m1.blocks[b]? = some blk1 ∧ blk1.kind = blk.kind

/-- What the teardown leaves to read of a block: its class with the address of its pointee,
and the number of `DeleteT` calls. -/
def Block.tag (blk : Block) : BlockKind × Nat := (blk.kind, blk.deleteT_calls)

/-- Heap `m1` differs from heap `m` in counters and `freed` marks of blocks only. -/
def Mem.Same (m m1 : Mem) : Prop :=
  m1.blocks.map Block.tag = m.blocks.map Block.tag ∧ m1.objs = m.objs

/-- The pointees against the blocks that manage them: a pointee that was destroyed is the
pointee of a block whose `DeleteT` has run, the pointee of a good block whose `DeleteT` has
run was destroyed, the storage of a `ControlBlockHolder` is an object of the heap, and a
`weak_this_` that references a block holds the address of its own object. -/
structure HeapInv (m : Mem) : Prop where
  destroyed_by : ∀ (i : Nat) (o : Pointee), m.objs[i]? = some o → o.destroyed = true →
    ∃ (b : Nat) (blk : Block), m.blocks[b]? = some blk ∧ blk.pointee = i + 1 ∧
      1 ≤ blk.deleteT_calls
  torn : ∀ (b : Nat) (blk : Block), m.blocks[b]? = some blk → blk.good = true →
    1 ≤ blk.deleteT_calls →
    ∃ o : Pointee, m.objs[blk.pointee - 1]? = some o ∧ o.destroyed = true
  storage : ∀ (b : Nat) (blk : Block) (p : Nat), m.blocks[b]? = some blk →
    blk.kind = BlockKind.holder p → 1 ≤ p ∧ p ≤ m.objs.length
  self_ptr : ∀ (i : Nat) (o : Pointee) (c : Nat), m.objs[i]? = some o →
    o.weak_this_.control_block_ = some c → o.weak_this_.ptr_ = i + 1

/-- Counts after one more reference through the block pointer `ob`. -/
def bump (f : Nat → Nat) (ob : Option Nat) : Nat → Nat :=
  fun x => if ob = some x then f x + 1 else f x

/-- Counts after one reference through the block pointer `ob` is given up. -/
def drop (f : Nat → Nat) (ob : Option Nat) : Nat → Nat :=
  fun x => if ob = some x then f x - 1 else f x

/-- How one operation changes the strong references held by the handle variables: at most
one reference is given up, through the block pointer `rel`, and at most one is taken,
through `acq`; a reference is taken to a block that is new, or that another live
`SharedPtr` shares, or whose strong counter is not zero. -/
structure SharedDelta (s s1 : State) (rel acq : Option Nat) : Prop where
  counts : countShared s1.shared = bump (drop (countShared s.shared) rel) acq
  rel_pos : ∀ b, rel = some b → 1 ≤ countShared s.shared b
  acq_ok : ∀ b, acq = some b →
    s.mem.blocks[b]? = none ∨ 1 ≤ drop (countShared s.shared) rel b ∨
      ∃ blk : Block, s.mem.blocks[b]? = some blk ∧ blk.freed = false ∧
        blk.base.ref_counter_ ≠ 0

/-- Whether the operation is a constructor, an assignment, a modifier or the destructor of
`SharedPtr` (the members of `WeakPtr`, `Lock()` among them, are not). -/
def Op.isSharedOp : Op → Bool
  | Op.sDefault => true
  | Op.sFromRaw _ => true
  | Op.sMakeShared => true
  | Op.sCopy _ => true
  | Op.sMove _ => true
  | Op.sAlias _ _ => true
  | Op.sFromWeak _ => true
  | Op.sCopyAssign _ _ => true
  | Op.sMoveAssign _ _ => true
  | Op.sReset _ => true
  | Op.sResetPtr _ _ => true
  | Op.sSwap _ _ => true
  | Op.sDestroy _ => true
  | _ => false

/-! ## `unique/unique.h` -/

/-- Fields of `UniquePtr<T, Deleter>` and of `UniquePtr<T[], Deleter>`: the two components
of `pair_ptr_deleter_` (a `CompressedPair<T*, Deleter>`, of which only the constructor,
`GetFirst()` and `GetSecond()` are used). The deleter is a value that names it; moving a
deleter copies that value. -/
structure UniquePtr where
  first : Nat
  second : Nat
deriving DecidableEq, Repr

/-- One call `pair_ptr_deleter_.GetSecond()(ptr)` of a deleter. -/
structure DeleterCall where
  deleter : Nat
  ptr : Nat
deriving DecidableEq, Repr

namespace UniquePtr

/-- Constructors `explicit UniquePtr(T* ptr = nullptr)` (with `deleter` the value of
`Deleter()`) and `UniquePtr(T* ptr, Deleter deleter)`. -/
def ofPtr (ptr : Nat) (deleter : Nat) : UniquePtr := { first := ptr, second := deleter }

/-- Member `Release()`: returns the pointer and the new `*this`. -/
def Release (this : UniquePtr) : Nat × UniquePtr :=
  let current_pointer := this.first
  (current_pointer, { this with first := 0 })

/-- Member `Reset(T* ptr = nullptr)`: returns the new `*this` and the deleter calls. -/
def Reset (this : UniquePtr) (ptr : Nat) (log : List DeleterCall) :
    UniquePtr × List DeleterCall :=
  let tmp := this.first
  let this1 : UniquePtr := { this with first := ptr }
  if tmp ≠ 0 then (this1, log ++ [{ deleter := this1.second, ptr := tmp }]) else (this1, log)

/-- Constructor `UniquePtr(UniquePtr<OtherT, OtherD>&& other)`: returns the new handle and
the moved-from `other`. -/
def move (other : UniquePtr) : UniquePtr × UniquePtr :=
  let (p, other1) := other.Release
  ({ first := p, second := other1.second }, other1)

/-- Assignment `operator=(std::nullptr_t)`: the deleter is called with `GetFirst()`, then
`GetFirst()` is set to null. -/
def assignNull (this : UniquePtr) (log : List DeleterCall) : UniquePtr × List DeleterCall :=
  ({ this with first := 0 }, log ++ [{ deleter := this.second, ptr := this.first }])

/-- Destructor `~UniquePtr()`. -/
def dtor (this : UniquePtr) (log : List DeleterCall) : List DeleterCall :=
  if this.first ≠ 0 then log ++ [{ deleter := this.second, ptr := this.first }] else log

/-- Member `Swap(UniquePtr& other)`. -/
def Swap (this other : UniquePtr) : UniquePtr × UniquePtr := (other, this)

/-- Member `Get()`. -/
def Get (this : UniquePtr) : Nat := this.first

/-- Conversion `explicit operator bool()`. -/
def toBool (this : UniquePtr) : Bool := this.first != 0

end UniquePtr

/-- A program state for `UniquePtr`: the handle variables created so far (`none` after the
destructor), the deleter calls made so far, and the pointers that `Release()` has returned
to the program. -/
structure UState where
  ptrs : List (Option UniquePtr)
  log : List DeleterCall
  released : List Nat
deriving DecidableEq, Repr

/-- The operations on `UniquePtr` variables, named by their index. -/
inductive UOp where
  | uNew (ptr : Nat) (deleter : Nat)
  | uMove (src : Nat)
  | uMoveAssign (dst src : Nat)
  | uAssignNull (h : Nat)
  | uDestroy (h : Nat)
  | uRelease (h : Nat)
  | uReset (h : Nat) (ptr : Nat)
  | uSwap (a b : Nat)
deriving DecidableEq, Repr

namespace UState

/-- The state before the first operation. -/
def init : UState := { ptrs := [], log := [], released := [] }

/-- The live `UniquePtr` variable with index `i`. -/
def get (s : UState) (i : Nat) : Except Err UniquePtr :=
  match s.ptrs[i]? with
  | some (some h) => Except.ok h
  | _ => Except.error Err.badHandle

/-- Write the variable with index `i`. -/
def set (s : UState) (i : Nat) (h : UniquePtr) : UState :=
  { s with ptrs := s.ptrs.set i (some h) }

end UState

/-- One operation on `UniquePtr` variables. The move assignment
`operator=(UniquePtr<OtherT, OtherD>&& other)` is run statement by statement on the
variables, so that `other` may be `*this`: `other.Release()`, then `Reset(...)` on `*this`,
then `GetSecond() = std::move(other.GetDeleter())`. -/
def ustep (op : UOp) (s : UState) : Except Err UState :=
  match op with
  | UOp.uNew ptr deleter =>
    pure { s with ptrs := s.ptrs ++ [some (UniquePtr.ofPtr ptr deleter)] }
  | UOp.uMove src => do
    let other ← s.get src
    let (h, other1) := UniquePtr.move other
    pure { s with ptrs := (s.ptrs.set src (some other1)) ++ [some h] }
  | UOp.uMoveAssign dst src => do
    let other ← s.get src
    let (p, other1) := other.Release
    let s1 := s.set src other1
    let this ← s1.get dst
    let (this1, log1) := this.Reset p s1.log
    let s2 : UState := { (s1.set dst this1) with log := log1 }
    let other2 ← s2.get src
    let this2 ← s2.get dst
    pure (s2.set dst { this2 with second := other2.second })
  | UOp.uAssignNull h => do
    let this ← s.get h
    let (this1, log1) := this.assignNull s.log
    pure { (s.set h this1) with log := log1 }
  | UOp.uDestroy h => do
    let this ← s.get h
    pure { s with ptrs := s.ptrs.set h none, log := this.dtor s.log }
  | UOp.uRelease h => do
    let this ← s.get h
    let (p, this1) := this.Release
    pure { (s.set h this1) with released := s.released ++ [p] }
  | UOp.uReset h ptr => do
    let this ← s.get h
    let (this1, log1) := this.Reset ptr s.log
    pure { (s.set h this1) with log := log1 }
  | UOp.uSwap a b => do
    let this ← s.get a
    let other ← s.get b
    let (this1, other1) := UniquePtr.Swap this other
    pure { s with ptrs := (s.ptrs.set a (some this1)).set b (some other1) }

/-- A program over `UniquePtr` variables. -/
def urun : List UOp → UState → Except Err UState
  | [], s => pure s
  | op :: ops, s => do
    let s1 ← ustep op s
    urun ops s1

/-- Whether a `UniquePtr` variable is live and holds the pointer `p`. -/
def holdsPtr (p : Nat) (o : Option UniquePtr) : Bool :=
  match o with
  | some h => h.first == p
  | none => false

/-- Number of live `UniquePtr` variables that hold the pointer `p`. -/
def UState.held (s : UState) (p : Nat) : Nat := s.ptrs.countP (holdsPtr p)

/-- Number of deleter calls made with the pointer `p`. -/
def UState.deleted (s : UState) (p : Nat) : Nat := s.log.countP (fun c => c.ptr == p)

/-- Number of times `Release()` has returned the pointer `p` to the program. -/
def UState.givenUp (s : UState) (p : Nat) : Nat := s.released.count p

/-- Number of times the operation hands the pointer `p` to a `UniquePtr` (constructor from
a pointer, `Reset`). -/
def UOp.acquired (op : UOp) (p : Nat) : Nat :=
  match op with
  | UOp.uNew q _ => if q = p then 1 else 0
  | UOp.uReset _ q => if q = p then 1 else 0
  | _ => 0

/-- Whether the operation is the assignment `operator=(std::nullptr_t)`. -/
def UOp.isAssignNull : UOp → Bool
  | UOp.uAssignNull _ => true
  | _ => false

/-! ## `shared/shared.h`: the `SharedPtr` that stands alone

The file has its own copy of `ControlBlockBase` (the same text as in `weak/sw_fwd.h`, so the
counter operations on the heap are shared here) and its own block classes, whose
destructors destroy the pointee. There is no `WeakPtr` and no `weak_this_` in it. -/

namespace Standalone

/-- Destructor of the pointee at address `p`. -/
def destroyPointee (m : Mem) (p : Nat) : Except Err Mem := do
  let o ← m.obj p
  pure (m.setObj p { o with destroyed := true })

/-- Virtual call `control_block_->DeleteT()`: `delete ptr_` for a `ControlBlockPointer`,
`GetPointer()->~T()` for a `ControlBlockHolder`. -/
def DeleteT (m : Mem) (b : Nat) : Except Err Mem := do
  let blk ← m.block b
  let m1 := m.setBlock b { blk with deleteT_calls := blk.deleteT_calls + 1 }
  match blk.kind with
  | BlockKind.pointer p => if p = 0 then pure m1 else destroyPointee m1 p
  | BlockKind.holder p => destroyPointee m1 p

/-- Statement `delete control_block_`: the destructor of the block class runs, with body
`delete ptr_` in `~ControlBlockPointer()` and `GetPointer()->~T()` in
`~ControlBlockHolder()`, and the block is given back. -/
def deleteBlock (m : Mem) (b : Nat) : Except Err Mem := do
  let blk ← m.block b
  let m1 ← match blk.kind with
    | BlockKind.pointer p => if p = 0 then pure m else destroyPointee m p
    | BlockKind.holder p => destroyPointee m p
  m1.free b

/-- Private `SharedPtr::TryToDeleteBlock`: the first branch has `delete control_block_`
only. -/
def TryToDeleteBlock (this : SharedPtr) (m : Mem) : Except Err Mem :=
  match this.control_block_ with
  | none => pure m
  | some b => do
    let blk ← m.block b
    if blk.base.GetWeakRefCounter = 0 ∧ blk.base.GetRefCounter = 1 then
      deleteBlock m b
    else if blk.base.GetWeakRefCounter > 0 ∧ blk.base.GetRefCounter = 1 then
      let m1 ← m.RemoveReference b
      DeleteT m1 b
    else
      m.RemoveReference b

/-- Constructors `SharedPtr(T* ptr)` and `SharedPtr(Y* ptr)`; the constructor
`ControlBlockPointer(T* ptr)` has the text of the one in `weak/sw_fwd.h`. -/
def ofRaw (ptr : Nat) (m : Mem) : Except Err (SharedPtr × Mem) :=
  let (b, m1) := m.alloc (ControlBlockPointer.new ptr)
  pure ({ ptr_ := ptr, control_block_ := some b }, m1)

/-- Constructors `SharedPtr(const SharedPtr<T>& other)` and `SharedPtr(const SharedPtr<Y>&)`. -/
def copy (other : SharedPtr) (m : Mem) : Except Err (SharedPtr × Mem) := do
  let this : SharedPtr := { ptr_ := other.ptr_, control_block_ := other.control_block_ }
  match this.control_block_ with
  | some b =>
    let m1 ← m.AddReference b
    pure (this, m1)
  | none => pure (this, m)

/-- Constructors `SharedPtr(SharedPtr&& other)` and `SharedPtr(SharedPtr<Y>&&)`; returns
the new handle and the moved-from `other`. -/
def move (other : SharedPtr) : SharedPtr × SharedPtr :=
  ({ ptr_ := other.ptr_, control_block_ := other.control_block_ }, SharedPtr.default)

/-- Constructor `SharedPtr(ControlBlockHolder<Y>* block)`. -/
def ofHolder (b : Nat) (m : Mem) : Except Err (SharedPtr × Mem) := do
  let blk ← m.block b
  pure ({ ptr_ := blk.pointee, control_block_ := some b }, m)

/-- The storage of a new `ControlBlockHolder` in which no `T` has been constructed: it has
an address, and an access to a `T` at that address is outside the lifetime of any object. -/
def newStorage (m : Mem) : Nat × Mem :=
  (m.objs.length + 1,
   { m with objs := m.objs ++ [{ weak_this_ := { ptr_ := 0, control_block_ := none }
                                 destroyed := true }] })

/-- Function `MakeShared<T>(args...)`, that is `new ControlBlockHolder<T>(args...)` handed
to the constructor above. `args` says whether there is at least one argument: then the
constructor template `ControlBlockHolder(Args&&...)` builds the pointee in `storage_`;
without arguments the constructor `ControlBlockHolder()` is chosen, which builds nothing.
Both end with `AddReference()`. -/
def MakeShared (args : Bool) (m : Mem) : Except Err (SharedPtr × Mem) :=
  let (p, m1) := if args then m.newObj else newStorage m
  let (b, m2) := m1.alloc (ControlBlockHolder.new p)
  ofHolder b m2

/-- Aliasing constructor `SharedPtr(const SharedPtr<X>& other, T* ptr)`. -/
def aliasing (other : SharedPtr) (ptr : Nat) (m : Mem) : Except Err (SharedPtr × Mem) := do
  let this : SharedPtr := { ptr_ := ptr, control_block_ := other.control_block_ }
  match this.control_block_ with
  | some b =>
    let m1 ← m.AddReference b
    pure (this, m1)
  | none => pure (this, m)

/-- Copy assignment `operator=(const SharedPtr& other)` for `this != &other`. -/
def copyAssign (this other : SharedPtr) (m : Mem) : Except Err (SharedPtr × Mem) := do
  let m1 ← TryToDeleteBlock this m
  let this1 : SharedPtr := { ptr_ := other.ptr_, control_block_ := other.control_block_ }
  match this1.control_block_ with
  | some b =>
    let m2 ← m1.AddReference b
    pure (this1, m2)
  | none => pure (this1, m1)

/-- Move assignment `operator=(SharedPtr&& other)` for `this != &other`; returns the new
`*this` and the moved-from `other`. -/
def moveAssign (this other : SharedPtr) (m : Mem) :
    Except Err (SharedPtr × SharedPtr × Mem) := do
  let m1 ← TryToDeleteBlock this m
  pure ({ ptr_ := other.ptr_, control_block_ := other.control_block_ }, SharedPtr.default, m1)

/-- Destructor `~SharedPtr()`. -/
def dtor (this : SharedPtr) (m : Mem) : Except Err Mem :=
  TryToDeleteBlock this m

/-- Member `Reset()`. -/
def Reset (this : SharedPtr) (m : Mem) : Except Err (SharedPtr × Mem) := do
  let m1 ← TryToDeleteBlock this m
  pure (SharedPtr.default, m1)

/-- Members `Reset(T* ptr)` and `Reset(Y* ptr)`. -/
def ResetPtr (this : SharedPtr) (ptr : Nat) (m : Mem) : Except Err (SharedPtr × Mem) := do
  let m1 ← TryToDeleteBlock this m
  let (b, m2) := m1.alloc (ControlBlockPointer.new ptr)
  pure ({ ptr_ := ptr, control_block_ := some b }, m2)

/-- One operation of a program over the `SharedPtr` of `shared/shared.h`. The observers
`Get()`, `UseCount()`, `operator bool` and `Swap` have the text of the other file. The
operations of `WeakPtr` and the promotion from a `WeakPtr` have no definition in this file
and are not programs over it. -/
def step (args : Bool) (op : Op) (s : State) : Except Err State :=
  match op with
  | Op.newObj => pure { s with mem := s.mem.newObj.2 }
  | Op.sDefault => pure { s with shared := s.shared ++ [some SharedPtr.default] }
  | Op.sFromRaw ptr => do
    let (h, m) ← ofRaw ptr s.mem
    pure { s with mem := m, shared := s.shared ++ [some h] }
  | Op.sMakeShared => do
    let (h, m) ← MakeShared args s.mem
    pure { s with mem := m, shared := s.shared ++ [some h] }
  | Op.sCopy src => do
    let other ← s.getShared src
    let (h, m) ← copy other s.mem
    pure { s with mem := m, shared := s.shared ++ [some h] }
  | Op.sMove src => do
    let other ← s.getShared src
    let (h, other1) := move other
    pure { s with shared := (s.shared.set src (some other1)) ++ [some h] }
  | Op.sAlias src ptr => do
    let other ← s.getShared src
    let (h, m) ← aliasing other ptr s.mem
    pure { s with mem := m, shared := s.shared ++ [some h] }
  | Op.sCopyAssign dst src => do
    let this ← s.getShared dst
    let other ← s.getShared src
    if dst = src then pure s
    else
      let (this1, m) ← copyAssign this other s.mem
      pure { s with mem := m, shared := s.shared.set dst (some this1) }
  | Op.sMoveAssign dst src => do
    let this ← s.getShared dst
    let other ← s.getShared src
    if dst = src then pure s
    else
      let (this1, other1, m) ← moveAssign this other s.mem
      pure { s with mem := m
                    shared := (s.shared.set dst (some this1)).set src (some other1) }
  | Op.sReset h => do
    let this ← s.getShared h
    let (this1, m) ← Reset this s.mem
    pure { s with mem := m, shared := s.shared.set h (some this1) }
  | Op.sResetPtr h ptr => do
    let this ← s.getShared h
    let (this1, m) ← ResetPtr this ptr s.mem
    pure { s with mem := m, shared := s.shared.set h (some this1) }
  | Op.sSwap a b => do
    let this ← s.getShared a
    let other ← s.getShared b
    let (this1, other1) := SharedPtr.Swap this other
    pure { s with shared := (s.shared.set a (some this1)).set b (some other1) }
  | Op.sDestroy h => do
    let this ← s.getShared h
    let m ← dtor this s.mem
    pure { s with mem := m, shared := s.shared.set h none }
  | _ => Except.error Err.badHandle

/-- A program over the `SharedPtr` of `shared/shared.h`. -/
def run (args : Bool) : List Op → State → Except Err State
  | [], s => pure s
  | op :: ops, s => do
    let s1 ← step args op s
    run args ops s1

end Standalone

/-- Whether the operation exists for the `SharedPtr` of `shared/shared.h`: everything but
the operations of `WeakPtr` and the promotion from a `WeakPtr`. -/
def Op.isStandalone : Op → Bool
  | Op.newObj => true
  | Op.sDefault => true
  | Op.sFromRaw _ => true
  | Op.sMakeShared => true
  | Op.sCopy _ => true
  | Op.sMove _ => true
  | Op.sAlias _ _ => true
  | Op.sCopyAssign _ _ => true
  | Op.sMoveAssign _ _ => true
  | Op.sReset _ => true
  | Op.sResetPtr _ _ => true
  | Op.sSwap _ _ => true
  | Op.sDestroy _ => true
  | _ => false

/-- The block without the count of `DeleteT` calls. -/
def Block.erase (blk : Block) : Block := { blk with deleteT_calls := 0 }

/-- The heap without the counts of `DeleteT` calls: what a program can observe of it
(counters, pointees alive or destroyed, blocks freed or not). -/
def Mem.erase (m : Mem) : Mem := { m with blocks := m.blocks.map Block.erase }

/-- The state without the counts of `DeleteT` calls. -/
def State.erase (s : State) : State := { s with mem := s.mem.erase }

end SmartPointers

namespace SmartPointers

/-! ## Arithmetic of the counters -/

theorem SIZE_eq : SIZE = 18446744073709551616 := rfl

theorem SIZE_eq_pow : SIZE = 2 ^ 64 := by
  rw [SIZE_eq]
  norm_num

theorem succ_mod_SIZE {n : Nat} (h : n + 1 < SIZE) : (n + 1) % SIZE = n + 1 :=
  Nat.mod_eq_of_lt h

/-- The decrement of a `size_t` counter is the subtraction modulo `2 ^ 64`. -/
theorem wrap_dec_eq_mod {n : Nat} (h : n < SIZE) :
    (if n = 0 then SIZE - 1 else n - 1) = (n + (SIZE - 1)) % SIZE := by
  rw [SIZE_eq] at *
  split <;> omega

theorem wrap_dec_pos {n : Nat} (h1 : 1 ≤ n) :
    (if n = 0 then SIZE - 1 else n - 1) = n - 1 := by
  rw [if_neg (by omega)]

/-! ## Results of `Except` computations -/

theorem bind_ok {α β : Type} {x : Except Err α} {f : α → Except Err β} {v : β} :
    (x >>= f) = Except.ok v ↔ ∃ a, x = Except.ok a ∧ f a = Except.ok v := by
  cases x <;> simp [bind, Except.bind]

theorem pure_ok {α : Type} {a v : α} : (pure a : Except Err α) = Except.ok v ↔ a = v := by
  simp [pure, Except.pure]

/-! ## Heap accesses -/

theorem Mem.block_ok {m : Mem} {b : Nat} {blk : Block} :
    m.block b = Except.ok blk ↔ m.blocks[b]? = some blk ∧ blk.freed = false := by
  unfold Mem.block
  cases h : m.blocks[b]? with
  | none => simp
  | some blk0 =>
    by_cases hf : blk0.freed = true
    · simp only [hf, if_true, Option.some.injEq, reduceCtorEq, false_iff, not_and]
      intro h1
      rw [← h1, hf]
      decide
    · have hf2 : blk0.freed = false := by simpa using hf
      simp only [hf2, Bool.false_eq_true, if_false, Except.ok.injEq, Option.some.injEq]
      constructor
      · intro h1
        rw [← h1]
        exact ⟨rfl, hf2⟩
      · intro h1
        exact h1.1

theorem Mem.getElem?_setBlock {m : Mem} {b : Nat} {blk blk1 : Block}
    (hb : m.blocks[b]? = some blk) (x : Nat) :
    (m.setBlock b blk1).blocks[x]? = if x = b then some blk1 else m.blocks[x]? := by
  have hlt : b < m.blocks.length := by
    by_contra hge
    rw [List.getElem?_eq_none (by omega)] at hb
    cases hb
  simp only [Mem.setBlock, List.getElem?_set, hlt, if_true]
  by_cases hx : x = b
  · subst hx
    simp
  · have : ¬ b = x := fun h => hx h.symm
    simp [hx, this]

/-! ## One block against the number of references to it -/

theorem Block.good_congr {b1 b2 : Block} (h : b1.kind = b2.kind) : b1.good = b2.good := by
  unfold Block.good
  rw [h]

theorem BInv_addRef {blk : Block} {ns nw : Nat} (h : BInv (some blk) ns nw)
    (hf : blk.freed = false) (hr : blk.good = true → blk.base.ref_counter_ ≠ 0)
    (hb : ns + 1 < SIZE) :
    BInv (some { blk with base := blk.base.AddReference }) (ns + 1) nw := by
  refine ⟨fun _ => h.1 hf, fun hg => ?_, fun hf1 => absurd (hf.symm.trans hf1) (by decide)⟩
  have g := h.2.1 hg
  have hne := hr hg
  have hre := g.ref_eq hf
  refine ⟨fun _ => ?_, fun _ => by omega, fun hf1 => ?_, ?_⟩
  · simp only [ControlBlockBase.AddReference]
    rw [hre, succ_mod_SIZE hb]
  · exact absurd (hf.symm.trans hf1) (by decide)
  · simp only []
    rw [g.deleted]
    have : ns ≠ 0 := by omega
    simp [this]

theorem BInv_addWeak {blk : Block} {ns nw : Nat} (h : BInv (some blk) ns nw)
    (hf : blk.freed = false) (hb : nw + 1 < SIZE) :
    BInv (some { blk with base := blk.base.AddWeakRef }) ns (nw + 1) := by
  refine ⟨fun _ => ?_, fun hg => ?_, fun hf1 => absurd (hf.symm.trans hf1) (by decide)⟩
  · simp only [ControlBlockBase.AddWeakRef]
    rw [h.1 hf, succ_mod_SIZE hb]
  · have g := h.2.1 hg
    refine ⟨fun _ => g.ref_eq hf, fun _ => by omega, fun hf1 => ?_, g.deleted⟩
    exact absurd (hf.symm.trans hf1) (by decide)

theorem BInv_weakFree {blk : Block} {ns nw : Nat} (h : BInv (some blk) ns nw)
    (hf : blk.freed = false) (hr : blk.base.ref_counter_ = 0)
    (hw : blk.base.weak_ref_counter_ = 1) :
    BInv (some { blk with freed := true }) ns (nw - 1) := by
  have hwe := h.1 hf
  refine ⟨fun hf1 => (by cases hf1), fun hg => ?_, fun _ => by omega⟩
  have g := h.2.1 hg
  have hre := g.ref_eq hf
  refine ⟨fun hf1 => (by cases hf1), fun hf1 => (by cases hf1), fun _ => by omega, ?_⟩
  exact g.deleted

theorem BInv_weakDec {blk : Block} {ns nw : Nat} (h : BInv (some blk) ns nw)
    (hf : blk.freed = false)
    (hc : ¬ (blk.base.ref_counter_ = 0 ∧ blk.base.weak_ref_counter_ = 1))
    (h1 : 1 ≤ nw) :
    BInv (some { blk with base := blk.base.DecWeakRef }) ns (nw - 1) := by
  refine ⟨fun _ => ?_, fun hg => ?_, fun hf1 => absurd (hf.symm.trans hf1) (by decide)⟩
  · simp only [ControlBlockBase.DecWeakRef]
    rw [h.1 hf, wrap_dec_pos h1]
  · have g := h.2.1 hg
    have hre := g.ref_eq hf
    have hwe := h.1 hf
    refine ⟨fun _ => hre, fun _ => ?_, fun hf1 => ?_, g.deleted⟩
    · by_cases hns : ns = 0
      · have : nw ≠ 1 := fun h1 => hc ⟨by omega, by omega⟩
        omega
      · omega
    · exact absurd (hf.symm.trans hf1) (by decide)

theorem BInv_strongFree {blk : Block} {ns nw : Nat} (h : BInv (some blk) ns nw)
    (hf : blk.freed = false) (hw : blk.base.weak_ref_counter_ = 0)
    (hr : blk.base.ref_counter_ = 1) :
    BInv (some { blk with deleteT_calls := blk.deleteT_calls + 1, freed := true })
      (ns - 1) nw := by
  have hwe := h.1 hf
  refine ⟨fun hf1 => (by cases hf1), fun hg => ?_, fun _ => by omega⟩
  have g := h.2.1 hg
  have hre := g.ref_eq hf
  refine ⟨fun hf1 => (by cases hf1), fun hf1 => (by cases hf1), fun _ => by omega, ?_⟩
  simp only []
  rw [g.deleted]
  have h1 : ns ≠ 0 := by omega
  have h2 : ns - 1 = 0 := by omega
  simp [h1, h2]

theorem BInv_strongLast {blk : Block} {ns nw : Nat} (h : BInv (some blk) ns nw)
    (hf : blk.freed = false) (hw : 0 < blk.base.weak_ref_counter_)
    (hr : blk.base.ref_counter_ = 1) :
    BInv (some { blk with base := blk.base.RemoveReference,
                          deleteT_calls := blk.deleteT_calls + 1 }) (ns - 1) nw := by
  refine ⟨fun _ => h.1 hf, fun hg => ?_, fun hf1 => absurd (hf.symm.trans hf1) (by decide)⟩
  have g := h.2.1 hg
  have hre := g.ref_eq hf
  have hwe := h.1 hf
  refine ⟨fun _ => ?_, fun _ => by omega, fun hf1 => ?_, ?_⟩
  · simp only [ControlBlockBase.RemoveReference]
    rw [hr, ← hre, hr]
    rfl
  · exact absurd (hf.symm.trans hf1) (by decide)
  · simp only []
    rw [g.deleted]
    have h1 : ns ≠ 0 := by omega
    have h2 : ns - 1 = 0 := by omega
    simp [h1, h2]

theorem BInv_strongDec {blk : Block} {ns nw : Nat} (h : BInv (some blk) ns nw)
    (hf : blk.freed = false) (hr : blk.base.ref_counter_ ≠ 1)
    (h1 : 1 ≤ ns) :
    BInv (some { blk with base := blk.base.RemoveReference }) (ns - 1) nw := by
  refine ⟨fun _ => h.1 hf, fun hg => ?_, fun hf1 => absurd (hf.symm.trans hf1) (by decide)⟩
  have g := h.2.1 hg
  have hre := g.ref_eq hf
  refine ⟨fun _ => ?_, fun _ => by omega, fun hf1 => ?_, ?_⟩
  · simp only [ControlBlockBase.RemoveReference]
    rw [hre, wrap_dec_pos h1]
  · exact absurd (hf.symm.trans hf1) (by decide)
  · simp only []
    rw [g.deleted]
    have h2 : ns ≠ 0 := by omega
    have h3 : ns - 1 ≠ 0 := by omega
    simp [h2, h3]

theorem BInv_allocPointer {ns nw : Nat} (h : BInv none ns nw) (p : Nat) :
    BInv (some (ControlBlockPointer.new p)) (ns + 1) nw := by
  obtain ⟨rfl, rfl⟩ := h
  refine ⟨fun _ => ?_, fun hg => ?_, fun _ => rfl⟩
  · by_cases hp : p = 0 <;> simp [ControlBlockPointer.new, hp, ControlBlockBase.init,
      ControlBlockBase.AddReference]
  · have hp : p ≠ 0 := by
      simpa [Block.good, ControlBlockPointer.new] using hg
    refine ⟨fun _ => ?_, fun _ => by omega, fun hf1 => (by cases hf1), ?_⟩
    · simp [ControlBlockPointer.new, hp, ControlBlockBase.init, ControlBlockBase.AddReference,
        SIZE_eq]
    · simp [ControlBlockPointer.new]

theorem BInv_allocHolder {ns nw : Nat} (h : BInv none ns nw) (p : Nat) :
    BInv (some (ControlBlockHolder.new p)) (ns + 1) nw := by
  obtain ⟨rfl, rfl⟩ := h
  refine ⟨fun _ => ?_, fun _ => ?_, fun _ => rfl⟩
  · simp [ControlBlockHolder.new, ControlBlockBase.init, ControlBlockBase.AddReference]
  · refine ⟨fun _ => ?_, fun _ => by omega, fun hf1 => (by cases hf1), ?_⟩
    · simp [ControlBlockHolder.new, ControlBlockBase.init, ControlBlockBase.AddReference,
        SIZE_eq]
    · simp [ControlBlockHolder.new]

/-! ## Counting in lists -/

theorem countP_set_some {α : Type} (p : α → Bool) (l : List α) (i : Nat) (old a : α)
    (h : l[i]? = some old) :
    (l.set i a).countP p + (if p old = true then 1 else 0)
      = l.countP p + (if p a = true then 1 else 0) := by
  obtain ⟨hi, he⟩ := List.getElem?_eq_some.mp h
  have h1 := List.countP_set p l i a hi
  have h2 := List.boole_getElem_le_countP p l i hi
  rw [he] at h1 h2
  generalize (if p old = true then 1 else 0) = x at *
  generalize (if p a = true then 1 else 0) = y at *
  omega

theorem countP_pos_of_getElem? {α : Type} (p : α → Bool) (l : List α) (i : Nat) (a : α)
    (h : l[i]? = some a) (hp : p a = true) : 1 ≤ l.countP p := by
  obtain ⟨hi, he⟩ := List.getElem?_eq_some.mp h
  have h2 := List.boole_getElem_le_countP p l i hi
  rw [he, hp] at h2
  simpa using h2

/-! ## Effects of the counter operations on the heap -/

theorem Mem.AddReference_ok {m m1 : Mem} {b : Nat} (h : m.AddReference b = Except.ok m1) :
    ∃ blk, m.blocks[b]? = some blk ∧ blk.freed = false ∧
      m1 = m.setBlock b { blk with base := blk.base.AddReference } := by
  simp only [Mem.AddReference, bind_ok, pure_ok, Mem.block_ok] at h
  obtain ⟨blk, ⟨h1, h2⟩, h3⟩ := h
  exact ⟨blk, h1, h2, h3.symm⟩

theorem Mem.RemoveReference_ok {m m1 : Mem} {b : Nat}
    (h : m.RemoveReference b = Except.ok m1) :
    ∃ blk, m.blocks[b]? = some blk ∧ blk.freed = false ∧
      m1 = m.setBlock b { blk with base := blk.base.RemoveReference } := by
  simp only [Mem.RemoveReference, bind_ok, pure_ok, Mem.block_ok] at h
  obtain ⟨blk, ⟨h1, h2⟩, h3⟩ := h
  exact ⟨blk, h1, h2, h3.symm⟩

theorem Mem.AddWeakRef_ok {m m1 : Mem} {b : Nat} (h : m.AddWeakRef b = Except.ok m1) :
    ∃ blk, m.blocks[b]? = some blk ∧ blk.freed = false ∧
      m1 = m.setBlock b { blk with base := blk.base.AddWeakRef } := by
  simp only [Mem.AddWeakRef, bind_ok, pure_ok, Mem.block_ok] at h
  obtain ⟨blk, ⟨h1, h2⟩, h3⟩ := h
  exact ⟨blk, h1, h2, h3.symm⟩

theorem Mem.DecWeakRef_ok {m m1 : Mem} {b : Nat} (h : m.DecWeakRef b = Except.ok m1) :
    ∃ blk, m.blocks[b]? = some blk ∧ blk.freed = false ∧
      m1 = m.setBlock b { blk with base := blk.base.DecWeakRef } := by
  simp only [Mem.DecWeakRef, bind_ok, pure_ok, Mem.block_ok] at h
  obtain ⟨blk, ⟨h1, h2⟩, h3⟩ := h
  exact ⟨blk, h1, h2, h3.symm⟩

theorem Mem.free_ok {m m1 : Mem} {b : Nat} (h : m.free b = Except.ok m1) :
    ∃ blk, m.blocks[b]? = some blk ∧ blk.freed = false ∧
      m1 = m.setBlock b { blk with freed := true } := by
  simp only [Mem.free, bind_ok, pure_ok, Mem.block_ok] at h
  obtain ⟨blk, ⟨h1, h2⟩, h3⟩ := h
  exact ⟨blk, h1, h2, h3.symm⟩

theorem Mem.obj_ok {m : Mem} {p : Nat} {o : Pointee} (h : m.obj p = Except.ok o) :
    p ≠ 0 ∧ m.objs[p - 1]? = some o ∧ o.destroyed = false := by
  unfold Mem.obj at h
  by_cases hp : p = 0
  · simp [hp] at h
  · simp only [hp, if_false] at h
    cases ho : m.objs[p - 1]? with
    | none => simp [ho] at h
    | some o1 =>
      simp only [ho] at h
      by_cases hd : o1.destroyed = true
      · simp [hd] at h
      · have hd2 : o1.destroyed = false := by simpa using hd
        simp only [hd2, Bool.false_eq_true, if_false, Except.ok.injEq] at h
        subst h
        exact ⟨hp, rfl, hd2⟩

/-- Releasing a weak reference, seen block by block: the pointees are untouched, the other
blocks are untouched, and the block of the handle loses one weak reference. -/
theorem WeakPtr.TryDeleteBlock_spec {w : WeakPtr} {m m1 : Mem}
    (h : w.TryDeleteBlock m = Except.ok m1) :
    m1.objs = m.objs ∧
    (∀ x, w.control_block_ ≠ some x → m1.blocks[x]? = m.blocks[x]?) ∧
    (∀ x ns nw, w.control_block_ = some x → BInv m.blocks[x]? ns nw → 1 ≤ nw →
      BInv m1.blocks[x]? ns (nw - 1)) := by
  unfold WeakPtr.TryDeleteBlock at h
  cases hc : w.control_block_ with
  | none =>
    simp only [hc, pure_ok] at h
    subst h
    exact ⟨rfl, fun _ _ => rfl, fun x ns nw hx => by cases hx⟩
  | some c =>
    simp only [hc, bind_ok, Mem.block_ok] at h
    obtain ⟨blk, ⟨hb, hf⟩, h⟩ := h
    by_cases hcond : blk.base.GetRefCounter = 0 ∧ blk.base.GetWeakRefCounter = 1
    · rw [if_pos hcond] at h
      obtain ⟨blk1, hb1, -, rfl⟩ := Mem.free_ok h
      rw [hb] at hb1
      cases hb1
      refine ⟨rfl, fun x hx => ?_, fun x ns nw hx hi h1 => ?_⟩
      · rw [Mem.getElem?_setBlock hb, if_neg (fun e => hx (by rw [e]))]
      · cases hx
        rw [Mem.getElem?_setBlock hb, if_pos rfl]
        rw [hb] at hi
        exact BInv_weakFree hi hf hcond.1 hcond.2
    · rw [if_neg hcond] at h
      obtain ⟨blk1, hb1, -, rfl⟩ := Mem.DecWeakRef_ok h
      rw [hb] at hb1
      cases hb1
      refine ⟨rfl, fun x hx => ?_, fun x ns nw hx hi h1 => ?_⟩
      · rw [Mem.getElem?_setBlock hb, if_neg (fun e => hx (by rw [e]))]
      · cases hx
        rw [Mem.getElem?_setBlock hb, if_pos rfl]
        rw [hb] at hi
        exact BInv_weakDec hi hf hcond h1

/-! ## The members `weak_this_` -/

theorem countThis_le (efst : Bool) (objs : List Pointee) (b : Nat) :
    countThis efst objs b ≤ objs.length := by
  unfold countThis
  split
  · exact List.countP_le_length _
  · exact Nat.zero_le _

theorem countThis_destroy {objs : List Pointee} {i : Nat} {o : Pointee}
    (h : objs[i]? = some o) (hd : o.destroyed = false) (x : Nat) :
    countThis true (objs.set i { o with destroyed := true }) x
      + (if o.weak_this_.control_block_ = some x then 1 else 0) = countThis true objs x := by
  have h1 := countP_set_some (selfObserves x) objs i o { o with destroyed := true } h
  simp only [countThis, if_true]
  simp only [selfObserves, hd, Bool.not_false, Bool.true_and, beq_iff_eq, Bool.not_true,
    Bool.false_and, Bool.false_eq_true, if_false, Nat.add_zero] at h1
  exact h1

theorem countThis_assign {objs : List Pointee} {i : Nat} {o : Pointee}
    (h : objs[i]? = some o) (hd : o.destroyed = false) (wt : WeakPtr) (x : Nat) :
    countThis true (objs.set i { o with weak_this_ := wt }) x
      + (if o.weak_this_.control_block_ = some x then 1 else 0)
      = countThis true objs x + (if wt.control_block_ = some x then 1 else 0) := by
  have h1 := countP_set_some (selfObserves x) objs i o { o with weak_this_ := wt } h
  simp only [countThis, if_true]
  simp only [selfObserves, hd, Bool.not_false, Bool.true_and, beq_iff_eq] at h1 ⊢
  exact h1

/-- The destructor of a pointee, seen block by block: a block that no `weak_this_` points
to is untouched, and every block keeps agreeing with the references that are left. -/
theorem Mem.destroyPointee_spec {efst : Bool} {m m1 : Mem} {p : Nat}
    (h : m.destroyPointee efst p = Except.ok m1) :
    m1.objs.length = m.objs.length ∧
    (∀ x, countThis efst m1.objs x ≤ countThis efst m.objs x) ∧
    (∀ x, countThis efst m.objs x = 0 → m1.blocks[x]? = m.blocks[x]?) ∧
    (∀ x ns nw, BInv m.blocks[x]? ns (nw + countThis efst m.objs x) →
      BInv m1.blocks[x]? ns (nw + countThis efst m1.objs x)) := by
  cases efst with
  | false =>
    simp only [Mem.destroyPointee, bind_ok, pure_ok, Bool.false_eq_true, if_false] at h
    obtain ⟨o, ho, m0, h0, rfl⟩ := h
    obtain ⟨-, hobj, hd⟩ := Mem.obj_ok ho
    subst h0
    refine ⟨by simp [Mem.setObj], fun x => by simp [countThis], fun x _ => rfl,
      fun x ns nw hi => ?_⟩
    simpa [countThis, Mem.setObj] using hi
  | true =>
    simp only [Mem.destroyPointee, bind_ok, pure_ok, if_true] at h
    obtain ⟨o, ho, m0, h0, rfl⟩ := h
    obtain ⟨-, hobj, hd⟩ := Mem.obj_ok ho
    obtain ⟨hobjs, hframe, hrel⟩ := WeakPtr.TryDeleteBlock_spec h0
    have hcount : ∀ x, countThis true (m0.setObj p { o with destroyed := true }).objs x
        + (if o.weak_this_.control_block_ = some x then 1 else 0)
        = countThis true m.objs x := by
      intro x
      simp only [Mem.setObj, hobjs]
      exact countThis_destroy hobj hd x
    refine ⟨by simp [Mem.setObj, hobjs], fun x => ?_, fun x hx => ?_, fun x ns nw hi => ?_⟩
    · have := hcount x
      omega
    · have h1 := hcount x
      have hne : o.weak_this_.control_block_ ≠ some x := by
        intro e
        rw [if_pos e] at h1
        omega
      exact hframe x hne
    · have h1 := hcount x
      by_cases hx : o.weak_this_.control_block_ = some x
      · rw [if_pos hx] at h1
        have h2 := hrel x ns (nw + countThis true m.objs x) hx hi (by omega)
        have e : nw + countThis true m.objs x - 1
            = nw + countThis true (m0.setObj p { o with destroyed := true }).objs x := by
          omega
        rw [e] at h2
        exact h2
      · rw [if_neg hx] at h1
        have h2 : (m0.setObj p { o with destroyed := true }).blocks[x]? = m.blocks[x]? :=
          hframe x hx
        have h3 : countThis true (m0.setObj p { o with destroyed := true }).objs x
            = countThis true m.objs x := by omega
        rw [h2, h3]
        exact hi

theorem Mem.DeleteT_ok {efst : Bool} {m m1 : Mem} {b : Nat}
    (h : m.DeleteT efst b = Except.ok m1) :
    ∃ blk, m.blocks[b]? = some blk ∧ blk.freed = false ∧
      (m1 = m.setBlock b { blk with deleteT_calls := blk.deleteT_calls + 1 } ∨
       ∃ p, (m.setBlock b { blk with deleteT_calls := blk.deleteT_calls + 1 }).destroyPointee
          efst p = Except.ok m1) := by
  simp only [Mem.DeleteT, bind_ok, Mem.block_ok] at h
  obtain ⟨blk, ⟨hb, hf⟩, h⟩ := h
  refine ⟨blk, hb, hf, ?_⟩
  cases hk : blk.kind with
  | pointer p =>
    simp only [hk] at h
    by_cases hp : p = 0
    · subst hp
      simp only [if_true, pure_ok] at h
      exact Or.inl h.symm
    · simp only [hp, if_false] at h
      exact Or.inr ⟨p, h⟩
  | holder p =>
    simp only [hk] at h
    exact Or.inr ⟨p, h⟩

/-- The call `DeleteT`, seen block by block. -/
theorem Mem.DeleteT_spec {efst : Bool} {m m1 : Mem} {b : Nat}
    (h : m.DeleteT efst b = Except.ok m1) :
    ∃ blk, m.blocks[b]? = some blk ∧ blk.freed = false ∧
      m1.objs.length = m.objs.length ∧
      (∀ x, countThis efst m1.objs x ≤ countThis efst m.objs x) ∧
      (countThis efst m.objs b = 0 →
        m1.blocks[b]? = some { blk with deleteT_calls := blk.deleteT_calls + 1 }) ∧
      (∀ x, x ≠ b → ∀ ns nw, BInv m.blocks[x]? ns (nw + countThis efst m.objs x) →
        BInv m1.blocks[x]? ns (nw + countThis efst m1.objs x)) ∧
      (∀ ns nw, BInv (some { blk with deleteT_calls := blk.deleteT_calls + 1 }) ns
          (nw + countThis efst m.objs b) →
        BInv m1.blocks[b]? ns (nw + countThis efst m1.objs b)) := by
  obtain ⟨blk, hb, hf, hcase⟩ := Mem.DeleteT_ok h
  refine ⟨blk, hb, hf, ?_⟩
  have hget := fun x => @Mem.getElem?_setBlock m b blk
    { blk with deleteT_calls := blk.deleteT_calls + 1 } hb x
  rcases hcase with rfl | ⟨p, hp⟩
  · refine ⟨rfl, fun x => le_refl _, fun _ => ?_, fun x hx ns nw hi => ?_, fun ns nw hi => ?_⟩
    · rw [hget, if_pos rfl]
    · rw [hget, if_neg hx]
      exact hi
    · rw [hget, if_pos rfl]
      exact hi
  · obtain ⟨hlen, hle, hframe, hrel⟩ := Mem.destroyPointee_spec hp
    refine ⟨hlen, hle, fun h0 => ?_, fun x hx ns nw hi => ?_, fun ns nw hi => ?_⟩
    · rw [hframe b h0, hget, if_pos rfl]
    · apply hrel x ns nw
      rw [hget, if_neg hx]
      exact hi
    · apply hrel b ns nw
      rw [hget, if_pos rfl]
      exact hi

theorem drop_none (f : Nat → Nat) : drop f none = f := by
  funext x
  simp [drop]

theorem drop_same (f : Nat → Nat) (b : Nat) : drop f (some b) b = f b - 1 := by
  simp [drop]

theorem drop_other (f : Nat → Nat) {b x : Nat} (h : x ≠ b) : drop f (some b) x = f x := by
  have : ¬ b = x := fun e => h e.symm
  simp [drop, this]

theorem bump_none (f : Nat → Nat) : bump f none = f := by
  funext x
  simp [bump]

theorem bump_same (f : Nat → Nat) (b : Nat) : bump f (some b) b = f b + 1 := by
  simp [bump]

theorem bump_other (f : Nat → Nat) {b x : Nat} (h : x ≠ b) : bump f (some b) x = f x := by
  have : ¬ b = x := fun e => h e.symm
  simp [bump, this]

/-- Giving up a strong reference keeps the heap in agreement with the references left. -/
theorem SharedPtr.TryToDeleteBlock_inv {efst : Bool} {this : SharedPtr} {m m1 : Mem}
    {cs cw : Nat → Nat} (hm : MInv efst m cs cw)
    (h1 : ∀ b, this.control_block_ = some b → 1 ≤ cs b)
    (hok : this.TryToDeleteBlock efst m = Except.ok m1) :
    MInv efst m1 (drop cs this.control_block_) cw ∧ m1.objs.length = m.objs.length := by
  unfold SharedPtr.TryToDeleteBlock at hok
  cases hc : this.control_block_ with
  | none =>
    simp only [hc, pure_ok] at hok
    subst hok
    rw [drop_none]
    exact ⟨hm, rfl⟩
  | some b =>
    simp only [hc, bind_ok, Mem.block_ok] at hok
    obtain ⟨blk, ⟨hb, hf⟩, hok⟩ := hok
    have hns := h1 b hc
    have hib := hm b
    rw [hb] at hib
    by_cases hc1 : blk.base.GetWeakRefCounter = 0 ∧ blk.base.GetRefCounter = 1
    · rw [if_pos hc1] at hok
      obtain ⟨m0, hdel, hfree⟩ := bind_ok.mp hok
      obtain ⟨blk0, hb0, hf0, hlen, hle, hframe, hoth, -⟩ := Mem.DeleteT_spec hdel
      rw [hb] at hb0
      cases hb0
      obtain ⟨blk2, hb2, -, rfl⟩ := Mem.free_ok hfree
      have hzero : countThis efst m.objs b = 0 := by
        have := hib.1 hf
        have h2 : blk.base.weak_ref_counter_ = 0 := hc1.1
        omega
      have hb0 := hframe hzero
      rw [hb0] at hb2
      cases hb2
      refine ⟨fun x => ?_, hlen⟩
      by_cases hx : x = b
      · subst hx
        rw [Mem.getElem?_setBlock hb0, if_pos rfl, drop_same]
        have hz1 : countThis efst (m0.setBlock x
            { blk with deleteT_calls := blk.deleteT_calls + 1, freed := true }).objs x = 0 := by
          have := hle x
          simp only [Mem.setBlock]
          omega
        rw [hz1, ← hzero]
        exact BInv_strongFree hib hf hc1.1 hc1.2
      · rw [Mem.getElem?_setBlock hb0, if_neg hx, drop_other cs hx]
        exact hoth x hx _ _ (hm x)
    · rw [if_neg hc1] at hok
      by_cases hc2 : blk.base.GetWeakRefCounter > 0 ∧ blk.base.GetRefCounter = 1
      · rw [if_pos hc2] at hok
        obtain ⟨m0, hrem, hdel⟩ := bind_ok.mp hok
        obtain ⟨blk1, hb1, -, rfl⟩ := Mem.RemoveReference_ok hrem
        rw [hb] at hb1
        cases hb1
        obtain ⟨blk0, hb0, hf0, hlen, hle, hframe, hoth, hat⟩ := Mem.DeleteT_spec hdel
        rw [Mem.getElem?_setBlock hb, if_pos rfl] at hb0
        cases hb0
        refine ⟨fun x => ?_, hlen⟩
        by_cases hx : x = b
        · subst hx
          rw [drop_same]
          apply hat
          exact BInv_strongLast hib hf hc2.1 hc2.2
        · rw [drop_other cs hx]
          apply hoth x hx
          rw [Mem.getElem?_setBlock hb, if_neg hx]
          exact hm x
      · rw [if_neg hc2] at hok
        obtain ⟨blk1, hb1, -, rfl⟩ := Mem.RemoveReference_ok hok
        rw [hb] at hb1
        cases hb1
        have hne : blk.base.ref_counter_ ≠ 1 := by
          intro e
          by_cases hw : blk.base.weak_ref_counter_ = 0
          · exact hc1 ⟨hw, e⟩
          · exact hc2 ⟨Nat.pos_of_ne_zero hw, e⟩
        refine ⟨fun x => ?_, rfl⟩
        by_cases hx : x = b
        · subst hx
          rw [Mem.getElem?_setBlock hb, if_pos rfl, drop_same]
          exact BInv_strongDec hib hf hne hns
        · rw [Mem.getElem?_setBlock hb, if_neg hx, drop_other cs hx]
          exact hm x

/-- Giving up a weak reference held by a handle variable. -/
theorem WeakPtr.TryDeleteBlock_inv {efst : Bool} {w : WeakPtr} {m m1 : Mem}
    {cs cw : Nat → Nat} (hm : MInv efst m cs cw)
    (h1 : ∀ b, w.control_block_ = some b → 1 ≤ cw b)
    (hok : w.TryDeleteBlock m = Except.ok m1) :
    MInv efst m1 cs (drop cw w.control_block_) ∧ m1.objs = m.objs := by
  obtain ⟨hobjs, hframe, hrel⟩ := WeakPtr.TryDeleteBlock_spec hok
  refine ⟨fun x => ?_, hobjs⟩
  rw [hobjs]
  by_cases hx : w.control_block_ = some x
  · have h2 := h1 x hx
    have h3 := hrel x _ _ hx (hm x) (by omega)
    rw [hx, drop_same]
    have e : cw x + countThis efst m.objs x - 1 = cw x - 1 + countThis efst m.objs x := by
      omega
    rw [e] at h3
    exact h3
  · rw [hframe x hx]
    have e : drop cw w.control_block_ x = cw x := by
      simp [drop, hx]
    rw [e]
    exact hm x

/-- One more weak reference held by a handle variable. -/
theorem Mem.AddWeakRef_inv {efst : Bool} {m m1 : Mem} {b : Nat} {cs cw : Nat → Nat}
    (hm : MInv efst m cs cw) (hb : cw b + countThis efst m.objs b + 1 < SIZE)
    (hok : m.AddWeakRef b = Except.ok m1) :
    MInv efst m1 cs (bump cw (some b)) ∧ m1.objs = m.objs := by
  obtain ⟨blk, hblk, hf, rfl⟩ := Mem.AddWeakRef_ok hok
  refine ⟨fun x => ?_, rfl⟩
  have hi := hm x
  by_cases hx : x = b
  · subst hx
    rw [Mem.getElem?_setBlock hblk, if_pos rfl, bump_same]
    rw [hblk] at hi
    have h3 := BInv_addWeak hi hf hb
    have e : cw x + countThis efst m.objs x + 1 = cw x + 1 + countThis efst m.objs x := by
      omega
    rw [e] at h3
    exact h3
  · rw [Mem.getElem?_setBlock hblk, if_neg hx, bump_other cw hx]
    exact hi

/-- One more strong reference held by a handle variable. -/
theorem Mem.AddReference_inv {efst : Bool} {m m1 : Mem} {b : Nat} {cs cw : Nat → Nat}
    (hm : MInv efst m cs cw)
    (hr : ∀ blk, m.blocks[b]? = some blk → blk.good = true → blk.base.ref_counter_ ≠ 0)
    (hb : cs b + 1 < SIZE)
    (hok : m.AddReference b = Except.ok m1) :
    MInv efst m1 (bump cs (some b)) cw ∧ m1.objs = m.objs := by
  obtain ⟨blk, hblk, hf, rfl⟩ := Mem.AddReference_ok hok
  refine ⟨fun x => ?_, rfl⟩
  have hi := hm x
  by_cases hx : x = b
  · subst hx
    rw [Mem.getElem?_setBlock hblk, if_pos rfl, bump_same]
    rw [hblk] at hi
    exact BInv_addRef hi hf (hr blk hblk) hb
  · rw [Mem.getElem?_setBlock hblk, if_neg hx, bump_other cs hx]
    exact hi

/-- A block that a counted strong reference points to has a strong counter that is not zero,
when it is a good block. -/
theorem MInv.ref_ne_zero {efst : Bool} {m : Mem} {cs cw : Nat → Nat} (hm : MInv efst m cs cw)
    {b : Nat} (h1 : 1 ≤ cs b) (blk : Block) (hblk : m.blocks[b]? = some blk)
    (hg : blk.good = true) : blk.base.ref_counter_ ≠ 0 := by
  have hi := hm b
  rw [hblk] at hi
  have g := hi.2.1 hg
  cases hf : blk.freed with
  | false =>
    have := g.ref_eq hf
    omega
  | true =>
    have := (g.gone hf).1
    omega

theorem Mem.alloc_inv {efst : Bool} {m : Mem} {cs cw : Nat → Nat} (hm : MInv efst m cs cw)
    (blk : Block)
    (hnew : ∀ ns nw, BInv none ns nw → BInv (some blk) (ns + 1) nw) :
    MInv efst (m.alloc blk).2 (bump cs (some m.blocks.length)) cw := by
  intro x
  have hi := hm x
  simp only [Mem.alloc]
  by_cases hx : x = m.blocks.length
  · subst hx
    rw [List.getElem?_concat_length, bump_same]
    rw [List.getElem?_eq_none (le_refl _)] at hi
    exact hnew _ _ hi
  · rw [bump_other cs hx]
    by_cases hlt : x < m.blocks.length
    · rw [List.getElem?_append_left hlt]
      exact hi
    · have h1 : m.blocks.length < x := by omega
      rw [List.getElem?_eq_none (by simp; omega)]
      rw [List.getElem?_eq_none (by omega)] at hi
      exact hi

theorem Mem.newObj_inv {efst : Bool} {m : Mem} {cs cw : Nat → Nat} (hm : MInv efst m cs cw) :
    MInv efst m.newObj.2 cs cw := by
  intro x
  have hi := hm x
  have e : countThis efst m.newObj.2.objs x = countThis efst m.objs x := by
    simp [Mem.newObj, countThis, selfObserves]
  rw [e]
  exact hi

theorem WeakPtr.ofShared_ok {other : SharedPtr} {m m1 : Mem} {w : WeakPtr}
    (h : WeakPtr.ofShared other m = Except.ok (w, m1)) :
    ∃ b, other.control_block_ = some b ∧ w = { ptr_ := other.ptr_, control_block_ := some b } ∧
      m.AddWeakRef b = Except.ok m1 := by
  unfold WeakPtr.ofShared at h
  cases hc : other.control_block_ with
  | none => simp [hc] at h
  | some b =>
    simp only [hc, bind_ok, pure_ok, Prod.mk.injEq] at h
    obtain ⟨m2, h2, h3, h4⟩ := h
    subst h4
    exact ⟨b, rfl, h3.symm, h2⟩

theorem WeakPtr.moveAssign_ok {this other a c : WeakPtr} {m m1 : Mem}
    (h : WeakPtr.moveAssign this other m = Except.ok (a, c, m1)) :
    this.TryDeleteBlock m = Except.ok m1 ∧
      a = { ptr_ := other.ptr_, control_block_ := other.control_block_ } ∧
      c = WeakPtr.default := by
  simp only [WeakPtr.moveAssign, bind_ok, pure_ok, Prod.mk.injEq] at h
  obtain ⟨m2, h2, h3, h4, h5⟩ := h
  subst h5
  exact ⟨h2, h3.symm, h4.symm⟩

theorem WeakPtr.dtor_default (m : Mem) : WeakPtr.default.dtor m = Except.ok m := rfl

/-- The statement `x->weak_this_ = *this` keeps the heap in agreement with the references:
the member takes over the reference of the temporary. -/
theorem Mem.assignWeakThis_inv {m m1 : Mem} {x : Nat} {this : SharedPtr}
    {cs cw : Nat → Nat} (hm : MInv true m cs cw)
    (hb : ∀ b, cw b + countThis true m.objs b + 1 < SIZE)
    (hok : m.assignWeakThis x this = Except.ok m1) :
    MInv true m1 cs cw ∧ m1.objs.length = m.objs.length := by
  simp only [Mem.assignWeakThis, bind_ok, pure_ok] at hok
  obtain ⟨o, ho, ⟨tmp, ma⟩, hs, ⟨wt, tmp1, mb⟩, hmv, mc, hd, rfl⟩ := hok
  obtain ⟨-, hobj, halive⟩ := Mem.obj_ok ho
  obtain ⟨b, hthis, rfl, hadd⟩ := WeakPtr.ofShared_ok hs
  obtain ⟨hrel, rfl, rfl⟩ := WeakPtr.moveAssign_ok hmv
  rw [WeakPtr.dtor_default] at hd
  cases hd
  obtain ⟨hma, hobjsa⟩ := Mem.AddWeakRef_inv hm (hb b) hadd
  obtain ⟨hobjsb, hframe, hstep⟩ := WeakPtr.TryDeleteBlock_spec hrel
  have hcount := fun y => countThis_assign hobj halive
    { ptr_ := this.ptr_, control_block_ := some b } y
  refine ⟨fun y => ?_, by simp [Mem.setObj, hobjsb, hobjsa]⟩
  have hobjs : (mb.setObj x { o with weak_this_ :=
      { ptr_ := this.ptr_, control_block_ := some b } }).objs
      = m.objs.set (x - 1) { o with weak_this_ :=
      { ptr_ := this.ptr_, control_block_ := some b } } := by
    simp [Mem.setObj, hobjsb, hobjsa]
  have hblocks : (mb.setObj x { o with weak_this_ :=
      { ptr_ := this.ptr_, control_block_ := some b } }).blocks = mb.blocks := rfl
  rw [hobjs, hblocks]
  have hc := hcount y
  have hiy := hma y
  rw [hobjsa] at hiy
  simp only [] at hc
  by_cases hy : o.weak_this_.control_block_ = some y
  · rw [if_pos hy] at hc
    have hpos : 1 ≤ countThis true m.objs y := by
      simp only [countThis, if_true]
      apply countP_pos_of_getElem? _ _ _ _ hobj
      simp [selfObserves, halive, hy]
    have h3 := hstep y _ _ hy hiy (by omega)
    by_cases hyb : y = b
    · subst hyb
      rw [bump_same] at h3
      rw [if_pos rfl] at hc
      have e : cw y + 1 + countThis true m.objs y - 1
          = cw y + countThis true (m.objs.set (x - 1) { o with weak_this_ :=
              { ptr_ := this.ptr_, control_block_ := some y } }) y := by
        omega
      rw [e] at h3
      exact h3
    · rw [bump_other cw hyb] at h3
      have hne : ¬ some b = some y := fun e => hyb (Option.some.inj e).symm
      rw [if_neg hne] at hc
      have e : cw y + countThis true m.objs y - 1
          = cw y + countThis true (m.objs.set (x - 1) { o with weak_this_ :=
              { ptr_ := this.ptr_, control_block_ := some b } }) y := by
        omega
      rw [e] at h3
      exact h3
  · rw [if_neg hy] at hc
    rw [hframe y hy]
    by_cases hyb : y = b
    · subst hyb
      rw [bump_same] at hiy
      rw [if_pos rfl] at hc
      have e : cw y + 1 + countThis true m.objs y
          = cw y + countThis true (m.objs.set (x - 1) { o with weak_this_ :=
              { ptr_ := this.ptr_, control_block_ := some y } }) y := by
        omega
      rw [e] at hiy
      exact hiy
    · rw [bump_other cw hyb] at hiy
      have hne : ¬ some b = some y := fun e => hyb (Option.some.inj e).symm
      rw [if_neg hne] at hc
      have e : countThis true m.objs y
          = countThis true (m.objs.set (x - 1) { o with weak_this_ :=
              { ptr_ := this.ptr_, control_block_ := some b } }) y := by
        omega
      rw [e] at hiy
      exact hiy


/-! ## The `SharedPtr` members against the reference counts -/

theorem SharedPtr.copy_inv {efst : Bool} {other this : SharedPtr} {m m1 : Mem}
    {cs cw : Nat → Nat} (hm : MInv efst m cs cw)
    (h1 : ∀ b, other.control_block_ = some b → 1 ≤ cs b)
    (hbs : ∀ b, cs b + 1 < SIZE)
    (hbw : ∀ b, cw b + countThis efst m.objs b + 1 < SIZE)
    (hok : SharedPtr.copy efst other m = Except.ok (this, m1)) :
    this = { ptr_ := other.ptr_, control_block_ := other.control_block_ } ∧
    MInv efst m1 (bump cs other.control_block_) cw ∧ m1.objs.length = m.objs.length := by
  unfold SharedPtr.copy at hok
  cases efst with
  | false =>
    cases hc : other.control_block_ with
    | none =>
      simp only [hc, bind_ok, pure_ok, Bool.false_eq_true, if_false, Prod.mk.injEq] at hok
      obtain ⟨a, rfl, a1, rfl, rfl, rfl⟩ := hok
      rw [bump_none]
      exact ⟨rfl, hm, rfl⟩
    | some b =>
      simp only [hc, bind_ok, pure_ok, Bool.false_eq_true, if_false, Prod.mk.injEq] at hok
      obtain ⟨a, hadd, a1, rfl, rfl, rfl⟩ := hok
      obtain ⟨h2, h3⟩ := Mem.AddReference_inv hm (hm.ref_ne_zero (h1 b hc)) (hbs b) hadd
      exact ⟨rfl, h2, by rw [h3]⟩
  | true =>
    cases hc : other.control_block_ with
    | none =>
      simp only [hc, bind_ok, pure_ok, if_true, Prod.mk.injEq] at hok
      obtain ⟨a, rfl, a1, hw, rfl, rfl⟩ := hok
      obtain ⟨h2, h3⟩ := Mem.assignWeakThis_inv hm hbw hw
      rw [bump_none]
      exact ⟨rfl, h2, h3⟩
    | some b =>
      simp only [hc, bind_ok, pure_ok, if_true, Prod.mk.injEq] at hok
      obtain ⟨a, hadd, a1, hw, rfl, rfl⟩ := hok
      obtain ⟨h2, h3⟩ := Mem.AddReference_inv hm (hm.ref_ne_zero (h1 b hc)) (hbs b) hadd
      rw [← h3] at hbw
      obtain ⟨h4, h5⟩ := Mem.assignWeakThis_inv h2 hbw hw
      exact ⟨rfl, h4, by rw [h5, h3]⟩

theorem SharedPtr.move_inv {efst : Bool} {other this other1 : SharedPtr} {m m1 : Mem}
    {cs cw : Nat → Nat} (hm : MInv efst m cs cw)
    (hbw : ∀ b, cw b + countThis efst m.objs b + 1 < SIZE)
    (hok : SharedPtr.move efst other m = Except.ok (this, other1, m1)) :
    this = { ptr_ := other.ptr_, control_block_ := other.control_block_ } ∧
    other1 = SharedPtr.default ∧
    MInv efst m1 cs cw ∧ m1.objs.length = m.objs.length := by
  unfold SharedPtr.move at hok
  cases efst with
  | false =>
    simp only [bind_ok, pure_ok, Bool.false_eq_true, if_false, Prod.mk.injEq] at hok
    obtain ⟨a, rfl, rfl, rfl, rfl⟩ := hok
    exact ⟨rfl, rfl, hm, rfl⟩
  | true =>
    simp only [bind_ok, pure_ok, if_true, Prod.mk.injEq] at hok
    obtain ⟨a, hw, rfl, rfl, rfl⟩ := hok
    obtain ⟨h2, h3⟩ := Mem.assignWeakThis_inv hm hbw hw
    exact ⟨rfl, rfl, h2, h3⟩

theorem SharedPtr.ofRaw_inv {efst : Bool} {ptr : Nat} {this : SharedPtr} {m m1 : Mem}
    {cs cw : Nat → Nat} (hm : MInv efst m cs cw)
    (hbw : ∀ b, cw b + countThis efst m.objs b + 1 < SIZE)
    (hok : SharedPtr.ofRaw efst ptr m = Except.ok (this, m1)) :
    this = { ptr_ := ptr, control_block_ := some m.blocks.length } ∧
    MInv efst m1 (bump cs this.control_block_) cw ∧ m1.objs.length = m.objs.length := by
  unfold SharedPtr.ofRaw at hok
  have h0 := Mem.alloc_inv hm (ControlBlockPointer.new ptr)
    (fun ns nw h => BInv_allocPointer h ptr)
  cases efst with
  | false =>
    simp only [bind_ok, pure_ok, Bool.false_eq_true, if_false, Prod.mk.injEq] at hok
    obtain ⟨a, rfl, rfl, rfl⟩ := hok
    exact ⟨rfl, h0, rfl⟩
  | true =>
    simp only [bind_ok, pure_ok, if_true, Prod.mk.injEq] at hok
    obtain ⟨a, hw, rfl, rfl⟩ := hok
    obtain ⟨h2, h3⟩ := Mem.assignWeakThis_inv h0 hbw hw
    exact ⟨rfl, h2, h3⟩

theorem SharedPtr.MakeShared_inv {efst : Bool} {this : SharedPtr} {m m1 : Mem}
    {cs cw : Nat → Nat} (hm : MInv efst m cs cw)
    (hbw : ∀ b, cw b + (m.objs.length + 1) + 1 < SIZE)
    (hok : SharedPtr.MakeShared efst m = Except.ok (this, m1)) :
    this = { ptr_ := m.objs.length + 1, control_block_ := some m.blocks.length } ∧
    MInv efst m1 (bump cs this.control_block_) cw ∧ m1.objs.length = m.objs.length + 1 := by
  unfold SharedPtr.MakeShared SharedPtr.ofHolder at hok
  have h0 := Mem.alloc_inv (Mem.newObj_inv hm) (ControlBlockHolder.new (m.objs.length + 1))
    (fun ns nw h => BInv_allocHolder h _)
  have hblk : (m.newObj.2.alloc (ControlBlockHolder.new (m.objs.length + 1))).2.block
      m.blocks.length = Except.ok (ControlBlockHolder.new (m.objs.length + 1)) := by
    rw [Mem.block_ok]
    refine ⟨?_, rfl⟩
    simp only [Mem.alloc, Mem.newObj]
    exact List.getElem?_concat_length _ _
  have hlen : (m.newObj.2.alloc (ControlBlockHolder.new (m.objs.length + 1))).2.objs.length
      = m.objs.length + 1 := by
    simp [Mem.alloc, Mem.newObj]
  have hbw2 : ∀ b, cw b + countThis efst
      (m.newObj.2.alloc (ControlBlockHolder.new (m.objs.length + 1))).2.objs b + 1 < SIZE := by
    intro b
    have := countThis_le efst
      (m.newObj.2.alloc (ControlBlockHolder.new (m.objs.length + 1))).2.objs b
    have := hbw b
    omega
  cases efst with
  | false =>
    simp only [Mem.newObj, Mem.alloc] at hok hblk
    simp only [hblk, bind_ok, pure_ok, Bool.false_eq_true, if_false, Prod.mk.injEq,
      Except.ok.injEq, exists_eq_left'] at hok
    obtain ⟨rfl, rfl⟩ := hok
    exact ⟨rfl, h0, hlen⟩
  | true =>
    simp only [Mem.newObj, Mem.alloc] at hok hblk
    simp only [hblk, bind_ok, pure_ok, if_true, Prod.mk.injEq, Except.ok.injEq,
      exists_eq_left'] at hok
    obtain ⟨a, hw, rfl, rfl⟩ := hok
    obtain ⟨h2, h3⟩ := Mem.assignWeakThis_inv h0 hbw2 hw
    refine ⟨rfl, h2, ?_⟩
    rw [h3]
    exact hlen


theorem SharedPtr.aliasing_inv {efst : Bool} {other this : SharedPtr} {ptr : Nat} {m m1 : Mem}
    {cs cw : Nat → Nat} (hm : MInv efst m cs cw)
    (h1 : ∀ b, other.control_block_ = some b → 1 ≤ cs b)
    (hbs : ∀ b, cs b + 1 < SIZE)
    (hok : SharedPtr.aliasing other ptr m = Except.ok (this, m1)) :
    this = { ptr_ := ptr, control_block_ := other.control_block_ } ∧
    MInv efst m1 (bump cs other.control_block_) cw ∧ m1.objs = m.objs := by
  unfold SharedPtr.aliasing at hok
  cases hc : other.control_block_ with
  | none =>
    simp only [hc, pure_ok, Prod.mk.injEq] at hok
    obtain ⟨rfl, rfl⟩ := hok
    rw [bump_none]
    exact ⟨rfl, hm, rfl⟩
  | some b =>
    simp only [hc, bind_ok, pure_ok, Prod.mk.injEq] at hok
    obtain ⟨a, hadd, rfl, rfl⟩ := hok
    obtain ⟨h2, h3⟩ := Mem.AddReference_inv hm (hm.ref_ne_zero (h1 b hc)) (hbs b) hadd
    exact ⟨rfl, h2, h3⟩

theorem SharedPtr.ofWeak_ok {other : WeakPtr} {this : SharedPtr} {m m1 : Mem}
    (hok : SharedPtr.ofWeak other m = Except.ok (this, m1)) :
    ∃ b blk, other.control_block_ = some b ∧ m.blocks[b]? = some blk ∧ blk.freed = false ∧
      blk.base.ref_counter_ ≠ 0 ∧ m.AddReference b = Except.ok m1 ∧
      this = { ptr_ := other.ptr_, control_block_ := some b } := by
  unfold SharedPtr.ofWeak at hok
  cases hc : other.control_block_ with
  | none => simp [hc] at hok
  | some b =>
    simp only [hc, bind_ok, Mem.block_ok] at hok
    obtain ⟨blk, ⟨hblk, hf⟩, hok⟩ := hok
    by_cases hz : blk.base.GetRefCounter = 0
    · simp [hz] at hok
    · simp only [hz, if_false, bind_ok, pure_ok, Prod.mk.injEq] at hok
      obtain ⟨a, hadd, rfl, rfl⟩ := hok
      exact ⟨b, blk, rfl, hblk, hf, hz, hadd, rfl⟩

theorem SharedPtr.ofWeak_inv {efst : Bool} {other : WeakPtr} {this : SharedPtr} {m m1 : Mem}
    {cs cw : Nat → Nat} (hm : MInv efst m cs cw)
    (hbs : ∀ b, cs b + 1 < SIZE)
    (hok : SharedPtr.ofWeak other m = Except.ok (this, m1)) :
    this = { ptr_ := other.ptr_, control_block_ := other.control_block_ } ∧
    MInv efst m1 (bump cs other.control_block_) cw ∧ m1.objs = m.objs := by
  obtain ⟨b, blk, hc, hblk, hf, hz, hadd, rfl⟩ := SharedPtr.ofWeak_ok hok
  have hr : ∀ blk1, m.blocks[b]? = some blk1 → blk1.good = true →
      blk1.base.ref_counter_ ≠ 0 := by
    intro blk1 h1 _
    rw [hblk] at h1
    cases h1
    exact hz
  obtain ⟨h2, h3⟩ := Mem.AddReference_inv hm hr (hbs b) hadd
  rw [hc]
  exact ⟨rfl, h2, h3⟩

theorem SharedPtr.copyAssign_inv {efst : Bool} {this other this1 : SharedPtr} {m m1 : Mem}
    {cs cw : Nat → Nat} (hm : MInv efst m cs cw)
    (h1 : ∀ b, this.control_block_ = some b → 1 ≤ cs b)
    (h2 : ∀ b, other.control_block_ = some b → 1 ≤ drop cs this.control_block_ b)
    (hbs : ∀ b, cs b + 1 < SIZE)
    (hok : SharedPtr.copyAssign efst this other m = Except.ok (this1, m1)) :
    this1 = { ptr_ := other.ptr_, control_block_ := other.control_block_ } ∧
    MInv efst m1 (bump (drop cs this.control_block_) other.control_block_) cw ∧
    m1.objs.length = m.objs.length := by
  unfold SharedPtr.copyAssign at hok
  obtain ⟨m0, hrel, hok⟩ := bind_ok.mp hok
  obtain ⟨h3, h4⟩ := SharedPtr.TryToDeleteBlock_inv hm h1 hrel
  cases hc : other.control_block_ with
  | none =>
    simp only [hc, pure_ok, Prod.mk.injEq] at hok
    obtain ⟨rfl, rfl⟩ := hok
    rw [bump_none]
    exact ⟨rfl, h3, h4⟩
  | some b =>
    simp only [hc, bind_ok, pure_ok, Prod.mk.injEq] at hok
    obtain ⟨a, hadd, rfl, rfl⟩ := hok
    have hb : drop cs this.control_block_ b + 1 < SIZE := by
      have := hbs b
      simp only [drop]
      split <;> omega
    obtain ⟨h5, h6⟩ := Mem.AddReference_inv h3 (h3.ref_ne_zero (h2 b hc)) hb hadd
    exact ⟨rfl, h5, by rw [h6, h4]⟩

theorem SharedPtr.moveAssign_inv {efst : Bool} {this other this1 other1 : SharedPtr}
    {m m1 : Mem} {cs cw : Nat → Nat} (hm : MInv efst m cs cw)
    (h1 : ∀ b, this.control_block_ = some b → 1 ≤ cs b)
    (hok : SharedPtr.moveAssign efst this other m = Except.ok (this1, other1, m1)) :
    this1 = { ptr_ := other.ptr_, control_block_ := other.control_block_ } ∧
    other1 = SharedPtr.default ∧
    MInv efst m1 (drop cs this.control_block_) cw ∧ m1.objs.length = m.objs.length := by
  simp only [SharedPtr.moveAssign, bind_ok, pure_ok, Prod.mk.injEq] at hok
  obtain ⟨m0, hrel, rfl, rfl, rfl⟩ := hok
  obtain ⟨h3, h4⟩ := SharedPtr.TryToDeleteBlock_inv hm h1 hrel
  exact ⟨rfl, rfl, h3, h4⟩

theorem SharedPtr.Reset_inv {efst : Bool} {this this1 : SharedPtr} {m m1 : Mem}
    {cs cw : Nat → Nat} (hm : MInv efst m cs cw)
    (h1 : ∀ b, this.control_block_ = some b → 1 ≤ cs b)
    (hok : SharedPtr.Reset efst this m = Except.ok (this1, m1)) :
    this1 = SharedPtr.default ∧
    MInv efst m1 (drop cs this.control_block_) cw ∧ m1.objs.length = m.objs.length := by
  simp only [SharedPtr.Reset, bind_ok, pure_ok, Prod.mk.injEq] at hok
  obtain ⟨m0, hrel, rfl, rfl⟩ := hok
  obtain ⟨h3, h4⟩ := SharedPtr.TryToDeleteBlock_inv hm h1 hrel
  exact ⟨rfl, h3, h4⟩

/-! ## The `WeakPtr` members against the reference counts -/

theorem WeakPtr.copy_winv {efst : Bool} {other this : WeakPtr} {m m1 : Mem}
    {cs cw : Nat → Nat} (hm : MInv efst m cs cw)
    (hbw : ∀ b, cw b + countThis efst m.objs b + 1 < SIZE)
    (hok : WeakPtr.copy other m = Except.ok (this, m1)) :
    this = { ptr_ := other.ptr_, control_block_ := other.control_block_ } ∧
    MInv efst m1 cs (bump cw other.control_block_) ∧ m1.objs = m.objs := by
  unfold WeakPtr.copy at hok
  cases hc : other.control_block_ with
  | none =>
    simp only [hc, pure_ok, Prod.mk.injEq] at hok
    obtain ⟨rfl, rfl⟩ := hok
    rw [bump_none]
    exact ⟨rfl, hm, rfl⟩
  | some b =>
    simp only [hc, bind_ok, pure_ok, Prod.mk.injEq] at hok
    obtain ⟨a, hadd, rfl, rfl⟩ := hok
    obtain ⟨h2, h3⟩ := Mem.AddWeakRef_inv hm (hbw b) hadd
    exact ⟨rfl, h2, h3⟩

theorem WeakPtr.ofShared_inv {efst : Bool} {other : SharedPtr} {this : WeakPtr} {m m1 : Mem}
    {cs cw : Nat → Nat} (hm : MInv efst m cs cw)
    (hbw : ∀ b, cw b + countThis efst m.objs b + 1 < SIZE)
    (hok : WeakPtr.ofShared other m = Except.ok (this, m1)) :
    this = { ptr_ := other.ptr_, control_block_ := other.control_block_ } ∧
    MInv efst m1 cs (bump cw other.control_block_) ∧ m1.objs = m.objs := by
  obtain ⟨b, hc, rfl, hadd⟩ := WeakPtr.ofShared_ok hok
  obtain ⟨h2, h3⟩ := Mem.AddWeakRef_inv hm (hbw b) hadd
  rw [hc]
  exact ⟨rfl, h2, h3⟩

theorem WeakPtr.copyAssign_winv {efst : Bool} {this other this1 : WeakPtr} {m m1 : Mem}
    {cs cw : Nat → Nat} (hm : MInv efst m cs cw)
    (h1 : ∀ b, this.control_block_ = some b → 1 ≤ cw b)
    (hbw : ∀ b, cw b + countThis efst m.objs b + 1 < SIZE)
    (hok : WeakPtr.copyAssign this other m = Except.ok (this1, m1)) :
    this1 = { ptr_ := other.ptr_, control_block_ := other.control_block_ } ∧
    MInv efst m1 cs (bump (drop cw this.control_block_) other.control_block_) ∧
    m1.objs = m.objs := by
  unfold WeakPtr.copyAssign at hok
  obtain ⟨m0, hrel, hok⟩ := bind_ok.mp hok
  obtain ⟨h3, h4⟩ := WeakPtr.TryDeleteBlock_inv hm h1 hrel
  cases hc : other.control_block_ with
  | none =>
    simp only [hc, pure_ok, Prod.mk.injEq] at hok
    obtain ⟨rfl, rfl⟩ := hok
    rw [bump_none]
    exact ⟨rfl, h3, h4⟩
  | some b =>
    simp only [hc, bind_ok, pure_ok, Prod.mk.injEq] at hok
    obtain ⟨a, hadd, rfl, rfl⟩ := hok
    have hb : drop cw this.control_block_ b + countThis efst m0.objs b + 1 < SIZE := by
      have := hbw b
      rw [h4]
      simp only [drop]
      split <;> omega
    obtain ⟨h5, h6⟩ := Mem.AddWeakRef_inv h3 hb hadd
    exact ⟨rfl, h5, by rw [h6, h4]⟩

theorem WeakPtr.moveAssign_winv {efst : Bool} {this other this1 other1 : WeakPtr}
    {m m1 : Mem} {cs cw : Nat → Nat} (hm : MInv efst m cs cw)
    (h1 : ∀ b, this.control_block_ = some b → 1 ≤ cw b)
    (hok : WeakPtr.moveAssign this other m = Except.ok (this1, other1, m1)) :
    this1 = { ptr_ := other.ptr_, control_block_ := other.control_block_ } ∧
    other1 = WeakPtr.default ∧
    MInv efst m1 cs (drop cw this.control_block_) ∧ m1.objs = m.objs := by
  obtain ⟨hrel, rfl, rfl⟩ := WeakPtr.moveAssign_ok hok
  obtain ⟨h3, h4⟩ := WeakPtr.TryDeleteBlock_inv hm h1 hrel
  exact ⟨rfl, rfl, h3, h4⟩

theorem WeakPtr.Reset_winv {efst : Bool} {this this1 : WeakPtr} {m m1 : Mem}
    {cs cw : Nat → Nat} (hm : MInv efst m cs cw)
    (h1 : ∀ b, this.control_block_ = some b → 1 ≤ cw b)
    (hok : WeakPtr.Reset this m = Except.ok (this1, m1)) :
    this1 = WeakPtr.default ∧
    MInv efst m1 cs (drop cw this.control_block_) ∧ m1.objs = m.objs := by
  simp only [WeakPtr.Reset, bind_ok, pure_ok, Prod.mk.injEq] at hok
  obtain ⟨m0, hrel, rfl, rfl⟩ := hok
  obtain ⟨h3, h4⟩ := WeakPtr.TryDeleteBlock_inv hm h1 hrel
  exact ⟨rfl, h3, h4⟩

theorem WeakPtr.Expired_ok {this : WeakPtr} {m : Mem} {e : Bool}
    (h : this.Expired m = Except.ok e) :
    (this.control_block_ = none ∧ e = true) ∨
    ∃ b blk, this.control_block_ = some b ∧ m.blocks[b]? = some blk ∧ blk.freed = false ∧
      e = (blk.base.ref_counter_ == 0) := by
  unfold WeakPtr.Expired at h
  cases hc : this.control_block_ with
  | none =>
    simp only [hc, pure_ok] at h
    exact Or.inl ⟨rfl, h.symm⟩
  | some b =>
    simp only [hc, bind_ok, pure_ok, Mem.block_ok] at h
    obtain ⟨blk, ⟨h1, h2⟩, h3⟩ := h
    exact Or.inr ⟨b, blk, rfl, h1, h2, h3.symm⟩

theorem WeakPtr.Lock_inv {efst : Bool} {this : WeakPtr} {r : SharedPtr} {m m1 : Mem}
    {cs cw : Nat → Nat} (hm : MInv efst m cs cw)
    (hbs : ∀ b, cs b + 1 < SIZE)
    (hok : WeakPtr.Lock this m = Except.ok (r, m1)) :
    (r = SharedPtr.default ∨ r = { ptr_ := this.ptr_, control_block_ := this.control_block_ }) ∧
    MInv efst m1 (bump cs r.control_block_) cw ∧ m1.objs = m.objs := by
  unfold WeakPtr.Lock at hok
  cases hc : this.control_block_ with
  | none =>
    simp only [hc, pure_ok, Prod.mk.injEq] at hok
    obtain ⟨rfl, rfl⟩ := hok
    refine ⟨Or.inl rfl, ?_, rfl⟩
    simp only [SharedPtr.default, bump_none]
    exact hm
  | some b =>
    simp only [hc, bind_ok] at hok
    obtain ⟨e, -, hok⟩ := hok
    cases e with
    | true =>
      simp only [if_true, pure_ok, Prod.mk.injEq] at hok
      obtain ⟨rfl, rfl⟩ := hok
      refine ⟨Or.inl rfl, ?_, rfl⟩
      simp only [SharedPtr.default, bump_none]
      exact hm
    | false =>
      simp only [Bool.false_eq_true, if_false] at hok
      obtain ⟨h2, h3, h4⟩ := SharedPtr.ofWeak_inv hm hbs hok
      subst h2
      exact ⟨Or.inr (by rw [hc]), h3, h4⟩


/-! ## Counting the handle variables -/

theorem countShared_push (l : List (Option SharedPtr)) (h : SharedPtr) :
    countShared (l ++ [some h]) = bump (countShared l) h.control_block_ := by
  funext x
  simp only [countShared, List.countP_append, List.countP_singleton, sharesBlock, beq_iff_eq, bump]
  split <;> rfl

theorem countShared_set {l : List (Option SharedPtr)} {i : Nat} {h : SharedPtr}
    (hi : l[i]? = some (some h)) (h1 : SharedPtr) :
    countShared (l.set i (some h1))
      = bump (drop (countShared l) h.control_block_) h1.control_block_ := by
  funext x
  have e := countP_set_some (sharesBlock x) l i (some h) (some h1) hi
  simp only [sharesBlock, beq_iff_eq] at e
  simp only [countShared, bump, drop]
  by_cases h2 : h.control_block_ = some x
  · have hp : 1 ≤ List.countP (sharesBlock x) l :=
      countP_pos_of_getElem? _ _ _ _ hi (by simp [sharesBlock, h2])
    by_cases h3 : h1.control_block_ = some x
    · simp only [h2, h3, if_true] at e ⊢
      omega
    · simp only [h2, h3, if_true, if_false] at e ⊢
      omega
  · by_cases h3 : h1.control_block_ = some x
    · simp only [h2, h3, if_true, if_false] at e ⊢
      omega
    · simp only [h2, h3, if_false] at e ⊢
      omega

theorem countShared_unset {l : List (Option SharedPtr)} {i : Nat} {h : SharedPtr}
    (hi : l[i]? = some (some h)) :
    countShared (l.set i none) = drop (countShared l) h.control_block_ := by
  funext x
  have e := countP_set_some (sharesBlock x) l i (some h) none hi
  simp only [sharesBlock, beq_iff_eq, Bool.false_eq_true, if_false] at e
  simp only [countShared, drop]
  by_cases h2 : h.control_block_ = some x
  · simp only [h2, if_true] at e ⊢
    omega
  · simp only [h2, if_false] at e ⊢
    omega

theorem countShared_pos {l : List (Option SharedPtr)} {i : Nat} {h : SharedPtr} {b : Nat}
    (hi : l[i]? = some (some h)) (hb : h.control_block_ = some b) : 1 ≤ countShared l b := by
  apply countP_pos_of_getElem? _ _ _ _ hi
  simp [sharesBlock, hb]

theorem countShared_le (l : List (Option SharedPtr)) (b : Nat) : countShared l b ≤ l.length :=
  List.countP_le_length _

theorem countWeak_push (l : List (Option WeakPtr)) (w : WeakPtr) :
    countWeak (l ++ [some w]) = bump (countWeak l) w.control_block_ := by
  funext x
  simp only [countWeak, List.countP_append, List.countP_singleton, observesBlock, beq_iff_eq,
    bump]
  split <;> rfl

theorem countWeak_set {l : List (Option WeakPtr)} {i : Nat} {w : WeakPtr}
    (hi : l[i]? = some (some w)) (w1 : WeakPtr) :
    countWeak (l.set i (some w1))
      = bump (drop (countWeak l) w.control_block_) w1.control_block_ := by
  funext x
  have e := countP_set_some (observesBlock x) l i (some w) (some w1) hi
  simp only [observesBlock, beq_iff_eq] at e
  simp only [countWeak, bump, drop]
  by_cases h2 : w.control_block_ = some x
  · have hp : 1 ≤ List.countP (observesBlock x) l :=
      countP_pos_of_getElem? _ _ _ _ hi (by simp [observesBlock, h2])
    by_cases h3 : w1.control_block_ = some x
    · simp only [h2, h3, if_true] at e ⊢
      omega
    · simp only [h2, h3, if_true, if_false] at e ⊢
      omega
  · by_cases h3 : w1.control_block_ = some x
    · simp only [h2, h3, if_true, if_false] at e ⊢
      omega
    · simp only [h2, h3, if_false] at e ⊢
      omega

theorem countWeak_unset {l : List (Option WeakPtr)} {i : Nat} {w : WeakPtr}
    (hi : l[i]? = some (some w)) :
    countWeak (l.set i none) = drop (countWeak l) w.control_block_ := by
  funext x
  have e := countP_set_some (observesBlock x) l i (some w) none hi
  simp only [observesBlock, beq_iff_eq, Bool.false_eq_true, if_false] at e
  simp only [countWeak, drop]
  by_cases h2 : w.control_block_ = some x
  · simp only [h2, if_true] at e ⊢
    omega
  · simp only [h2, if_false] at e ⊢
    omega

theorem countWeak_pos {l : List (Option WeakPtr)} {i : Nat} {w : WeakPtr} {b : Nat}
    (hi : l[i]? = some (some w)) (hb : w.control_block_ = some b) : 1 ≤ countWeak l b := by
  apply countP_pos_of_getElem? _ _ _ _ hi
  simp [observesBlock, hb]

theorem countWeak_le (l : List (Option WeakPtr)) (b : Nat) : countWeak l b ≤ l.length :=
  List.countP_le_length _

theorem bump_drop_same {f : Nat → Nat} {ob : Option Nat}
    (h : ∀ b, ob = some b → 1 ≤ f b) : bump (drop f ob) ob = f := by
  funext x
  simp only [bump, drop]
  split
  · rename_i hx
    have := h x hx
    omega
  · rfl

theorem State.getShared_ok {s : State} {i : Nat} {h : SharedPtr} :
    s.getShared i = Except.ok h ↔ s.shared[i]? = some (some h) := by
  unfold State.getShared
  split
  · rename_i h0 heq
    rw [heq]
    simp
  · rename_i hne
    simp only [reduceCtorEq, false_iff]
    intro e
    exact hne h e

theorem State.getWeak_ok {s : State} {i : Nat} {w : WeakPtr} :
    s.getWeak i = Except.ok w ↔ s.weak[i]? = some (some w) := by
  unfold State.getWeak
  split
  · rename_i h0 heq
    rw [heq]
    simp
  · rename_i hne
    simp only [reduceCtorEq, false_iff]
    intro e
    exact hne w e


/-! ## Blocks stay what they were constructed as -/

theorem Mem.Ext.refl (m : Mem) : Mem.Ext m m := fun _ blk h => ⟨blk, h, rfl⟩

theorem Mem.Ext.trans {m m1 m2 : Mem} (h1 : Mem.Ext m m1) (h2 : Mem.Ext m1 m2) :
    Mem.Ext m m2 := by
  intro b blk hb
  obtain ⟨blk1, hb1, hk1⟩ := h1 b blk hb
  obtain ⟨blk2, hb2, hk2⟩ := h2 b blk1 hb1
  exact ⟨blk2, hb2, hk2.trans hk1⟩

theorem Mem.Ext.of_blocks_eq {m m1 : Mem} (h : m1.blocks = m.blocks) : Mem.Ext m m1 := by
  intro b blk hb
  rw [← h] at hb
  exact ⟨blk, hb, rfl⟩

theorem Mem.Ext.setBlock {m : Mem} {b : Nat} {blk blk1 : Block}
    (hb : m.blocks[b]? = some blk) (hk : blk1.kind = blk.kind) :
    Mem.Ext m (m.setBlock b blk1) := by
  intro x blkx hx
  rw [Mem.getElem?_setBlock hb]
  by_cases e : x = b
  · subst e
    rw [hb] at hx
    cases hx
    exact ⟨blk1, by rw [if_pos rfl], hk⟩
  · exact ⟨blkx, by rw [if_neg e]; exact hx, rfl⟩

theorem Mem.Ext.alloc (m : Mem) (blk : Block) : Mem.Ext m (m.alloc blk).2 := by
  intro x blkx hx
  have hlt : x < m.blocks.length := (List.getElem?_eq_some.mp hx).1
  refine ⟨blkx, ?_, rfl⟩
  simp only [Mem.alloc]
  rw [List.getElem?_append_left hlt]
  exact hx

theorem Mem.AddReference_ext {m m1 : Mem} {b : Nat} (h : m.AddReference b = Except.ok m1) :
    Mem.Ext m m1 := by
  obtain ⟨blk, hb, -, rfl⟩ := Mem.AddReference_ok h
  exact Mem.Ext.setBlock hb rfl

theorem Mem.RemoveReference_ext {m m1 : Mem} {b : Nat}
    (h : m.RemoveReference b = Except.ok m1) : Mem.Ext m m1 := by
  obtain ⟨blk, hb, -, rfl⟩ := Mem.RemoveReference_ok h
  exact Mem.Ext.setBlock hb rfl

theorem Mem.AddWeakRef_ext {m m1 : Mem} {b : Nat} (h : m.AddWeakRef b = Except.ok m1) :
    Mem.Ext m m1 := by
  obtain ⟨blk, hb, -, rfl⟩ := Mem.AddWeakRef_ok h
  exact Mem.Ext.setBlock hb rfl

theorem Mem.DecWeakRef_ext {m m1 : Mem} {b : Nat} (h : m.DecWeakRef b = Except.ok m1) :
    Mem.Ext m m1 := by
  obtain ⟨blk, hb, -, rfl⟩ := Mem.DecWeakRef_ok h
  exact Mem.Ext.setBlock hb rfl

theorem Mem.free_ext {m m1 : Mem} {b : Nat} (h : m.free b = Except.ok m1) :
    Mem.Ext m m1 := by
  obtain ⟨blk, hb, -, rfl⟩ := Mem.free_ok h
  exact Mem.Ext.setBlock hb rfl

theorem WeakPtr.TryDeleteBlock_ext {w : WeakPtr} {m m1 : Mem}
    (h : w.TryDeleteBlock m = Except.ok m1) : Mem.Ext m m1 := by
  unfold WeakPtr.TryDeleteBlock at h
  cases hc : w.control_block_ with
  | none =>
    simp only [hc, pure_ok] at h
    subst h
    exact Mem.Ext.refl m
  | some c =>
    simp only [hc, bind_ok] at h
    obtain ⟨blk, -, h⟩ := h
    split at h
    · exact Mem.free_ext h
    · exact Mem.DecWeakRef_ext h

theorem Mem.destroyPointee_ext {efst : Bool} {m m1 : Mem} {p : Nat}
    (h : m.destroyPointee efst p = Except.ok m1) : Mem.Ext m m1 := by
  cases efst with
  | false =>
    simp only [Mem.destroyPointee, bind_ok, pure_ok, Bool.false_eq_true, if_false] at h
    obtain ⟨o, -, m0, rfl, rfl⟩ := h
    exact Mem.Ext.of_blocks_eq rfl
  | true =>
    simp only [Mem.destroyPointee, bind_ok, pure_ok, if_true] at h
    obtain ⟨o, -, m0, h0, rfl⟩ := h
    exact (WeakPtr.TryDeleteBlock_ext h0).trans (Mem.Ext.of_blocks_eq rfl)

theorem Mem.DeleteT_ext {efst : Bool} {m m1 : Mem} {b : Nat}
    (h : m.DeleteT efst b = Except.ok m1) : Mem.Ext m m1 := by
  obtain ⟨blk, hb, -, hcase⟩ := Mem.DeleteT_ok h
  have h0 : Mem.Ext m (m.setBlock b { blk with deleteT_calls := blk.deleteT_calls + 1 }) :=
    Mem.Ext.setBlock hb rfl
  rcases hcase with rfl | ⟨p, hp⟩
  · exact h0
  · exact h0.trans (Mem.destroyPointee_ext hp)

theorem SharedPtr.TryToDeleteBlock_ext {efst : Bool} {this : SharedPtr} {m m1 : Mem}
    (h : this.TryToDeleteBlock efst m = Except.ok m1) : Mem.Ext m m1 := by
  unfold SharedPtr.TryToDeleteBlock at h
  cases hc : this.control_block_ with
  | none =>
    simp only [hc, pure_ok] at h
    subst h
    exact Mem.Ext.refl m
  | some b =>
    simp only [hc, bind_ok] at h
    obtain ⟨blk, -, h⟩ := h
    split at h
    · obtain ⟨m0, h1, h2⟩ := bind_ok.mp h
      exact (Mem.DeleteT_ext h1).trans (Mem.free_ext h2)
    · split at h
      · obtain ⟨m0, h1, h2⟩ := bind_ok.mp h
        exact (Mem.RemoveReference_ext h1).trans (Mem.DeleteT_ext h2)
      · exact Mem.RemoveReference_ext h

theorem Mem.assignWeakThis_ext {m m1 : Mem} {x : Nat} {this : SharedPtr}
    (hok : m.assignWeakThis x this = Except.ok m1) : Mem.Ext m m1 := by
  simp only [Mem.assignWeakThis, bind_ok, pure_ok] at hok
  obtain ⟨o, -, ⟨tmp, ma⟩, hs, ⟨wt, tmp1, mb⟩, hmv, mc, hd, rfl⟩ := hok
  obtain ⟨b, -, rfl, hadd⟩ := WeakPtr.ofShared_ok hs
  obtain ⟨hrel, rfl, rfl⟩ := WeakPtr.moveAssign_ok hmv
  rw [WeakPtr.dtor_default] at hd
  cases hd
  exact ((Mem.AddWeakRef_ext hadd).trans (WeakPtr.TryDeleteBlock_ext hrel)).trans
    (Mem.Ext.of_blocks_eq rfl)

theorem SharedPtr.copy_ext {efst : Bool} {other this : SharedPtr} {m m1 : Mem}
    (hok : SharedPtr.copy efst other m = Except.ok (this, m1)) : Mem.Ext m m1 := by
  unfold SharedPtr.copy at hok
  cases efst with
  | false =>
    cases hc : other.control_block_ with
    | none =>
      simp only [hc, bind_ok, pure_ok, Bool.false_eq_true, if_false, Prod.mk.injEq] at hok
      obtain ⟨a, rfl, a1, rfl, -, rfl⟩ := hok
      exact Mem.Ext.refl _
    | some b =>
      simp only [hc, bind_ok, pure_ok, Bool.false_eq_true, if_false, Prod.mk.injEq] at hok
      obtain ⟨a, hadd, a1, rfl, -, rfl⟩ := hok
      exact Mem.AddReference_ext hadd
  | true =>
    cases hc : other.control_block_ with
    | none =>
      simp only [hc, bind_ok, pure_ok, if_true, Prod.mk.injEq] at hok
      obtain ⟨a, rfl, a1, hw, -, rfl⟩ := hok
      exact Mem.assignWeakThis_ext hw
    | some b =>
      simp only [hc, bind_ok, pure_ok, if_true, Prod.mk.injEq] at hok
      obtain ⟨a, hadd, a1, hw, -, rfl⟩ := hok
      exact (Mem.AddReference_ext hadd).trans (Mem.assignWeakThis_ext hw)

theorem SharedPtr.move_ext {efst : Bool} {other this other1 : SharedPtr} {m m1 : Mem}
    (hok : SharedPtr.move efst other m = Except.ok (this, other1, m1)) : Mem.Ext m m1 := by
  unfold SharedPtr.move at hok
  cases efst with
  | false =>
    simp only [bind_ok, pure_ok, Bool.false_eq_true, if_false, Prod.mk.injEq] at hok
    obtain ⟨a, rfl, -, -, rfl⟩ := hok
    exact Mem.Ext.refl _
  | true =>
    simp only [bind_ok, pure_ok, if_true, Prod.mk.injEq] at hok
    obtain ⟨a, hw, -, -, rfl⟩ := hok
    exact Mem.assignWeakThis_ext hw

theorem SharedPtr.ofRaw_ext {efst : Bool} {ptr : Nat} {this : SharedPtr} {m m1 : Mem}
    (hok : SharedPtr.ofRaw efst ptr m = Except.ok (this, m1)) : Mem.Ext m m1 := by
  unfold SharedPtr.ofRaw at hok
  cases efst with
  | false =>
    simp only [bind_ok, pure_ok, Bool.false_eq_true, if_false, Prod.mk.injEq] at hok
    obtain ⟨a, rfl, -, rfl⟩ := hok
    exact Mem.Ext.alloc m _
  | true =>
    simp only [bind_ok, pure_ok, if_true, Prod.mk.injEq] at hok
    obtain ⟨a, hw, -, rfl⟩ := hok
    exact (Mem.Ext.alloc m _).trans (Mem.assignWeakThis_ext hw)

theorem SharedPtr.MakeShared_ext {efst : Bool} {this : SharedPtr} {m m1 : Mem}
    (hok : SharedPtr.MakeShared efst m = Except.ok (this, m1)) : Mem.Ext m m1 := by
  unfold SharedPtr.MakeShared SharedPtr.ofHolder at hok
  have h0 : Mem.Ext m (m.newObj.2.alloc (ControlBlockHolder.new m.newObj.1)).2 :=
    (@Mem.Ext.of_blocks_eq m m.newObj.2 rfl).trans (Mem.Ext.alloc _ _)
  cases efst with
  | false =>
    simp only [bind_ok, pure_ok, Bool.false_eq_true, if_false, Prod.mk.injEq] at hok
    obtain ⟨blk, -, a, rfl, -, rfl⟩ := hok
    exact h0
  | true =>
    simp only [bind_ok, pure_ok, if_true, Prod.mk.injEq] at hok
    obtain ⟨blk, -, a, hw, -, rfl⟩ := hok
    exact h0.trans (Mem.assignWeakThis_ext hw)

theorem SharedPtr.aliasing_ext {other this : SharedPtr} {ptr : Nat} {m m1 : Mem}
    (hok : SharedPtr.aliasing other ptr m = Except.ok (this, m1)) : Mem.Ext m m1 := by
  unfold SharedPtr.aliasing at hok
  cases hc : other.control_block_ with
  | none =>
    simp only [hc, pure_ok, Prod.mk.injEq] at hok
    rw [← hok.2]
    exact Mem.Ext.refl m
  | some b =>
    simp only [hc, bind_ok, pure_ok, Prod.mk.injEq] at hok
    obtain ⟨ma, h1, -, rfl⟩ := hok
    exact Mem.AddReference_ext h1

theorem SharedPtr.ofWeak_ext {other : WeakPtr} {this : SharedPtr} {m m1 : Mem}
    (hok : SharedPtr.ofWeak other m = Except.ok (this, m1)) : Mem.Ext m m1 := by
  obtain ⟨b, blk, -, -, -, -, hadd, -⟩ := SharedPtr.ofWeak_ok hok
  exact Mem.AddReference_ext hadd

theorem SharedPtr.copyAssign_ext {efst : Bool} {this other this1 : SharedPtr} {m m1 : Mem}
    (hok : SharedPtr.copyAssign efst this other m = Except.ok (this1, m1)) :
    Mem.Ext m m1 := by
  unfold SharedPtr.copyAssign at hok
  obtain ⟨m0, hrel, hok⟩ := bind_ok.mp hok
  refine (SharedPtr.TryToDeleteBlock_ext hrel).trans ?_
  cases hc : other.control_block_ with
  | none =>
    simp only [hc, pure_ok, Prod.mk.injEq] at hok
    rw [← hok.2]
    exact Mem.Ext.refl m0
  | some b =>
    simp only [hc, bind_ok, pure_ok, Prod.mk.injEq] at hok
    obtain ⟨ma, h1, -, rfl⟩ := hok
    exact Mem.AddReference_ext h1

theorem SharedPtr.moveAssign_ext {efst : Bool} {this other this1 other1 : SharedPtr}
    {m m1 : Mem}
    (hok : SharedPtr.moveAssign efst this other m = Except.ok (this1, other1, m1)) :
    Mem.Ext m m1 := by
  simp only [SharedPtr.moveAssign, bind_ok, pure_ok, Prod.mk.injEq] at hok
  obtain ⟨m0, hrel, -, -, rfl⟩ := hok
  exact SharedPtr.TryToDeleteBlock_ext hrel

theorem SharedPtr.Reset_ext {efst : Bool} {this this1 : SharedPtr} {m m1 : Mem}
    (hok : SharedPtr.Reset efst this m = Except.ok (this1, m1)) : Mem.Ext m m1 := by
  simp only [SharedPtr.Reset, bind_ok, pure_ok, Prod.mk.injEq] at hok
  obtain ⟨m0, hrel, -, rfl⟩ := hok
  exact SharedPtr.TryToDeleteBlock_ext hrel

theorem SharedPtr.ResetPtr_ext {efst : Bool} {this this1 : SharedPtr} {ptr : Nat} {m m1 : Mem}
    (hok : SharedPtr.ResetPtr efst this ptr m = Except.ok (this1, m1)) : Mem.Ext m m1 := by
  simp only [SharedPtr.ResetPtr, bind_ok, pure_ok, Prod.mk.injEq] at hok
  obtain ⟨m0, hrel, -, rfl⟩ := hok
  exact (SharedPtr.TryToDeleteBlock_ext hrel).trans (Mem.Ext.alloc _ _)

theorem WeakPtr.copy_wext {other this : WeakPtr} {m m1 : Mem}
    (hok : WeakPtr.copy other m = Except.ok (this, m1)) : Mem.Ext m m1 := by
  unfold WeakPtr.copy at hok
  cases hc : other.control_block_ with
  | none =>
    simp only [hc, pure_ok, Prod.mk.injEq] at hok
    rw [← hok.2]
    exact Mem.Ext.refl m
  | some b =>
    simp only [hc, bind_ok, pure_ok, Prod.mk.injEq] at hok
    obtain ⟨ma, h1, -, rfl⟩ := hok
    exact Mem.AddWeakRef_ext h1

theorem WeakPtr.ofShared_ext {other : SharedPtr} {this : WeakPtr} {m m1 : Mem}
    (hok : WeakPtr.ofShared other m = Except.ok (this, m1)) : Mem.Ext m m1 := by
  obtain ⟨b, -, -, hadd⟩ := WeakPtr.ofShared_ok hok
  exact Mem.AddWeakRef_ext hadd

theorem WeakPtr.copyAssign_wext {this other this1 : WeakPtr} {m m1 : Mem}
    (hok : WeakPtr.copyAssign this other m = Except.ok (this1, m1)) : Mem.Ext m m1 := by
  unfold WeakPtr.copyAssign at hok
  obtain ⟨m0, hrel, hok⟩ := bind_ok.mp hok
  refine (WeakPtr.TryDeleteBlock_ext hrel).trans ?_
  cases hc : other.control_block_ with
  | none =>
    simp only [hc, pure_ok, Prod.mk.injEq] at hok
    rw [← hok.2]
    exact Mem.Ext.refl m0
  | some b =>
    simp only [hc, bind_ok, pure_ok, Prod.mk.injEq] at hok
    obtain ⟨ma, h1, -, rfl⟩ := hok
    exact Mem.AddWeakRef_ext h1

theorem WeakPtr.Reset_wext {this this1 : WeakPtr} {m m1 : Mem}
    (hok : WeakPtr.Reset this m = Except.ok (this1, m1)) : Mem.Ext m m1 := by
  simp only [WeakPtr.Reset, bind_ok, pure_ok, Prod.mk.injEq] at hok
  obtain ⟨m0, hrel, -, rfl⟩ := hok
  exact WeakPtr.TryDeleteBlock_ext hrel

theorem WeakPtr.Lock_ext {this : WeakPtr} {r : SharedPtr} {m m1 : Mem}
    (hok : WeakPtr.Lock this m = Except.ok (r, m1)) : Mem.Ext m m1 := by
  unfold WeakPtr.Lock at hok
  split at hok
  · simp only [pure_ok, Prod.mk.injEq] at hok
    rw [← hok.2]
    exact Mem.Ext.refl m
  · simp only [bind_ok] at hok
    obtain ⟨e, -, hok⟩ := hok
    split at hok
    · simp only [pure_ok, Prod.mk.injEq] at hok
      rw [← hok.2]
      exact Mem.Ext.refl m
    · exact SharedPtr.ofWeak_ext hok

theorem SharedPtr.ResetPtr_inv {efst : Bool} {this this1 : SharedPtr} {ptr : Nat} {m m1 : Mem}
    {cs cw : Nat → Nat} (hm : MInv efst m cs cw)
    (h1 : ∀ b, this.control_block_ = some b → 1 ≤ cs b)
    (hok : SharedPtr.ResetPtr efst this ptr m = Except.ok (this1, m1)) :
    (∃ n, this1 = { ptr_ := ptr, control_block_ := some n } ∧ m.blocks[n]? = none) ∧
    MInv efst m1 (bump (drop cs this.control_block_) this1.control_block_) cw ∧
    m1.objs.length = m.objs.length := by
  simp only [SharedPtr.ResetPtr, bind_ok, pure_ok, Prod.mk.injEq] at hok
  obtain ⟨m0, hrel, rfl, rfl⟩ := hok
  obtain ⟨h3, h4⟩ := SharedPtr.TryToDeleteBlock_inv hm h1 hrel
  have h0 := Mem.alloc_inv h3 (ControlBlockPointer.new ptr)
    (fun ns nw h => BInv_allocPointer h ptr)
  refine ⟨⟨m0.blocks.length, rfl, ?_⟩, h0, h4⟩
  cases hb : m.blocks[m0.blocks.length]? with
  | none => rfl
  | some blk =>
    obtain ⟨blk1, hb1, -⟩ := SharedPtr.TryToDeleteBlock_ext hrel _ blk hb
    rw [List.getElem?_eq_none (le_refl _)] at hb1
    cases hb1


theorem drop_bump_same (f : Nat → Nat) (ob : Option Nat) : drop (bump f ob) ob = f := by
  funext x
  simp only [bump, drop]
  split
  · omega
  · rfl

theorem getElem?_set_some {α : Type} {l : List α} {i j : Nat} {a b : α}
    (hj : l[j]? = some b) (hi : i < l.length) :
    (l.set i a)[j]? = some (if i = j then a else b) := by
  rw [List.getElem?_set]
  by_cases h : i = j
  · rw [if_pos h, if_pos hi, if_pos h]
  · rw [if_neg h, if_neg h, hj]

theorem WeakPtr.Lock_ok {this : WeakPtr} {r : SharedPtr} {m m1 : Mem}
    (hok : WeakPtr.Lock this m = Except.ok (r, m1)) :
    (r = SharedPtr.default ∧ m1 = m) ∨ SharedPtr.ofWeak this m = Except.ok (r, m1) := by
  unfold WeakPtr.Lock at hok
  cases hc : this.control_block_ with
  | none =>
    simp only [hc, pure_ok, Prod.mk.injEq] at hok
    exact Or.inl ⟨hok.1.symm, hok.2.symm⟩
  | some b =>
    simp only [hc, bind_ok] at hok
    obtain ⟨e, -, hok⟩ := hok
    cases e with
    | true =>
      simp only [if_true, pure_ok, Prod.mk.injEq] at hok
      exact Or.inl ⟨hok.1.symm, hok.2.symm⟩
    | false =>
      simp only [Bool.false_eq_true, if_false] at hok
      exact Or.inr hok

theorem SharedDelta.same {s s1 : State} (h : countShared s1.shared = countShared s.shared) :
    SharedDelta s s1 none none :=
  ⟨by rw [drop_none, bump_none, h], fun b hb => (by cases hb), fun b hb => (by cases hb)⟩

theorem SharedDelta.acquire {s s1 : State} {acq : Option Nat}
    (hc : countShared s1.shared = bump (countShared s.shared) acq)
    (h : ∀ b, acq = some b →
      s.mem.blocks[b]? = none ∨ 1 ≤ countShared s.shared b ∨
        ∃ blk : Block, s.mem.blocks[b]? = some blk ∧ blk.freed = false ∧
          blk.base.ref_counter_ ≠ 0) :
    SharedDelta s s1 none acq :=
  ⟨by rw [drop_none, hc], fun b hb => (by cases hb),
    fun b hb => (by rw [drop_none]; exact h b hb)⟩

theorem SharedDelta.release {s s1 : State} {rel : Option Nat}
    (hc : countShared s1.shared = drop (countShared s.shared) rel)
    (h : ∀ b, rel = some b → 1 ≤ countShared s.shared b) :
    SharedDelta s s1 rel none :=
  ⟨by rw [bump_none, hc], h, fun b hb => (by cases hb)⟩

/-! ## Every operation keeps the invariant -/

theorem step_inv {efst : Bool} {op : Op} {s s1 : State} (hinv : Inv efst s)
    (hsize : s.size + 2 < SIZE) (hok : step efst op s = Except.ok s1) :
    Inv efst s1 ∧ s1.size ≤ s.size + 2 ∧ Mem.Ext s.mem s1.mem ∧
      ∃ rel acq, SharedDelta s s1 rel acq := by
  have hsz : s.shared.length + s.weak.length + s.mem.objs.length + 2 < SIZE := hsize
  have hbs : ∀ b, countShared s.shared b + 1 < SIZE := fun b => by
    have := countShared_le s.shared b
    omega
  have hbw : ∀ b, countWeak s.weak b + countThis efst s.mem.objs b + 1 < SIZE := fun b => by
    have := countWeak_le s.weak b
    have := countThis_le efst s.mem.objs b
    omega
  have hbw2 : ∀ b, countWeak s.weak b + (s.mem.objs.length + 1) + 1 < SIZE := fun b => by
    have := countWeak_le s.weak b
    omega
  unfold Inv at hinv ⊢
  cases op with
  | newObj =>
    simp only [step, pure_ok] at hok
    subst hok
    exact ⟨Mem.newObj_inv hinv, by simp [State.size, Mem.newObj]; omega,
      Mem.Ext.of_blocks_eq rfl, none, none, SharedDelta.same rfl⟩
  | sDefault =>
    simp only [step, pure_ok] at hok
    subst hok
    have hc : countShared (s.shared ++ [some SharedPtr.default]) = countShared s.shared := by
      simp only [countShared_push, SharedPtr.default, bump_none]
    refine ⟨?_, by simp [State.size]; omega, Mem.Ext.refl _, none, none, SharedDelta.same hc⟩
    simp only [hc]
    exact hinv
  | sFromRaw ptr =>
    simp only [step, bind_ok, pure_ok] at hok
    obtain ⟨⟨h, m⟩, hf, rfl⟩ := hok
    obtain ⟨hh, h2, h3⟩ := SharedPtr.ofRaw_inv hinv hbw hf
    refine ⟨?_, by simp [State.size, h3]; omega, SharedPtr.ofRaw_ext hf, none,
      h.control_block_, SharedDelta.acquire (countShared_push _ _) ?_⟩
    · simp only [countShared_push]
      exact h2
    · intro b hb
      left
      rw [hh] at hb
      cases hb
      exact List.getElem?_eq_none (le_refl _)
  | sMakeShared =>
    simp only [step, bind_ok, pure_ok] at hok
    obtain ⟨⟨h, m⟩, hf, rfl⟩ := hok
    obtain ⟨hh, h2, h3⟩ := SharedPtr.MakeShared_inv hinv hbw2 hf
    refine ⟨?_, by simp [State.size, h3]; omega, SharedPtr.MakeShared_ext hf, none,
      h.control_block_, SharedDelta.acquire (countShared_push _ _) ?_⟩
    · simp only [countShared_push]
      exact h2
    · intro b hb
      left
      rw [hh] at hb
      cases hb
      exact List.getElem?_eq_none (le_refl _)
  | sCopy src =>
    simp only [step, bind_ok, pure_ok, State.getShared_ok] at hok
    obtain ⟨other, ho, ⟨h, m⟩, hf, rfl⟩ := hok
    obtain ⟨rfl, h2, h3⟩ := SharedPtr.copy_inv hinv (fun b hb => countShared_pos ho hb) hbs hbw hf
    refine ⟨?_, by simp [State.size, h3]; omega, SharedPtr.copy_ext hf, none,
      other.control_block_, SharedDelta.acquire (countShared_push _ _)
        (fun b hb => Or.inr (Or.inl (countShared_pos ho hb)))⟩
    simp only [countShared_push]
    exact h2
  | sMove src =>
    simp only [step, bind_ok, pure_ok, State.getShared_ok] at hok
    obtain ⟨other, ho, ⟨h, other1, m⟩, hf, rfl⟩ := hok
    obtain ⟨rfl, rfl, h2, h3⟩ := SharedPtr.move_inv hinv hbw hf
    have hc : countShared (s.shared.set src (some SharedPtr.default) ++
        [some { ptr_ := other.ptr_, control_block_ := other.control_block_ }])
        = countShared s.shared := by
      simp only [countShared_push, countShared_set ho, SharedPtr.default, bump_none]
      rw [bump_drop_same (fun b hb => countShared_pos ho hb)]
    refine ⟨?_, by simp [State.size, h3]; omega, SharedPtr.move_ext hf, none, none,
      SharedDelta.same hc⟩
    simp only [hc]
    exact h2
  | sAlias src ptr =>
    simp only [step, bind_ok, pure_ok, State.getShared_ok] at hok
    obtain ⟨other, ho, ⟨h, m⟩, hf, rfl⟩ := hok
    obtain ⟨rfl, h2, h3⟩ := SharedPtr.aliasing_inv hinv (fun b hb => countShared_pos ho hb) hbs hf
    refine ⟨?_, by simp [State.size, h3]; omega, SharedPtr.aliasing_ext hf, none,
      other.control_block_, SharedDelta.acquire (countShared_push _ _)
        (fun b hb => Or.inr (Or.inl (countShared_pos ho hb)))⟩
    simp only [countShared_push]
    exact h2
  | sFromWeak src =>
    simp only [step, bind_ok, State.getWeak_ok] at hok
    obtain ⟨other, ho, hok⟩ := hok
    cases hres : SharedPtr.ofWeak other s.mem with
    | error e =>
      rw [hres] at hok
      cases e <;> simp only [pure_ok, reduceCtorEq] at hok
      subst hok
      exact ⟨hinv, by omega, Mem.Ext.refl _, none, none, SharedDelta.same rfl⟩
    | ok r =>
      obtain ⟨h, m⟩ := r
      rw [hres] at hok
      simp only [pure_ok] at hok
      subst hok
      obtain ⟨rfl, h2, h3⟩ := SharedPtr.ofWeak_inv hinv hbs hres
      obtain ⟨b, blk, hc, hblk, hfr, hz, -, -⟩ := SharedPtr.ofWeak_ok hres
      refine ⟨?_, by simp [State.size, h3]; omega, SharedPtr.ofWeak_ext hres, none,
        other.control_block_, SharedDelta.acquire (countShared_push _ _) ?_⟩
      · simp only [countShared_push]
        exact h2
      · intro b1 hb1
        rw [hc] at hb1
        cases hb1
        exact Or.inr (Or.inr ⟨blk, hblk, hfr, hz⟩)
  | sCopyAssign dst src =>
    simp only [step, bind_ok, State.getShared_ok] at hok
    obtain ⟨this, ht, other, ho, hok⟩ := hok
    by_cases hds : dst = src
    · simp only [hds, if_true, pure_ok] at hok
      subst hok
      exact ⟨hinv, by omega, Mem.Ext.refl _, none, none, SharedDelta.same rfl⟩
    · simp only [hds, if_false, bind_ok, pure_ok] at hok
      obtain ⟨⟨this1, m⟩, hf, rfl⟩ := hok
      have hpos : ∀ b, other.control_block_ = some b →
          1 ≤ drop (countShared s.shared) this.control_block_ b := by
        intro b hb
        rw [← countShared_unset ht]
        refine countShared_pos (i := src) ?_ hb
        rw [List.getElem?_set_ne hds]
        exact ho
      obtain ⟨rfl, h2, h3⟩ := SharedPtr.copyAssign_inv hinv
        (fun b hb => countShared_pos ht hb) hpos hbs hf
      refine ⟨?_, by simp [State.size, h3], SharedPtr.copyAssign_ext hf,
        this.control_block_, other.control_block_,
        ⟨countShared_set ht _, fun b hb => countShared_pos ht hb,
          fun b hb => Or.inr (Or.inl (hpos b hb))⟩⟩
      simp only [countShared_set ht]
      exact h2
  | sMoveAssign dst src =>
    simp only [step, bind_ok, State.getShared_ok] at hok
    obtain ⟨this, ht, other, ho, hok⟩ := hok
    by_cases hds : dst = src
    · simp only [hds, if_true, pure_ok] at hok
      subst hok
      exact ⟨hinv, by omega, Mem.Ext.refl _, none, none, SharedDelta.same rfl⟩
    · simp only [hds, if_false, bind_ok, pure_ok] at hok
      obtain ⟨⟨this1, other1, m⟩, hf, rfl⟩ := hok
      obtain ⟨rfl, rfl, h2, h3⟩ := SharedPtr.moveAssign_inv hinv
        (fun b hb => countShared_pos ht hb) hf
      have hsrc : (s.shared.set dst (some
          ({ ptr_ := other.ptr_, control_block_ := other.control_block_ } : SharedPtr)))[src]?
          = some (some other) := by
        rw [List.getElem?_set_ne hds]
        exact ho
      have hc : countShared ((s.shared.set dst (some
          ({ ptr_ := other.ptr_, control_block_ := other.control_block_ } : SharedPtr))).set
          src (some SharedPtr.default)) = drop (countShared s.shared) this.control_block_ := by
        simp only [countShared_set hsrc, countShared_set ht, SharedPtr.default, bump_none,
          drop_bump_same]
      refine ⟨?_, by simp [State.size, h3], SharedPtr.moveAssign_ext hf,
        this.control_block_, none,
        SharedDelta.release hc (fun b hb => countShared_pos ht hb)⟩
      simp only [hc]
      exact h2
  | sReset h =>
    simp only [step, bind_ok, pure_ok, State.getShared_ok] at hok
    obtain ⟨this, ht, ⟨this1, m⟩, hf, rfl⟩ := hok
    obtain ⟨rfl, h2, h3⟩ := SharedPtr.Reset_inv hinv (fun b hb => countShared_pos ht hb) hf
    have hc : countShared (s.shared.set h (some SharedPtr.default))
        = drop (countShared s.shared) this.control_block_ := by
      simp only [countShared_set ht, SharedPtr.default, bump_none]
    refine ⟨?_, by simp [State.size, h3], SharedPtr.Reset_ext hf, this.control_block_, none,
      SharedDelta.release hc (fun b hb => countShared_pos ht hb)⟩
    simp only [hc]
    exact h2
  | sResetPtr h ptr =>
    simp only [step, bind_ok, pure_ok, State.getShared_ok] at hok
    obtain ⟨this, ht, ⟨this1, m⟩, hf, rfl⟩ := hok
    obtain ⟨⟨n, hn, hnone⟩, h2, h3⟩ :=
      SharedPtr.ResetPtr_inv hinv (fun b hb => countShared_pos ht hb) hf
    refine ⟨?_, by simp [State.size, h3], SharedPtr.ResetPtr_ext hf, this.control_block_,
      this1.control_block_,
      ⟨countShared_set ht _, fun b hb => countShared_pos ht hb, fun b hb => Or.inl ?_⟩⟩
    · simp only [countShared_set ht]
      exact h2
    · rw [hn] at hb
      cases hb
      exact hnone
  | sSwap a b =>
    simp only [step, bind_ok, pure_ok, State.getShared_ok, SharedPtr.Swap] at hok
    obtain ⟨this, ht, other, ho, rfl⟩ := hok
    have halt : a < s.shared.length := (List.getElem?_eq_some.mp ht).1
    have hsrc : (s.shared.set a (some other))[b]? = some (some other) := by
      rw [getElem?_set_some ho halt]
      split <;> rfl
    have hc : countShared ((s.shared.set a (some other)).set b (some this))
        = countShared s.shared := by
      simp only [countShared_set hsrc, countShared_set ht, drop_bump_same]
      rw [bump_drop_same (fun b hb => countShared_pos ht hb)]
    refine ⟨?_, by simp [State.size], Mem.Ext.refl _, none, none, SharedDelta.same hc⟩
    simp only [hc]
    exact hinv
  | sDestroy h =>
    simp only [step, bind_ok, pure_ok, State.getShared_ok, SharedPtr.dtor] at hok
    obtain ⟨this, ht, m, hf, rfl⟩ := hok
    obtain ⟨h2, h3⟩ := SharedPtr.TryToDeleteBlock_inv hinv (fun b hb => countShared_pos ht hb) hf
    refine ⟨?_, by simp [State.size, h3], SharedPtr.TryToDeleteBlock_ext hf,
      this.control_block_, none,
      SharedDelta.release (countShared_unset ht) (fun b hb => countShared_pos ht hb)⟩
    simp only [countShared_unset ht]
    exact h2
  | wDefault =>
    simp only [step, pure_ok] at hok
    subst hok
    refine ⟨?_, by simp [State.size]; omega, Mem.Ext.refl _, none, none, SharedDelta.same rfl⟩
    simp only [countWeak_push, WeakPtr.default, bump_none]
    exact hinv
  | wCopy src =>
    simp only [step, bind_ok, pure_ok, State.getWeak_ok] at hok
    obtain ⟨other, ho, ⟨w, m⟩, hf, rfl⟩ := hok
    obtain ⟨rfl, h2, h3⟩ := WeakPtr.copy_winv hinv hbw hf
    refine ⟨?_, by simp [State.size, h3]; omega, WeakPtr.copy_wext hf, none, none,
      SharedDelta.same rfl⟩
    simp only [countWeak_push]
    exact h2
  | wMove src =>
    simp only [step, bind_ok, pure_ok, State.getWeak_ok, WeakPtr.move] at hok
    obtain ⟨other, ho, rfl⟩ := hok
    refine ⟨?_, by simp [State.size]; omega, Mem.Ext.refl _, none, none, SharedDelta.same rfl⟩
    simp only [countWeak_push, countWeak_set ho, WeakPtr.default, bump_none]
    rw [bump_drop_same (fun b hb => countWeak_pos ho hb)]
    exact hinv
  | wFromShared src =>
    simp only [step, bind_ok, pure_ok, State.getShared_ok] at hok
    obtain ⟨other, ho, ⟨w, m⟩, hf, rfl⟩ := hok
    obtain ⟨rfl, h2, h3⟩ := WeakPtr.ofShared_inv hinv hbw hf
    refine ⟨?_, by simp [State.size, h3]; omega, WeakPtr.ofShared_ext hf, none, none,
      SharedDelta.same rfl⟩
    simp only [countWeak_push]
    exact h2
  | wCopyAssign dst src =>
    simp only [step, bind_ok, State.getWeak_ok] at hok
    obtain ⟨this, ht, other, ho, hok⟩ := hok
    by_cases hds : dst = src
    · simp only [hds, if_true, pure_ok] at hok
      subst hok
      exact ⟨hinv, by omega, Mem.Ext.refl _, none, none, SharedDelta.same rfl⟩
    · simp only [hds, if_false, bind_ok, pure_ok] at hok
      obtain ⟨⟨this1, m⟩, hf, rfl⟩ := hok
      obtain ⟨rfl, h2, h3⟩ := WeakPtr.copyAssign_winv hinv
        (fun b hb => countWeak_pos ht hb) hbw hf
      refine ⟨?_, by simp [State.size, h3], WeakPtr.copyAssign_wext hf, none, none,
        SharedDelta.same rfl⟩
      simp only [countWeak_set ht]
      exact h2
  | wMoveAssign dst src =>
    simp only [step, bind_ok, State.getWeak_ok] at hok
    obtain ⟨this, ht, other, ho, hok⟩ := hok
    by_cases hds : dst = src
    · simp only [hds, if_true, pure_ok] at hok
      subst hok
      exact ⟨hinv, by omega, Mem.Ext.refl _, none, none, SharedDelta.same rfl⟩
    · simp only [hds, if_false, bind_ok, pure_ok] at hok
      obtain ⟨⟨this1, other1, m⟩, hf, rfl⟩ := hok
      have hext := WeakPtr.TryDeleteBlock_ext (WeakPtr.moveAssign_ok hf).1
      obtain ⟨rfl, rfl, h2, h3⟩ := WeakPtr.moveAssign_winv hinv
        (fun b hb => countWeak_pos ht hb) hf
      refine ⟨?_, by simp [State.size, h3], hext, none, none, SharedDelta.same rfl⟩
      have hsrc : (s.weak.set dst (some
          ({ ptr_ := other.ptr_, control_block_ := other.control_block_ } : WeakPtr)))[src]?
          = some (some other) := by
        rw [List.getElem?_set_ne hds]
        exact ho
      simp only [countWeak_set hsrc, countWeak_set ht, WeakPtr.default, bump_none,
        drop_bump_same]
      exact h2
  | wReset h =>
    simp only [step, bind_ok, pure_ok, State.getWeak_ok] at hok
    obtain ⟨this, ht, ⟨this1, m⟩, hf, rfl⟩ := hok
    obtain ⟨rfl, h2, h3⟩ := WeakPtr.Reset_winv hinv (fun b hb => countWeak_pos ht hb) hf
    refine ⟨?_, by simp [State.size, h3], WeakPtr.Reset_wext hf, none, none,
      SharedDelta.same rfl⟩
    simp only [countWeak_set ht, WeakPtr.default, bump_none]
    exact h2
  | wSwap a b =>
    simp only [step, bind_ok, pure_ok, State.getWeak_ok, WeakPtr.Swap] at hok
    obtain ⟨this, ht, other, ho, rfl⟩ := hok
    refine ⟨?_, by simp [State.size], Mem.Ext.refl _, none, none, SharedDelta.same rfl⟩
    have halt : a < s.weak.length := (List.getElem?_eq_some.mp ht).1
    have hsrc : (s.weak.set a (some other))[b]? = some (some other) := by
      rw [getElem?_set_some ho halt]
      split <;> rfl
    simp only [countWeak_set hsrc, countWeak_set ht, drop_bump_same]
    rw [bump_drop_same (fun b hb => countWeak_pos ht hb)]
    exact hinv
  | wDestroy h =>
    simp only [step, bind_ok, pure_ok, State.getWeak_ok, WeakPtr.dtor] at hok
    obtain ⟨this, ht, m, hf, rfl⟩ := hok
    obtain ⟨h2, h3⟩ := WeakPtr.TryDeleteBlock_inv hinv (fun b hb => countWeak_pos ht hb) hf
    refine ⟨?_, by simp [State.size, h3], WeakPtr.TryDeleteBlock_ext hf, none, none,
      SharedDelta.same rfl⟩
    simp only [countWeak_unset ht]
    exact h2
  | wLock h =>
    simp only [step, bind_ok, pure_ok, State.getWeak_ok] at hok
    obtain ⟨this, ht, ⟨r, m⟩, hf, rfl⟩ := hok
    obtain ⟨-, h2, h3⟩ := WeakPtr.Lock_inv hinv hbs hf
    refine ⟨?_, by simp [State.size, h3]; omega, WeakPtr.Lock_ext hf, none,
      r.control_block_, SharedDelta.acquire (countShared_push _ _) ?_⟩
    · simp only [countShared_push]
      exact h2
    · intro b1 hb1
      rcases WeakPtr.Lock_ok hf with ⟨rfl, -⟩ | hof
      · cases hb1
      · obtain ⟨b, blk, -, hblk, hfr, hz, -, rfl⟩ := SharedPtr.ofWeak_ok hof
        cases hb1
        exact Or.inr (Or.inr ⟨blk, hblk, hfr, hz⟩)


/-! ## Programs -/

theorem Inv_init (efst : Bool) : Inv efst State.init := by
  intro b
  simp [State.init, Mem.empty, BInv, countShared, countWeak, countThis]

theorem run_nil (efst : Bool) (s : State) : run efst [] s = Except.ok s := rfl

theorem run_cons_ok {efst : Bool} {op : Op} {ops : List Op} {s s2 : State} :
    run efst (op :: ops) s = Except.ok s2 ↔
      ∃ s1, step efst op s = Except.ok s1 ∧ run efst ops s1 = Except.ok s2 := by
  simp only [run, bind_ok]

theorem run_append_ok {efst : Bool} {ops1 ops2 : List Op} {s s2 : State} :
    run efst (ops1 ++ ops2) s = Except.ok s2 ↔
      ∃ s1, run efst ops1 s = Except.ok s1 ∧ run efst ops2 s1 = Except.ok s2 := by
  induction ops1 generalizing s with
  | nil =>
    simp only [List.nil_append, run_nil, Except.ok.injEq, exists_eq_left']
  | cons op ops ih =>
    simp only [List.cons_append, run_cons_ok, ih]
    constructor
    · rintro ⟨s1, h1, s3, h3, h4⟩
      exact ⟨s3, ⟨s1, h1, h3⟩, h4⟩
    · rintro ⟨s3, ⟨s1, h1, h3⟩, h4⟩
      exact ⟨s1, h1, s3, h3, h4⟩

/-- Every program keeps the invariant, as long as the number of handle variables and
pointees stays below the range of the counters. -/
theorem run_inv {efst : Bool} {ops : List Op} {s s1 : State} (hinv : Inv efst s)
    (hsize : s.size + 2 * ops.length + 2 < SIZE) (hok : run efst ops s = Except.ok s1) :
    Inv efst s1 ∧ s1.size ≤ s.size + 2 * ops.length ∧ Mem.Ext s.mem s1.mem := by
  induction ops generalizing s with
  | nil =>
    rw [run_nil] at hok
    cases hok
    exact ⟨hinv, by simp, Mem.Ext.refl _⟩
  | cons op ops ih =>
    obtain ⟨s2, h1, h2⟩ := run_cons_ok.mp hok
    simp only [List.length_cons] at hsize
    obtain ⟨hi2, hs2, he2, -⟩ := step_inv hinv (by omega) h1
    obtain ⟨hi3, hs3, he3⟩ := ih hi2 (by omega) h2
    refine ⟨hi3, ?_, he2.trans he3⟩
    simp only [List.length_cons]
    omega

/-- Every state that a program reaches from the initial state satisfies the invariant. -/
theorem reach_inv {efst : Bool} {ops : List Op} {s : State}
    (hlen : 2 * ops.length + 2 < SIZE) (hok : run efst ops State.init = Except.ok s) :
    Inv efst s ∧ s.size ≤ 2 * ops.length := by
  have h := run_inv (Inv_init efst) (by simp [State.size, State.init, Mem.empty]; omega) hok
  refine ⟨h.1, ?_⟩
  have := h.2.1
  simp only [State.size, State.init, Mem.empty, List.length_nil, Nat.zero_add] at this
  exact this

/-! ## The pointees against the teardown of the blocks -/

theorem Block.pointee_congr {b1 b2 : Block} (h : b1.kind = b2.kind) :
    b1.pointee = b2.pointee := by
  unfold Block.pointee
  rw [h]

theorem Block.good_pointee {blk : Block} (hg : blk.good = true) : blk.pointee ≠ 0 ∨
    ∃ p, blk.kind = BlockKind.holder p := by
  unfold Block.good at hg
  unfold Block.pointee
  cases hk : blk.kind with
  | pointer p =>
    simp only [hk] at hg
    left
    simpa using hg
  | holder p => exact Or.inr ⟨p, rfl⟩

theorem Mem.Same.same_refl (m : Mem) : Mem.Same m m := ⟨rfl, rfl⟩

theorem Mem.Same.same_trans {m m1 m2 : Mem} (h1 : Mem.Same m m1) (h2 : Mem.Same m1 m2) :
    Mem.Same m m2 := ⟨h2.1.trans h1.1, h2.2.trans h1.2⟩

theorem Mem.Same.same_symm {m m1 : Mem} (h : Mem.Same m m1) : Mem.Same m1 m :=
  ⟨h.1.symm, h.2.symm⟩

theorem Mem.Same.block_of {m m1 : Mem} (h : Mem.Same m m1) {x : Nat} {blk1 : Block}
    (hx : m1.blocks[x]? = some blk1) :
    ∃ blk, m.blocks[x]? = some blk ∧ blk.kind = blk1.kind ∧
      blk.deleteT_calls = blk1.deleteT_calls := by
  have e : (m1.blocks.map Block.tag)[x]? = (m.blocks.map Block.tag)[x]? := by rw [h.1]
  rw [List.getElem?_map, List.getElem?_map, hx] at e
  cases hb : m.blocks[x]? with
  | none =>
    rw [hb] at e
    cases e
  | some blk =>
    rw [hb] at e
    simp only [Option.map_some', Option.some.injEq, Block.tag, Prod.mk.injEq] at e
    exact ⟨blk, rfl, e.1.symm, e.2.symm⟩

theorem Mem.Same.of_setBlock {m : Mem} {b : Nat} {blk blk1 : Block}
    (hb : m.blocks[b]? = some blk) (hk : blk1.kind = blk.kind)
    (hd : blk1.deleteT_calls = blk.deleteT_calls) : Mem.Same m (m.setBlock b blk1) := by
  refine ⟨?_, rfl⟩
  apply List.ext_getElem?
  intro x
  rw [List.getElem?_map, List.getElem?_map, Mem.getElem?_setBlock hb]
  by_cases e : x = b
  · subst e
    simp [hb, Block.tag, hk, hd]
  · simp [e]

theorem Mem.Same.of_setObj {m m1 : Mem} (h : Mem.Same m m1) (p : Nat) (o : Pointee) :
    Mem.Same (m.setObj p o) (m1.setObj p o) := by
  refine ⟨h.1, ?_⟩
  simp only [Mem.setObj, h.2]

theorem HeapInv_congr {m m1 : Mem} (h : Mem.Same m m1) (hi : HeapInv m) : HeapInv m1 := by
  refine ⟨fun i o ho hd => ?_, fun b blk1 hb hg hd => ?_, fun b blk1 p hb hk => ?_,
    fun i o c ho hc => ?_⟩
  · rw [h.2] at ho
    obtain ⟨b, blk, hb, hp, hd1⟩ := hi.destroyed_by i o ho hd
    obtain ⟨blk1, hb1, hk1, hd2⟩ := h.same_symm.block_of hb
    exact ⟨b, blk1, hb1, by rw [Block.pointee_congr hk1]; exact hp, by omega⟩
  · obtain ⟨blk, hb0, hk0, hd0⟩ := h.block_of hb
    have hg0 : blk.good = true := by rw [Block.good_congr hk0]; exact hg
    obtain ⟨o, ho, hdes⟩ := hi.torn b blk hb0 hg0 (by omega)
    rw [h.2, ← Block.pointee_congr hk0]
    exact ⟨o, ho, hdes⟩
  · obtain ⟨blk, hb0, hk0, -⟩ := h.block_of hb
    rw [h.2]
    exact hi.storage b blk p hb0 (hk0.trans hk)
  · rw [h.2] at ho
    exact hi.self_ptr i o c ho hc

theorem HeapInv_init : HeapInv State.init.mem := by
  refine ⟨fun i o ho _ => ?_, fun b blk hb _ _ => ?_, fun b blk p hb _ => ?_,
    fun i o c ho _ => ?_⟩ <;>
  simp [State.init, Mem.empty] at *

theorem HeapInv_alloc {m : Mem} (hi : HeapInv m) (blk : Block) (hd : blk.deleteT_calls = 0)
    (hs : ∀ p, blk.kind = BlockKind.holder p → 1 ≤ p ∧ p ≤ m.objs.length) :
    HeapInv (m.alloc blk).2 := by
  have hget : ∀ (x : Nat) (blk1 : Block), (m.alloc blk).2.blocks[x]? = some blk1 →
      m.blocks[x]? = some blk1 ∨ blk1 = blk := by
    intro x blk1 hx
    simp only [Mem.alloc] at hx
    by_cases hlt : x < m.blocks.length
    · rw [List.getElem?_append_left hlt] at hx
      exact Or.inl hx
    · rw [List.getElem?_append_right (by omega)] at hx
      cases hn : x - m.blocks.length with
      | zero =>
        rw [hn] at hx
        simp only [List.getElem?_cons_zero, Option.some.injEq] at hx
        exact Or.inr hx.symm
      | succ n =>
        rw [hn] at hx
        simp at hx
  have hkeep : ∀ (x : Nat) (blk1 : Block), m.blocks[x]? = some blk1 → (m.alloc blk).2.blocks[x]? = some blk1 := by
    intro x blk1 hx
    simp only [Mem.alloc]
    rw [List.getElem?_append_left (List.getElem?_eq_some.mp hx).1]
    exact hx
  refine ⟨fun i o ho hdes => ?_, fun b blk1 hb hg hd1 => ?_, fun b blk1 p hb hk => ?_,
    fun i o c ho hc => hi.self_ptr i o c ho hc⟩
  · obtain ⟨b, blk0, hb, hp, hd1⟩ := hi.destroyed_by i o ho hdes
    exact ⟨b, blk0, hkeep b blk0 hb, hp, hd1⟩
  · rcases hget b blk1 hb with h0 | rfl
    · exact hi.torn b blk1 h0 hg hd1
    · omega
  · rcases hget b blk1 hb with h0 | rfl
    · exact hi.storage b blk1 p h0 hk
    · exact hs p hk

theorem HeapInv_newObj {m : Mem} (hi : HeapInv m) : HeapInv m.newObj.2 := by
  have hget : ∀ (x : Nat) (o : Pointee), m.newObj.2.objs[x]? = some o →
      m.objs[x]? = some o ∨
        o = ({ weak_this_ := { ptr_ := 0, control_block_ := none }, destroyed := false } :
          Pointee) := by
    intro x o hx
    simp only [Mem.newObj] at hx
    by_cases hlt : x < m.objs.length
    · rw [List.getElem?_append_left hlt] at hx
      exact Or.inl hx
    · rw [List.getElem?_append_right (by omega)] at hx
      cases hn : x - m.objs.length with
      | zero =>
        rw [hn] at hx
        simp only [List.getElem?_cons_zero, Option.some.injEq] at hx
        exact Or.inr hx.symm
      | succ n =>
        rw [hn] at hx
        simp at hx
  have hkeep : ∀ (x : Nat) (o : Pointee), m.objs[x]? = some o → m.newObj.2.objs[x]? = some o := by
    intro x o hx
    simp only [Mem.newObj]
    rw [List.getElem?_append_left (List.getElem?_eq_some.mp hx).1]
    exact hx
  refine ⟨fun i o ho hdes => ?_, fun b blk hb hg hd => ?_, fun b blk p hb hk => ?_,
    fun i o c ho hc => ?_⟩
  · rcases hget i o ho with h0 | rfl
    · exact hi.destroyed_by i o h0 hdes
    · cases hdes
  · obtain ⟨o, ho, hdes⟩ := hi.torn b blk hb hg hd
    exact ⟨o, hkeep _ o ho, hdes⟩
  · have := hi.storage b blk p hb hk
    simp only [Mem.newObj, List.length_append, List.length_singleton]
    omega
  · rcases hget i o ho with h0 | rfl
    · exact hi.self_ptr i o c h0 hc
    · cases hc

theorem Mem.getElem?_setObj {m : Mem} {p : Nat} {o o1 : Pointee}
    (hp : m.objs[p - 1]? = some o) (x : Nat) :
    (m.setObj p o1).objs[x]? = if x = p - 1 then some o1 else m.objs[x]? := by
  have hlt : p - 1 < m.objs.length := (List.getElem?_eq_some.mp hp).1
  simp only [Mem.setObj, List.getElem?_set, hlt, if_true]
  by_cases hx : x = p - 1
  · subst hx
    simp
  · have : ¬ p - 1 = x := fun h => hx h.symm
    simp [hx, this]

theorem HeapInv_setWeakThis {m : Mem} (hi : HeapInv m) {x : Nat} {o : Pointee}
    (ho : m.obj x = Except.ok o) (wt : WeakPtr)
    (hwt : ∀ c, wt.control_block_ = some c → wt.ptr_ = x) :
    HeapInv (m.setObj x { o with weak_this_ := wt }) := by
  obtain ⟨hx0, hget, halive⟩ := Mem.obj_ok ho
  refine ⟨fun i o1 ho1 hdes => ?_, fun b blk hb hg hd => ?_, fun b blk p hb hk => ?_,
    fun i o1 c ho1 hc => ?_⟩
  · rw [Mem.getElem?_setObj hget] at ho1
    by_cases e : i = x - 1
    · rw [if_pos e] at ho1
      cases ho1
      simp only [halive] at hdes
      cases hdes
    · rw [if_neg e] at ho1
      exact hi.destroyed_by i o1 ho1 hdes
  · obtain ⟨o2, ho2, hdes⟩ := hi.torn b blk hb hg hd
    refine ⟨o2, ?_, hdes⟩
    have hb2 : (m.setObj x { o with weak_this_ := wt }).blocks = m.blocks := rfl
    rw [Mem.getElem?_setObj hget]
    by_cases e : blk.pointee - 1 = x - 1
    · rw [e, hget] at ho2
      cases ho2
      rw [halive] at hdes
      cases hdes
    · rw [if_neg e]
      exact ho2
  · have := hi.storage b blk p hb hk
    simp only [Mem.setObj, List.length_set]
    exact this
  · rw [Mem.getElem?_setObj hget] at ho1
    by_cases e : i = x - 1
    · rw [if_pos e] at ho1
      cases ho1
      have := hwt c hc
      simp only [] at this ⊢
      omega
    · rw [if_neg e] at ho1
      exact hi.self_ptr i o1 c ho1 hc

theorem HeapInv_tearNull {m : Mem} (hi : HeapInv m) {b : Nat} {blk : Block}
    (hb : m.blocks[b]? = some blk) (hg : blk.good = false) :
    HeapInv (m.setBlock b { blk with deleteT_calls := blk.deleteT_calls + 1 }) := by
  have hget := @Mem.getElem?_setBlock m b blk
    { blk with deleteT_calls := blk.deleteT_calls + 1 } hb
  refine ⟨fun i o ho hdes => ?_, fun x blk1 hx hg1 hd => ?_, fun x blk1 p hx hk => ?_,
    fun i o c ho hc => hi.self_ptr i o c ho hc⟩
  · obtain ⟨b0, blk0, hb0, hp, hd0⟩ := hi.destroyed_by i o ho hdes
    by_cases e : b0 = b
    · subst e
      rw [hb] at hb0
      cases hb0
      exact ⟨b0, { blk with deleteT_calls := blk.deleteT_calls + 1 },
        by rw [hget, if_pos rfl], hp, Nat.le_add_left 1 _⟩
    · exact ⟨b0, blk0, by rw [hget, if_neg e]; exact hb0, hp, hd0⟩
  · rw [hget] at hx
    by_cases e : x = b
    · rw [if_pos e] at hx
      cases hx
      have : blk.good = true := hg1
      rw [hg] at this
      cases this
    · rw [if_neg e] at hx
      exact hi.torn x blk1 hx hg1 hd
  · rw [hget] at hx
    by_cases e : x = b
    · rw [if_pos e] at hx
      cases hx
      exact hi.storage b blk p hb hk
    · rw [if_neg e] at hx
      exact hi.storage x blk1 p hx hk

theorem HeapInv_tear {m : Mem} (hi : HeapInv m) {b : Nat} {blk : Block} {o : Pointee}
    (hb : m.blocks[b]? = some blk) (ho : m.obj blk.pointee = Except.ok o) :
    HeapInv ((m.setBlock b { blk with deleteT_calls := blk.deleteT_calls + 1 }).setObj
      blk.pointee { o with destroyed := true }) := by
  obtain ⟨hp0, hobj, halive⟩ := Mem.obj_ok ho
  have hgetb : ∀ x : Nat,
      ((m.setBlock b { blk with deleteT_calls := blk.deleteT_calls + 1 }).setObj
        blk.pointee { o with destroyed := true }).blocks[x]?
        = if x = b then some { blk with deleteT_calls := blk.deleteT_calls + 1 }
          else m.blocks[x]? :=
    fun x => Mem.getElem?_setBlock hb x
  have hgeto : ∀ x : Nat,
      ((m.setBlock b { blk with deleteT_calls := blk.deleteT_calls + 1 }).setObj
        blk.pointee { o with destroyed := true }).objs[x]?
        = if x = blk.pointee - 1 then some { o with destroyed := true } else m.objs[x]? :=
    fun x => Mem.getElem?_setObj
      (m := m.setBlock b { blk with deleteT_calls := blk.deleteT_calls + 1 }) hobj x
  have hself : ∃ blk1 : Block,
      ((m.setBlock b { blk with deleteT_calls := blk.deleteT_calls + 1 }).setObj
        blk.pointee { o with destroyed := true }).blocks[b]? = some blk1 ∧
      blk1.pointee = blk.pointee ∧ 1 ≤ blk1.deleteT_calls :=
    ⟨{ blk with deleteT_calls := blk.deleteT_calls + 1 }, by rw [hgetb, if_pos rfl], rfl,
      Nat.le_add_left 1 _⟩
  refine ⟨fun i o1 ho1 hdes => ?_, fun x blk1 hx hg1 hd => ?_, fun x blk1 p hx hk => ?_,
    fun i o1 c ho1 hc => ?_⟩
  · rw [hgeto] at ho1
    by_cases e : i = blk.pointee - 1
    · obtain ⟨blk1, h1, h2, h3⟩ := hself
      exact ⟨b, blk1, h1, by omega, h3⟩
    · rw [if_neg e] at ho1
      obtain ⟨b0, blk0, hb0, hp, hd0⟩ := hi.destroyed_by i o1 ho1 hdes
      by_cases e0 : b0 = b
      · subst e0
        rw [hb] at hb0
        cases hb0
        obtain ⟨blk1, h1, h2, h3⟩ := hself
        exact ⟨b0, blk1, h1, h2.trans hp, h3⟩
      · exact ⟨b0, blk0, by rw [hgetb, if_neg e0]; exact hb0, hp, hd0⟩
  · rw [hgetb] at hx
    by_cases e : x = b
    · rw [if_pos e] at hx
      cases hx
      exact ⟨{ o with destroyed := true }, by
        show _ = _
        rw [hgeto]
        exact if_pos rfl, rfl⟩
    · rw [if_neg e] at hx
      obtain ⟨o2, ho2, hdes⟩ := hi.torn x blk1 hx hg1 hd
      by_cases e1 : blk1.pointee - 1 = blk.pointee - 1
      · exact ⟨{ o with destroyed := true }, by rw [hgeto, if_pos e1], rfl⟩
      · exact ⟨o2, by rw [hgeto, if_neg e1]; exact ho2, hdes⟩
  · rw [hgetb] at hx
    have hlen : ((m.setBlock b { blk with deleteT_calls := blk.deleteT_calls + 1 }).setObj
        blk.pointee { o with destroyed := true }).objs.length = m.objs.length := by
      simp only [Mem.setObj, Mem.setBlock, List.length_set]
    rw [hlen]
    by_cases e : x = b
    · rw [if_pos e] at hx
      cases hx
      exact hi.storage b blk p hb hk
    · rw [if_neg e] at hx
      exact hi.storage x blk1 p hx hk
  · rw [hgeto] at ho1
    by_cases e : i = blk.pointee - 1
    · rw [if_pos e] at ho1
      cases ho1
      subst e
      exact hi.self_ptr _ o c hobj hc
    · rw [if_neg e] at ho1
      exact hi.self_ptr i o1 c ho1 hc

theorem Mem.AddReference_same {m m1 : Mem} {b : Nat} (h : m.AddReference b = Except.ok m1) :
    Mem.Same m m1 := by
  obtain ⟨blk, hb, -, rfl⟩ := Mem.AddReference_ok h
  exact Mem.Same.of_setBlock hb rfl rfl

theorem Mem.RemoveReference_same {m m1 : Mem} {b : Nat}
    (h : m.RemoveReference b = Except.ok m1) : Mem.Same m m1 := by
  obtain ⟨blk, hb, -, rfl⟩ := Mem.RemoveReference_ok h
  exact Mem.Same.of_setBlock hb rfl rfl

theorem Mem.AddWeakRef_same {m m1 : Mem} {b : Nat} (h : m.AddWeakRef b = Except.ok m1) :
    Mem.Same m m1 := by
  obtain ⟨blk, hb, -, rfl⟩ := Mem.AddWeakRef_ok h
  exact Mem.Same.of_setBlock hb rfl rfl

theorem Mem.DecWeakRef_same {m m1 : Mem} {b : Nat} (h : m.DecWeakRef b = Except.ok m1) :
    Mem.Same m m1 := by
  obtain ⟨blk, hb, -, rfl⟩ := Mem.DecWeakRef_ok h
  exact Mem.Same.of_setBlock hb rfl rfl

theorem Mem.free_same {m m1 : Mem} {b : Nat} (h : m.free b = Except.ok m1) :
    Mem.Same m m1 := by
  obtain ⟨blk, hb, -, rfl⟩ := Mem.free_ok h
  exact Mem.Same.of_setBlock hb rfl rfl

theorem WeakPtr.TryDeleteBlock_same {w : WeakPtr} {m m1 : Mem}
    (h : w.TryDeleteBlock m = Except.ok m1) : Mem.Same m m1 := by
  unfold WeakPtr.TryDeleteBlock at h
  cases hc : w.control_block_ with
  | none =>
    simp only [hc, pure_ok] at h
    subst h
    exact Mem.Same.same_refl m
  | some c =>
    simp only [hc, bind_ok] at h
    obtain ⟨blk, -, h⟩ := h
    split at h
    · exact Mem.free_same h
    · exact Mem.DecWeakRef_same h

/-- The destructor of a pointee marks it as destroyed; the blocks keep their class and
their number of `DeleteT` calls. -/
theorem Mem.destroyPointee_same {efst : Bool} {m m1 : Mem} {p : Nat}
    (h : m.destroyPointee efst p = Except.ok m1) :
    ∃ o, m.obj p = Except.ok o ∧ Mem.Same (m.setObj p { o with destroyed := true }) m1 := by
  cases efst with
  | false =>
    simp only [Mem.destroyPointee, bind_ok, pure_ok, Bool.false_eq_true, if_false] at h
    obtain ⟨o, ho, m0, rfl, rfl⟩ := h
    exact ⟨o, ho, Mem.Same.same_refl _⟩
  | true =>
    simp only [Mem.destroyPointee, bind_ok, pure_ok, if_true] at h
    obtain ⟨o, ho, m0, h0, rfl⟩ := h
    exact ⟨o, ho, (WeakPtr.TryDeleteBlock_same h0).of_setObj p _⟩

theorem Mem.DeleteT_heap {efst : Bool} {m m1 : Mem} {b : Nat}
    (h : m.DeleteT efst b = Except.ok m1) (hi : HeapInv m) : HeapInv m1 := by
  simp only [Mem.DeleteT, bind_ok, Mem.block_ok] at h
  obtain ⟨blk, ⟨hb, hf⟩, h⟩ := h
  have hpt : ∀ p, blk.pointee = p →
      (m.setBlock b { blk with deleteT_calls := blk.deleteT_calls + 1 }).destroyPointee efst p
        = Except.ok m1 → HeapInv m1 := by
    intro p hp hd
    obtain ⟨o, ho, hs⟩ := Mem.destroyPointee_same hd
    have ho1 : m.obj blk.pointee = Except.ok o := by
      rw [hp]
      exact ho
    have := HeapInv_tear hi hb ho1
    rw [hp] at this
    exact HeapInv_congr hs this
  cases hk : blk.kind with
  | pointer p =>
    simp only [hk] at h
    by_cases hp : p = 0
    · subst hp
      simp only [if_true, pure_ok] at h
      rw [← hk] at h
      subst h
      exact HeapInv_tearNull hi hb (by simp [Block.good, hk])
    · simp only [hp, if_false] at h
      rw [← hk] at h
      exact hpt p (by simp [Block.pointee, hk]) h
  | holder p =>
    simp only [hk] at h
    rw [← hk] at h
    exact hpt p (by simp [Block.pointee, hk]) h

theorem SharedPtr.TryToDeleteBlock_heap {efst : Bool} {this : SharedPtr} {m m1 : Mem}
    (h : this.TryToDeleteBlock efst m = Except.ok m1) (hi : HeapInv m) : HeapInv m1 := by
  unfold SharedPtr.TryToDeleteBlock at h
  cases hc : this.control_block_ with
  | none =>
    simp only [hc, pure_ok] at h
    subst h
    exact hi
  | some b =>
    simp only [hc, bind_ok] at h
    obtain ⟨blk, -, h⟩ := h
    split at h
    · obtain ⟨m0, h1, h2⟩ := bind_ok.mp h
      exact HeapInv_congr (Mem.free_same h2) (Mem.DeleteT_heap h1 hi)
    · split at h
      · obtain ⟨m0, h1, h2⟩ := bind_ok.mp h
        exact Mem.DeleteT_heap h2 (HeapInv_congr (Mem.RemoveReference_same h1) hi)
      · exact HeapInv_congr (Mem.RemoveReference_same h) hi

theorem Mem.assignWeakThis_heap {m m1 : Mem} {x : Nat} {this : SharedPtr}
    (hok : m.assignWeakThis x this = Except.ok m1) (hx : this.ptr_ = x) (hi : HeapInv m) :
    HeapInv m1 := by
  simp only [Mem.assignWeakThis, bind_ok, pure_ok] at hok
  obtain ⟨o, ho, ⟨tmp, ma⟩, hs, ⟨wt, tmp1, mb⟩, hmv, mc, hd, rfl⟩ := hok
  obtain ⟨b, -, rfl, hadd⟩ := WeakPtr.ofShared_ok hs
  obtain ⟨hrel, rfl, rfl⟩ := WeakPtr.moveAssign_ok hmv
  rw [WeakPtr.dtor_default] at hd
  cases hd
  have hsame : Mem.Same m mb :=
    (Mem.AddWeakRef_same hadd).same_trans (WeakPtr.TryDeleteBlock_same hrel)
  exact HeapInv_congr (hsame.of_setObj x _) (HeapInv_setWeakThis hi ho _ (fun _ _ => hx))

theorem SharedPtr.copy_heap {efst : Bool} {other this : SharedPtr} {m m1 : Mem}
    (hok : SharedPtr.copy efst other m = Except.ok (this, m1)) (hi : HeapInv m) :
    HeapInv m1 := by
  unfold SharedPtr.copy at hok
  cases efst with
  | false =>
    cases hc : other.control_block_ with
    | none =>
      simp only [hc, bind_ok, pure_ok, Bool.false_eq_true, if_false, Prod.mk.injEq] at hok
      obtain ⟨a, rfl, a1, rfl, -, rfl⟩ := hok
      exact hi
    | some b =>
      simp only [hc, bind_ok, pure_ok, Bool.false_eq_true, if_false, Prod.mk.injEq] at hok
      obtain ⟨a, hadd, a1, rfl, -, rfl⟩ := hok
      exact HeapInv_congr (Mem.AddReference_same hadd) hi
  | true =>
    cases hc : other.control_block_ with
    | none =>
      simp only [hc, bind_ok, pure_ok, if_true, Prod.mk.injEq] at hok
      obtain ⟨a, rfl, a1, hw, -, rfl⟩ := hok
      exact Mem.assignWeakThis_heap hw rfl hi
    | some b =>
      simp only [hc, bind_ok, pure_ok, if_true, Prod.mk.injEq] at hok
      obtain ⟨a, hadd, a1, hw, -, rfl⟩ := hok
      exact Mem.assignWeakThis_heap hw rfl (HeapInv_congr (Mem.AddReference_same hadd) hi)

theorem SharedPtr.move_heap {efst : Bool} {other this other1 : SharedPtr} {m m1 : Mem}
    (hok : SharedPtr.move efst other m = Except.ok (this, other1, m1)) (hi : HeapInv m) :
    HeapInv m1 := by
  unfold SharedPtr.move at hok
  cases efst with
  | false =>
    simp only [bind_ok, pure_ok, Bool.false_eq_true, if_false, Prod.mk.injEq] at hok
    obtain ⟨a, rfl, -, -, rfl⟩ := hok
    exact hi
  | true =>
    simp only [bind_ok, pure_ok, if_true, Prod.mk.injEq] at hok
    obtain ⟨a, hw, -, -, rfl⟩ := hok
    exact Mem.assignWeakThis_heap hw rfl hi

theorem SharedPtr.ofRaw_heap {efst : Bool} {ptr : Nat} {this : SharedPtr} {m m1 : Mem}
    (hok : SharedPtr.ofRaw efst ptr m = Except.ok (this, m1)) (hi : HeapInv m) :
    HeapInv m1 := by
  unfold SharedPtr.ofRaw at hok
  have h0 : HeapInv (m.alloc (ControlBlockPointer.new ptr)).2 :=
    HeapInv_alloc hi _ rfl (fun p hp => by simp [ControlBlockPointer.new] at hp)
  cases efst with
  | false =>
    simp only [bind_ok, pure_ok, Bool.false_eq_true, if_false, Prod.mk.injEq] at hok
    obtain ⟨a, rfl, -, rfl⟩ := hok
    exact h0
  | true =>
    simp only [bind_ok, pure_ok, if_true, Prod.mk.injEq] at hok
    obtain ⟨a, hw, -, rfl⟩ := hok
    exact Mem.assignWeakThis_heap hw rfl h0

theorem SharedPtr.MakeShared_heap {efst : Bool} {this : SharedPtr} {m m1 : Mem}
    (hok : SharedPtr.MakeShared efst m = Except.ok (this, m1)) (hi : HeapInv m) :
    HeapInv m1 := by
  unfold SharedPtr.MakeShared SharedPtr.ofHolder at hok
  have h0 : HeapInv (m.newObj.2.alloc (ControlBlockHolder.new m.newObj.1)).2 := by
    refine HeapInv_alloc (HeapInv_newObj hi) _ rfl (fun p hp => ?_)
    simp only [ControlBlockHolder.new, BlockKind.holder.injEq] at hp
    subst hp
    simp [Mem.newObj]
  cases efst with
  | false =>
    simp only [bind_ok, pure_ok, Bool.false_eq_true, if_false, Prod.mk.injEq] at hok
    obtain ⟨blk, -, a, rfl, -, rfl⟩ := hok
    exact h0
  | true =>
    simp only [bind_ok, pure_ok, if_true, Prod.mk.injEq] at hok
    obtain ⟨blk, -, a, hw, -, rfl⟩ := hok
    exact Mem.assignWeakThis_heap hw rfl h0

theorem SharedPtr.aliasing_same {other this : SharedPtr} {ptr : Nat} {m m1 : Mem}
    (hok : SharedPtr.aliasing other ptr m = Except.ok (this, m1)) : Mem.Same m m1 := by
  unfold SharedPtr.aliasing at hok
  cases hc : other.control_block_ with
  | none =>
    simp only [hc, pure_ok, Prod.mk.injEq] at hok
    rw [← hok.2]
    exact Mem.Same.same_refl m
  | some b =>
    simp only [hc, bind_ok, pure_ok, Prod.mk.injEq] at hok
    obtain ⟨ma, h1, -, rfl⟩ := hok
    exact Mem.AddReference_same h1

theorem SharedPtr.ofWeak_same {other : WeakPtr} {this : SharedPtr} {m m1 : Mem}
    (hok : SharedPtr.ofWeak other m = Except.ok (this, m1)) : Mem.Same m m1 := by
  obtain ⟨b, blk, -, -, -, -, hadd, -⟩ := SharedPtr.ofWeak_ok hok
  exact Mem.AddReference_same hadd

theorem SharedPtr.copyAssign_heap {efst : Bool} {this other this1 : SharedPtr} {m m1 : Mem}
    (hok : SharedPtr.copyAssign efst this other m = Except.ok (this1, m1)) (hi : HeapInv m) :
    HeapInv m1 := by
  unfold SharedPtr.copyAssign at hok
  obtain ⟨m0, hrel, hok⟩ := bind_ok.mp hok
  have h0 := SharedPtr.TryToDeleteBlock_heap hrel hi
  cases hc : other.control_block_ with
  | none =>
    simp only [hc, pure_ok, Prod.mk.injEq] at hok
    rw [← hok.2]
    exact h0
  | some b =>
    simp only [hc, bind_ok, pure_ok, Prod.mk.injEq] at hok
    obtain ⟨ma, h1, -, rfl⟩ := hok
    exact HeapInv_congr (Mem.AddReference_same h1) h0

theorem SharedPtr.moveAssign_heap {efst : Bool} {this other this1 other1 : SharedPtr}
    {m m1 : Mem}
    (hok : SharedPtr.moveAssign efst this other m = Except.ok (this1, other1, m1))
    (hi : HeapInv m) : HeapInv m1 := by
  simp only [SharedPtr.moveAssign, bind_ok, pure_ok, Prod.mk.injEq] at hok
  obtain ⟨m0, hrel, -, -, rfl⟩ := hok
  exact SharedPtr.TryToDeleteBlock_heap hrel hi

theorem SharedPtr.Reset_heap {efst : Bool} {this this1 : SharedPtr} {m m1 : Mem}
    (hok : SharedPtr.Reset efst this m = Except.ok (this1, m1)) (hi : HeapInv m) :
    HeapInv m1 := by
  simp only [SharedPtr.Reset, bind_ok, pure_ok, Prod.mk.injEq] at hok
  obtain ⟨m0, hrel, -, rfl⟩ := hok
  exact SharedPtr.TryToDeleteBlock_heap hrel hi

theorem SharedPtr.ResetPtr_heap {efst : Bool} {this this1 : SharedPtr} {ptr : Nat}
    {m m1 : Mem}
    (hok : SharedPtr.ResetPtr efst this ptr m = Except.ok (this1, m1)) (hi : HeapInv m) :
    HeapInv m1 := by
  simp only [SharedPtr.ResetPtr, bind_ok, pure_ok, Prod.mk.injEq] at hok
  obtain ⟨m0, hrel, -, rfl⟩ := hok
  exact HeapInv_alloc (SharedPtr.TryToDeleteBlock_heap hrel hi) _ rfl
    (fun p hp => by simp [ControlBlockPointer.new] at hp)

theorem WeakPtr.copy_wsame {other this : WeakPtr} {m m1 : Mem}
    (hok : WeakPtr.copy other m = Except.ok (this, m1)) : Mem.Same m m1 := by
  unfold WeakPtr.copy at hok
  cases hc : other.control_block_ with
  | none =>
    simp only [hc, pure_ok, Prod.mk.injEq] at hok
    rw [← hok.2]
    exact Mem.Same.same_refl m
  | some b =>
    simp only [hc, bind_ok, pure_ok, Prod.mk.injEq] at hok
    obtain ⟨ma, h1, -, rfl⟩ := hok
    exact Mem.AddWeakRef_same h1

theorem WeakPtr.ofShared_same {other : SharedPtr} {this : WeakPtr} {m m1 : Mem}
    (hok : WeakPtr.ofShared other m = Except.ok (this, m1)) : Mem.Same m m1 := by
  obtain ⟨b, -, -, hadd⟩ := WeakPtr.ofShared_ok hok
  exact Mem.AddWeakRef_same hadd

theorem WeakPtr.copyAssign_wsame {this other this1 : WeakPtr} {m m1 : Mem}
    (hok : WeakPtr.copyAssign this other m = Except.ok (this1, m1)) : Mem.Same m m1 := by
  unfold WeakPtr.copyAssign at hok
  obtain ⟨m0, hrel, hok⟩ := bind_ok.mp hok
  refine (WeakPtr.TryDeleteBlock_same hrel).same_trans ?_
  cases hc : other.control_block_ with
  | none =>
    simp only [hc, pure_ok, Prod.mk.injEq] at hok
    rw [← hok.2]
    exact Mem.Same.same_refl m0
  | some b =>
    simp only [hc, bind_ok, pure_ok, Prod.mk.injEq] at hok
    obtain ⟨ma, h1, -, rfl⟩ := hok
    exact Mem.AddWeakRef_same h1

theorem WeakPtr.Reset_wsame {this this1 : WeakPtr} {m m1 : Mem}
    (hok : WeakPtr.Reset this m = Except.ok (this1, m1)) : Mem.Same m m1 := by
  simp only [WeakPtr.Reset, bind_ok, pure_ok, Prod.mk.injEq] at hok
  obtain ⟨m0, hrel, -, rfl⟩ := hok
  exact WeakPtr.TryDeleteBlock_same hrel

theorem WeakPtr.Lock_same {this : WeakPtr} {r : SharedPtr} {m m1 : Mem}
    (hok : WeakPtr.Lock this m = Except.ok (r, m1)) : Mem.Same m m1 := by
  unfold WeakPtr.Lock at hok
  split at hok
  · simp only [pure_ok, Prod.mk.injEq] at hok
    rw [← hok.2]
    exact Mem.Same.same_refl m
  · simp only [bind_ok] at hok
    obtain ⟨e, -, hok⟩ := hok
    split at hok
    · simp only [pure_ok, Prod.mk.injEq] at hok
      rw [← hok.2]
      exact Mem.Same.same_refl m
    · exact SharedPtr.ofWeak_same hok

/-- Every operation keeps the pointees in agreement with the teardown of the blocks. -/
theorem step_heap {efst : Bool} {op : Op} {s s1 : State} (hi : HeapInv s.mem)
    (hok : step efst op s = Except.ok s1) : HeapInv s1.mem := by
  cases op with
  | newObj =>
    simp only [step, pure_ok] at hok
    subst hok
    exact HeapInv_newObj hi
  | sDefault =>
    simp only [step, pure_ok] at hok
    subst hok
    exact hi
  | sFromRaw ptr =>
    simp only [step, bind_ok, pure_ok] at hok
    obtain ⟨⟨h, m⟩, hf, rfl⟩ := hok
    exact SharedPtr.ofRaw_heap hf hi
  | sMakeShared =>
    simp only [step, bind_ok, pure_ok] at hok
    obtain ⟨⟨h, m⟩, hf, rfl⟩ := hok
    exact SharedPtr.MakeShared_heap hf hi
  | sCopy src =>
    simp only [step, bind_ok, pure_ok] at hok
    obtain ⟨other, -, ⟨h, m⟩, hf, rfl⟩ := hok
    exact SharedPtr.copy_heap hf hi
  | sMove src =>
    simp only [step, bind_ok, pure_ok] at hok
    obtain ⟨other, -, ⟨h, other1, m⟩, hf, rfl⟩ := hok
    exact SharedPtr.move_heap hf hi
  | sAlias src ptr =>
    simp only [step, bind_ok, pure_ok] at hok
    obtain ⟨other, -, ⟨h, m⟩, hf, rfl⟩ := hok
    exact HeapInv_congr (SharedPtr.aliasing_same hf) hi
  | sFromWeak src =>
    simp only [step, bind_ok] at hok
    obtain ⟨other, -, hok⟩ := hok
    cases hres : SharedPtr.ofWeak other s.mem with
    | error e =>
      rw [hres] at hok
      cases e <;> simp only [pure_ok, reduceCtorEq] at hok
      subst hok
      exact hi
    | ok r =>
      obtain ⟨h, m⟩ := r
      rw [hres] at hok
      simp only [pure_ok] at hok
      subst hok
      exact HeapInv_congr (SharedPtr.ofWeak_same hres) hi
  | sCopyAssign dst src =>
    simp only [step, bind_ok] at hok
    obtain ⟨this, -, other, -, hok⟩ := hok
    by_cases hds : dst = src
    · simp only [hds, if_true, pure_ok] at hok
      subst hok
      exact hi
    · simp only [hds, if_false, bind_ok, pure_ok] at hok
      obtain ⟨⟨this1, m⟩, hf, rfl⟩ := hok
      exact SharedPtr.copyAssign_heap hf hi
  | sMoveAssign dst src =>
    simp only [step, bind_ok] at hok
    obtain ⟨this, -, other, -, hok⟩ := hok
    by_cases hds : dst = src
    · simp only [hds, if_true, pure_ok] at hok
      subst hok
      exact hi
    · simp only [hds, if_false, bind_ok, pure_ok] at hok
      obtain ⟨⟨this1, other1, m⟩, hf, rfl⟩ := hok
      exact SharedPtr.moveAssign_heap hf hi
  | sReset h =>
    simp only [step, bind_ok, pure_ok] at hok
    obtain ⟨this, -, ⟨this1, m⟩, hf, rfl⟩ := hok
    exact SharedPtr.Reset_heap hf hi
  | sResetPtr h ptr =>
    simp only [step, bind_ok, pure_ok] at hok
    obtain ⟨this, -, ⟨this1, m⟩, hf, rfl⟩ := hok
    exact SharedPtr.ResetPtr_heap hf hi
  | sSwap a b =>
    simp only [step, bind_ok, pure_ok] at hok
    obtain ⟨this, -, other, -, rfl⟩ := hok
    exact hi
  | sDestroy h =>
    simp only [step, bind_ok, pure_ok] at hok
    obtain ⟨this, -, m, hf, rfl⟩ := hok
    exact SharedPtr.TryToDeleteBlock_heap hf hi
  | wDefault =>
    simp only [step, pure_ok] at hok
    subst hok
    exact hi
  | wCopy src =>
    simp only [step, bind_ok, pure_ok] at hok
    obtain ⟨other, -, ⟨w, m⟩, hf, rfl⟩ := hok
    exact HeapInv_congr (WeakPtr.copy_wsame hf) hi
  | wMove src =>
    simp only [step, bind_ok, pure_ok] at hok
    obtain ⟨other, -, rfl⟩ := hok
    exact hi
  | wFromShared src =>
    simp only [step, bind_ok, pure_ok] at hok
    obtain ⟨other, -, ⟨w, m⟩, hf, rfl⟩ := hok
    exact HeapInv_congr (WeakPtr.ofShared_same hf) hi
  | wCopyAssign dst src =>
    simp only [step, bind_ok] at hok
    obtain ⟨this, -, other, -, hok⟩ := hok
    by_cases hds : dst = src
    · simp only [hds, if_true, pure_ok] at hok
      subst hok
      exact hi
    · simp only [hds, if_false, bind_ok, pure_ok] at hok
      obtain ⟨⟨this1, m⟩, hf, rfl⟩ := hok
      exact HeapInv_congr (WeakPtr.copyAssign_wsame hf) hi
  | wMoveAssign dst src =>
    simp only [step, bind_ok] at hok
    obtain ⟨this, -, other, -, hok⟩ := hok
    by_cases hds : dst = src
    · simp only [hds, if_true, pure_ok] at hok
      subst hok
      exact hi
    · simp only [hds, if_false, bind_ok, pure_ok] at hok
      obtain ⟨⟨this1, other1, m⟩, hf, rfl⟩ := hok
      exact HeapInv_congr (WeakPtr.TryDeleteBlock_same (WeakPtr.moveAssign_ok hf).1) hi
  | wReset h =>
    simp only [step, bind_ok, pure_ok] at hok
    obtain ⟨this, -, ⟨this1, m⟩, hf, rfl⟩ := hok
    exact HeapInv_congr (WeakPtr.Reset_wsame hf) hi
  | wSwap a b =>
    simp only [step, bind_ok, pure_ok] at hok
    obtain ⟨this, -, other, -, rfl⟩ := hok
    exact hi
  | wDestroy h =>
    simp only [step, bind_ok, pure_ok] at hok
    obtain ⟨this, -, m, hf, rfl⟩ := hok
    exact HeapInv_congr (WeakPtr.TryDeleteBlock_same hf) hi
  | wLock h =>
    simp only [step, bind_ok, pure_ok] at hok
    obtain ⟨this, -, ⟨r, m⟩, hf, rfl⟩ := hok
    exact HeapInv_congr (WeakPtr.Lock_same hf) hi

theorem run_heap {efst : Bool} {ops : List Op} {s s1 : State} (hi : HeapInv s.mem)
    (hok : run efst ops s = Except.ok s1) : HeapInv s1.mem := by
  induction ops generalizing s with
  | nil =>
    rw [run_nil] at hok
    cases hok
    exact hi
  | cons op ops ih =>
    obtain ⟨s2, h1, h2⟩ := run_cons_ok.mp hok
    exact ih (step_heap hi h1) h2

/-- In every state that a program reaches from the initial state the pointees agree with the
teardown of the blocks. -/
theorem reach_heap {efst : Bool} {ops : List Op} {s : State}
    (hok : run efst ops State.init = Except.ok s) : HeapInv s.mem :=
  run_heap HeapInv_init hok

theorem Block.good_of_kind {blk blk1 : Block} (hk : blk1.kind = blk.kind)
    (hg : blk.good = true) : blk1.good = true := by
  rw [Block.good_congr hk]
  exact hg

/-- A good block with live strong references is not freed, its pointee is not torn down, and
its strong counter is the number of these references. -/
theorem BInv.of_pos {blk : Block} {ns nw : Nat} (h : BInv (some blk) ns nw)
    (hg : blk.good = true) (hpos : 1 ≤ ns) :
    blk.freed = false ∧ blk.base.ref_counter_ = ns ∧ blk.deleteT_calls = 0 := by
  have g := h.2.1 hg
  have hf : blk.freed = false := by
    cases hfr : blk.freed with
    | false => rfl
    | true =>
      have := (g.gone hfr).1
      omega
  refine ⟨hf, g.ref_eq hf, ?_⟩
  rw [g.deleted, if_neg (by omega)]

theorem SharedDelta.le {s s1 : State} {rel acq : Option Nat} (d : SharedDelta s s1 rel acq)
    (b : Nat) : countShared s.shared b ≤ countShared s1.shared b + 1 := by
  rw [d.counts]
  simp only [bump, drop]
  split <;> split <;> omega

theorem SharedDelta.le_succ {s s1 : State} {rel acq : Option Nat}
    (d : SharedDelta s s1 rel acq) (b : Nat) :
    countShared s1.shared b ≤ countShared s.shared b + 1 := by
  rw [d.counts]
  simp only [bump, drop]
  split <;> split <;> omega

/-- No operation brings back a strong reference to a good block that has none left. -/
theorem SharedDelta.zero {efst : Bool} {s s1 : State} {rel acq : Option Nat}
    (d : SharedDelta s s1 rel acq) (hinv : Inv efst s) {b : Nat} {blk : Block}
    (hblk : s.mem.blocks[b]? = some blk) (hg : blk.good = true)
    (hz : countShared s.shared b = 0) : countShared s1.shared b = 0 := by
  have hi := hinv b
  rw [hblk] at hi
  have g := hi.2.1 hg
  have hnot : acq ≠ some b := by
    intro ha
    rcases d.acq_ok b ha with h | h | ⟨blk1, h1, hf1, hr1⟩
    · rw [hblk] at h
      cases h
    · have : drop (countShared s.shared) rel b ≤ countShared s.shared b := by
        simp only [drop]
        split <;> omega
      omega
    · rw [hblk] at h1
      cases h1
      have := g.ref_eq hf1
      omega
  rw [d.counts]
  simp only [bump, drop, hnot, if_false]
  split <;> omega

theorem step_zero {efst : Bool} {op : Op} {s s1 : State} (hinv : Inv efst s)
    (hsize : s.size + 2 < SIZE) (hok : step efst op s = Except.ok s1)
    {b : Nat} {blk : Block} (hblk : s.mem.blocks[b]? = some blk) (hg : blk.good = true)
    (hz : countShared s.shared b = 0) : countShared s1.shared b = 0 := by
  obtain ⟨-, -, -, rel, acq, d⟩ := step_inv hinv hsize hok
  exact d.zero hinv hblk hg hz

/-- Once the last strong reference to a good block is gone, no program brings one back. -/
theorem run_zero {efst : Bool} {ops : List Op} {s s1 : State} (hinv : Inv efst s)
    (hsize : s.size + 2 * ops.length + 2 < SIZE) (hok : run efst ops s = Except.ok s1)
    {b : Nat} {blk : Block} (hblk : s.mem.blocks[b]? = some blk) (hg : blk.good = true)
    (hz : countShared s.shared b = 0) : countShared s1.shared b = 0 := by
  induction ops generalizing s blk with
  | nil =>
    rw [run_nil] at hok
    cases hok
    exact hz
  | cons op ops ih =>
    obtain ⟨s2, h1, h2⟩ := run_cons_ok.mp hok
    simp only [List.length_cons] at hsize
    obtain ⟨hi2, hs2, he2, -⟩ := step_inv hinv (by omega) h1
    obtain ⟨blk2, hb2, hk2⟩ := he2 b blk hblk
    exact ih hi2 (by omega) h2 hb2 (Block.good_of_kind hk2 hg)
      (step_zero hinv (by omega) h1 hblk hg hz)


/-! ## C1 -/

/-- C1. In every state that a program reaches (the operations are construction, copy,
move, aliasing, promotion, assignment, `Reset`, `Swap`, destruction of `SharedPtr` and
`WeakPtr` variables, for a pointee type with or without `EnableSharedFromThis`), a live
`SharedPtr` whose control block was made by `MakeShared` or from a raw pointer that is not
null reports as `UseCount()` the number of live `SharedPtr` variables that share its
control block. -/
theorem C1_use_count_is_number_of_live_handles (efst : Bool) (ops : List Op) (s : State)
    (hlen : 2 * ops.length + 2 < SIZE) (hrun : run efst ops State.init = Except.ok s)
    (i : Nat) (h : SharedPtr) (b : Nat) (blk : Block)
    (hi : s.shared[i]? = some (some h)) (hb : h.control_block_ = some b)
    (hblk : s.mem.blocks[b]? = some blk) (hgood : blk.good = true) :
    h.UseCount s.mem = Except.ok (countShared s.shared b) := by
  have hinv := (reach_inv hlen hrun).1 b
  rw [hblk] at hinv
  obtain ⟨hf, hr, -⟩ := hinv.of_pos hgood (countShared_pos hi hb)
  have hread : s.mem.block b = Except.ok blk := Mem.block_ok.mpr ⟨hblk, hf⟩
  simp only [SharedPtr.UseCount, hb, hread, bind, Except.bind, pure, Except.pure,
    ControlBlockBase.GetRefCounter, hr]

/-- Witness of C1: `a = MakeShared`, `b(a)`, `c(std::move(b))`, `b = a`, `a.Reset()`; the
handle `c` reports the two live handles `b` and `c`. -/
theorem C1_witness :
    SharedPtr.UseCount { ptr_ := 1, control_block_ := some 0 }
        { blocks := [{ base := { weak_ref_counter_ := 0, ref_counter_ := 2 },
                       kind := BlockKind.holder 1, freed := false, deleteT_calls := 0 }],
          objs := [{ weak_this_ := WeakPtr.default, destroyed := false }] }
      = Except.ok (countShared [some SharedPtr.default, some { ptr_ := 1, control_block_ := some 0 },
          some { ptr_ := 1, control_block_ := some 0 }] 0) :=
  C1_use_count_is_number_of_live_handles false
    [Op.sMakeShared, Op.sCopy 0, Op.sMove 1, Op.sCopyAssign 1 0, Op.sReset 0]
    { mem := { blocks := [{ base := { weak_ref_counter_ := 0, ref_counter_ := 2 },
                            kind := BlockKind.holder 1, freed := false, deleteT_calls := 0 }],
               objs := [{ weak_this_ := WeakPtr.default, destroyed := false }] },
      shared := [some SharedPtr.default, some { ptr_ := 1, control_block_ := some 0 },
                 some { ptr_ := 1, control_block_ := some 0 }],
      weak := [] }
    (by decide) (by rfl) 2 { ptr_ := 1, control_block_ := some 0 } 0
    { base := { weak_ref_counter_ := 0, ref_counter_ := 2 },
      kind := BlockKind.holder 1, freed := false, deleteT_calls := 0 }
    (by rfl) (by rfl) (by rfl) (by rfl)

/-! ## C2 -/

theorem Block.pointee_pos {m : Mem} (hh : HeapInv m) {b : Nat} {blk : Block}
    (hb : m.blocks[b]? = some blk) (hg : blk.good = true) : 1 ≤ blk.pointee := by
  rcases Block.good_pointee hg with h | ⟨p, hp⟩
  · omega
  · have := (hh.storage b blk p hb hp).1
    simp only [Block.pointee, hp]
    exact this

/-- Counterexample to C2 as stated. `SharedPtr<T> p(static_cast<T*>(nullptr))` makes a
block whose strong counter is `0`; with `WeakPtr<T> w(p)`, every `{ SharedPtr<T> q(p); }`
takes the counter from `0` to `1` and back and calls `DeleteT` again: two calls on one
block. After `SharedPtr<T> q(p)` the block exists with strong counter `1` although it has no
pointee (the heap holds no object at all). And after `SharedPtr<T> a(x), b(x)` for one
object `x`, the destructor of `a` destroys the object while the block of `b` exists with
strong counter `1`. -/
theorem C2_counterexample :
    (run false [Op.sFromRaw 0, Op.wFromShared 0, Op.sCopy 0, Op.sDestroy 1, Op.sCopy 0,
        Op.sDestroy 2] State.init).map (fun s => s.mem.blocks.map Block.deleteT_calls)
      = Except.ok [2] ∧
    (run false [Op.sFromRaw 0, Op.sCopy 0] State.init).map
        (fun s => (s.mem.blocks.map (fun b => (b.freed, b.base.ref_counter_, b.pointee)),
          s.mem.objs))
      = Except.ok ([(false, 1, 0)], []) ∧
    (run false [Op.newObj, Op.sFromRaw 1, Op.sFromRaw 1, Op.sDestroy 0] State.init).map
        (fun s => (s.mem.blocks.map (fun b => (b.freed, b.base.ref_counter_, b.pointee)),
          s.mem.objs.map Pointee.destroyed))
      = Except.ok ([(true, 1, 1), (false, 1, 1)], [true]) := by
  refine ⟨?_, ?_, ?_⟩ <;> rfl

/-- C2, amended. For a control block made by `MakeShared` or from a raw pointer that is not
null, in every state `s` that a program reaches: `DeleteT` has run once if no live
`SharedPtr` shares the block and not at all otherwise; while the block exists its strong
counter is the number of these handles, and the object `o` at the address of its pointee,
if no other control block of the heap (freed or not) manages that address, is alive
(`destroyed = false`) iff the counter is positive; the storage of a `ControlBlockHolder` is
an object of the heap; and an operation changes the number of `DeleteT` runs only when it
takes the number of sharing handles from `1` to `0`, and then by exactly one. -/
theorem C2_teardown_exactly_once (efst : Bool) (ops : List Op) (s : State)
    (hlen : 2 * ops.length + 4 < SIZE) (hrun : run efst ops State.init = Except.ok s)
    (b : Nat) (blk : Block) (hblk : s.mem.blocks[b]? = some blk) (hgood : blk.good = true) :
    blk.deleteT_calls = (if countShared s.shared b = 0 then 1 else 0) ∧
    (blk.freed = false → blk.base.ref_counter_ = countShared s.shared b ∧
      ∀ o : Pointee, s.mem.objs[blk.pointee - 1]? = some o →
        (∀ (c : Nat) (blk2 : Block), s.mem.blocks[c]? = some blk2 →
          blk2.pointee = blk.pointee → c = b) →
        (o.destroyed = false ↔ 0 < blk.base.ref_counter_)) ∧
    (∀ p, blk.kind = BlockKind.holder p → ∃ o : Pointee, s.mem.objs[p - 1]? = some o) ∧
    (∀ op s1, step efst op s = Except.ok s1 →
      ∃ blk1, s1.mem.blocks[b]? = some blk1 ∧
        ((countShared s.shared b = 1 ∧ countShared s1.shared b = 0 ∧
            blk1.deleteT_calls = blk.deleteT_calls + 1) ∨
         (¬ (countShared s.shared b = 1 ∧ countShared s1.shared b = 0) ∧
            blk1.deleteT_calls = blk.deleteT_calls))) := by
  obtain ⟨hinv, hsize⟩ := reach_inv (by omega) hrun
  have hh := reach_heap hrun
  have hi := hinv b
  rw [hblk] at hi
  have g := hi.2.1 hgood
  refine ⟨g.deleted, fun hf => ?_, fun p hp => ?_, fun op s1 hstep => ?_⟩
  · have hr := g.ref_eq hf
    refine ⟨hr, fun o ho hex => ⟨fun hd => ?_, fun hpos => ?_⟩⟩
    · by_contra hz
      have hz0 : countShared s.shared b = 0 := by omega
      have hdel := g.deleted
      rw [if_pos hz0] at hdel
      obtain ⟨o2, ho2, hd2⟩ := hh.torn b blk hblk hgood (by omega)
      rw [ho] at ho2
      cases ho2
      rw [hd] at hd2
      cases hd2
    · cases hdes : o.destroyed with
      | false => rfl
      | true =>
        obtain ⟨c, blk2, hc, hp2, hd2⟩ := hh.destroyed_by _ o ho hdes
        have hpp := Block.pointee_pos hh hblk hgood
        have hcb := hex c blk2 hc (by omega)
        subst hcb
        rw [hblk] at hc
        cases hc
        have hdel := g.deleted
        rw [if_neg (by omega)] at hdel
        omega
  · have := hh.storage b blk p hblk hp
    exact List.getElem?_eq_some.mpr ⟨by omega, rfl⟩ |> fun h => ⟨_, h⟩
  · obtain ⟨hinv1, -, hext, rel, acq, d⟩ := step_inv hinv (by omega) hstep
    obtain ⟨blk1, hb1, hk1⟩ := hext b blk hblk
    have hi1 := hinv1 b
    rw [hb1] at hi1
    have g1 := hi1.2.1 (Block.good_of_kind hk1 hgood)
    refine ⟨blk1, hb1, ?_⟩
    rw [g.deleted, g1.deleted]
    have hle := d.le b
    by_cases hz : countShared s.shared b = 0
    · have hz1 := d.zero hinv hblk hgood hz
      right
      simp [hz, hz1]
    · by_cases hz1 : countShared s1.shared b = 0
      · left
        refine ⟨by omega, hz1, ?_⟩
        simp [hz, hz1]
      · right
        simp [hz, hz1]

/-- Witness of C2, amended: after `a = MakeShared`, `w(a)`, `b(a)`, `a.Reset()` one handle is
left, `DeleteT` has not run and the pointee is alive; `b.Reset()` takes the number of
handles from `1` to `0` and runs `DeleteT` once. -/
theorem C2_witness :
    (0 : Nat) = (if countShared [some SharedPtr.default, some ⟨1, some 0⟩] 0 = 0 then 1 else 0) ∧
    ((false : Bool) = false →
      (1 : Nat) = countShared [some SharedPtr.default, some ⟨1, some 0⟩] 0 ∧
      ∀ o : Pointee, [(⟨WeakPtr.default, false⟩ : Pointee)][1 - 1]? = some o →
        (∀ (c : Nat) (blk2 : Block),
          [(⟨⟨1, 1⟩, BlockKind.holder 1, false, 0⟩ : Block)][c]? = some blk2 →
          blk2.pointee = 1 → c = 0) →
        (o.destroyed = false ↔ 0 < (1 : Nat))) ∧
    (∀ p, BlockKind.holder 1 = BlockKind.holder p →
      ∃ o : Pointee, [(⟨WeakPtr.default, false⟩ : Pointee)][p - 1]? = some o) ∧
    (∀ op s1,
      step false op
          ⟨⟨[⟨⟨1, 1⟩, BlockKind.holder 1, false, 0⟩], [⟨WeakPtr.default, false⟩]⟩,
            [some SharedPtr.default, some ⟨1, some 0⟩], [some ⟨1, some 0⟩]⟩
        = Except.ok s1 →
      ∃ blk1, s1.mem.blocks[0]? = some blk1 ∧
        ((countShared [some SharedPtr.default, some ⟨1, some 0⟩] 0 = 1 ∧
            countShared s1.shared 0 = 0 ∧ blk1.deleteT_calls = 0 + 1) ∨
         (¬ (countShared [some SharedPtr.default, some ⟨1, some 0⟩] 0 = 1 ∧
            countShared s1.shared 0 = 0) ∧ blk1.deleteT_calls = 0))) :=
  C2_teardown_exactly_once false
    [Op.sMakeShared, Op.wFromShared 0, Op.sCopy 0, Op.sReset 0]
    ⟨⟨[⟨⟨1, 1⟩, BlockKind.holder 1, false, 0⟩], [⟨WeakPtr.default, false⟩]⟩,
      [some SharedPtr.default, some ⟨1, some 0⟩], [some ⟨1, some 0⟩]⟩
    (by decide) (by rfl) 0 ⟨⟨1, 1⟩, BlockKind.holder 1, false, 0⟩ (by rfl) (by rfl)

/-! ## Computing with a block that is known -/

theorem Mem.block_setBlock {m : Mem} {b : Nat} {blk blk1 : Block}
    (hb : m.blocks[b]? = some blk) (hf : blk1.freed = false) :
    (m.setBlock b blk1).block b = Except.ok blk1 := by
  rw [Mem.block_ok, Mem.getElem?_setBlock hb, if_pos rfl]
  exact ⟨rfl, hf⟩

theorem Mem.obj_setBlock (m : Mem) (b : Nat) (blk1 : Block) (p : Nat) :
    (m.setBlock b blk1).obj p = m.obj p := rfl

theorem Mem.AddReference_eq {m : Mem} {b : Nat} {blk : Block} (h : m.block b = Except.ok blk) :
    m.AddReference b = Except.ok (m.setBlock b { blk with base := blk.base.AddReference }) := by
  simp only [Mem.AddReference, h, bind, Except.bind, pure, Except.pure]

theorem Mem.RemoveReference_eq {m : Mem} {b : Nat} {blk : Block}
    (h : m.block b = Except.ok blk) :
    m.RemoveReference b
      = Except.ok (m.setBlock b { blk with base := blk.base.RemoveReference }) := by
  simp only [Mem.RemoveReference, h, bind, Except.bind, pure, Except.pure]

theorem Mem.AddWeakRef_eq {m : Mem} {b : Nat} {blk : Block} (h : m.block b = Except.ok blk) :
    m.AddWeakRef b = Except.ok (m.setBlock b { blk with base := blk.base.AddWeakRef }) := by
  simp only [Mem.AddWeakRef, h, bind, Except.bind, pure, Except.pure]

theorem Mem.DecWeakRef_eq {m : Mem} {b : Nat} {blk : Block} (h : m.block b = Except.ok blk) :
    m.DecWeakRef b = Except.ok (m.setBlock b { blk with base := blk.base.DecWeakRef }) := by
  simp only [Mem.DecWeakRef, h, bind, Except.bind, pure, Except.pure]

theorem Mem.free_eq {m : Mem} {b : Nat} {blk : Block} (h : m.block b = Except.ok blk) :
    m.free b = Except.ok (m.setBlock b { blk with freed := true }) := by
  simp only [Mem.free, h, bind, Except.bind, pure, Except.pure]

/-- The destructor of a pointee that is alive and has no `weak_this_` to release (the type
does not derive from `EnableSharedFromThis`, or the member is empty). -/
theorem Mem.destroyPointee_eq {efst : Bool} {m : Mem} {p : Nat} {o : Pointee}
    (ho : m.obj p = Except.ok o) (hw : efst = true → o.weak_this_.control_block_ = none) :
    m.destroyPointee efst p = Except.ok (m.setObj p { o with destroyed := true }) := by
  cases efst with
  | false =>
    simp only [Mem.destroyPointee, ho, bind, Except.bind, pure, Except.pure,
      Bool.false_eq_true, if_false]
  | true =>
    simp only [Mem.destroyPointee, ho, bind, Except.bind, pure, Except.pure, if_true,
      WeakPtr.TryDeleteBlock, hw rfl]

/-- The call `DeleteT` on a block whose pointee is alive and has no `weak_this_` to
release. -/
theorem Mem.DeleteT_eq {efst : Bool} {m : Mem} {b : Nat} {blk : Block} {o : Pointee}
    (h : m.block b = Except.ok blk) (ho : m.obj blk.pointee = Except.ok o)
    (hw : efst = true → o.weak_this_.control_block_ = none) :
    m.DeleteT efst b = Except.ok
      ((m.setBlock b { blk with deleteT_calls := blk.deleteT_calls + 1 }).setObj blk.pointee
        { o with destroyed := true }) := by
  have hp : blk.pointee ≠ 0 := (Mem.obj_ok ho).1
  have hd : (m.setBlock b { blk with deleteT_calls := blk.deleteT_calls + 1 }).destroyPointee
      efst blk.pointee = Except.ok
      ((m.setBlock b { blk with deleteT_calls := blk.deleteT_calls + 1 }).setObj blk.pointee
        { o with destroyed := true }) :=
    Mem.destroyPointee_eq (by rw [Mem.obj_setBlock]; exact ho) hw
  unfold Block.pointee at hp hd
  unfold Mem.DeleteT Block.pointee
  cases hk : blk.kind with
  | pointer p =>
    rw [hk] at hp hd
    simp only at hp hd
    simp only [h, bind, Except.bind, hk, hp, if_false, hd]
  | holder p =>
    rw [hk] at hd
    simp only at hd
    simp only [h, bind, Except.bind, hk, hd]

/-- The block that the `weak_this_` of a living pointee references is allocated, not freed,
and counts that reference. -/
theorem Inv.self_block {efst : Bool} {s : State} (hinv : Inv efst s) (he : efst = true)
    {i : Nat} {o : Pointee} {c : Nat} (ho : s.mem.objs[i]? = some o)
    (hd : o.destroyed = false) (hc : o.weak_this_.control_block_ = some c) :
    ∃ blkc, s.mem.block c = Except.ok blkc ∧ 1 ≤ blkc.base.weak_ref_counter_ := by
  subst he
  have hpos : 1 ≤ countThis true s.mem.objs c := by
    simp only [countThis, if_true]
    exact countP_pos_of_getElem? _ _ i o ho (by simp [selfObserves, hd, hc])
  have h := hinv c
  cases hb : s.mem.blocks[c]? with
  | none =>
    rw [hb] at h
    have := h.2
    omega
  | some blkc =>
    rw [hb] at h
    cases hf : blkc.freed with
    | true =>
      have := h.2.2 hf
      omega
    | false =>
      have := h.1 hf
      exact ⟨blkc, Mem.block_ok.mpr ⟨hb, hf⟩, by omega⟩

/-- Releasing a weak reference to a block other than `b` leaves block `b` and the pointees
as they are. -/
theorem WeakPtr.TryDeleteBlock_other {w : WeakPtr} {m : Mem} {b : Nat}
    (h : ∀ c, w.control_block_ = some c → c ≠ b ∧ ∃ blkc, m.block c = Except.ok blkc) :
    ∃ m1, w.TryDeleteBlock m = Except.ok m1 ∧ m1.blocks[b]? = m.blocks[b]? ∧
      m1.objs = m.objs := by
  cases hc : w.control_block_ with
  | none => exact ⟨m, by simp [WeakPtr.TryDeleteBlock, hc, pure, Except.pure], rfl, rfl⟩
  | some c =>
    obtain ⟨hne, blkc, hblkc⟩ := h c hc
    obtain ⟨hgetc, -⟩ := Mem.block_ok.mp hblkc
    have hne2 : ¬ b = c := fun e => hne e.symm
    by_cases hcond : blkc.base.GetRefCounter = 0 ∧ blkc.base.GetWeakRefCounter = 1
    · refine ⟨m.setBlock c { blkc with freed := true }, ?_, ?_, rfl⟩
      · simp only [WeakPtr.TryDeleteBlock, hc, hblkc, bind, Except.bind, hcond, and_self,
          if_true]
        exact Mem.free_eq hblkc
      · rw [Mem.getElem?_setBlock hgetc, if_neg hne2]
    · refine ⟨m.setBlock c { blkc with base := blkc.base.DecWeakRef }, ?_, ?_, rfl⟩
      · simp only [WeakPtr.TryDeleteBlock, hc, hblkc, bind, Except.bind, hcond, if_false]
        exact Mem.DecWeakRef_eq hblkc
      · rw [Mem.getElem?_setBlock hgetc, if_neg hne2]

/-- Releasing a weak reference to block `b` itself: the block is freed if that was the last
reference to it, its weak counter is decremented otherwise. -/
theorem WeakPtr.TryDeleteBlock_self {w : WeakPtr} {m : Mem} {b : Nat} {blk : Block}
    (hc : w.control_block_ = some b) (hblk : m.block b = Except.ok blk) :
    w.TryDeleteBlock m = Except.ok (m.setBlock b
      (if blk.base.ref_counter_ = 0 ∧ blk.base.weak_ref_counter_ = 1
        then { blk with freed := true } else { blk with base := blk.base.DecWeakRef })) := by
  by_cases hcond : blk.base.ref_counter_ = 0 ∧ blk.base.weak_ref_counter_ = 1
  · simp only [WeakPtr.TryDeleteBlock, hc, hblk, bind, Except.bind,
      ControlBlockBase.GetRefCounter, ControlBlockBase.GetWeakRefCounter, hcond, and_self,
      if_true]
    exact Mem.free_eq hblk
  · simp only [WeakPtr.TryDeleteBlock, hc, hblk, bind, Except.bind,
      ControlBlockBase.GetRefCounter, ControlBlockBase.GetWeakRefCounter, hcond, if_false]
    exact Mem.DecWeakRef_eq hblk

theorem Mem.block_setBlock_ne {m : Mem} {b c : Nat} {blk blk1 : Block}
    (hb : m.blocks[b]? = some blk) (hne : c ≠ b) :
    (m.setBlock b blk1).block c = m.block c := by
  unfold Mem.block
  rw [Mem.getElem?_setBlock hb, if_neg hne]

/-- The destructor of a pointee that is alive: the pointee is marked as destroyed; a block
that its `weak_this_` does not reference stays as it is. -/
theorem Mem.destroyPointee_other {efst : Bool} {m : Mem} {p b : Nat} {o : Pointee}
    (ho : m.obj p = Except.ok o)
    (h : efst = true → ∀ c, o.weak_this_.control_block_ = some c →
      c ≠ b ∧ ∃ blkc, m.block c = Except.ok blkc) :
    ∃ m1, m.destroyPointee efst p = Except.ok m1 ∧ m1.blocks[b]? = m.blocks[b]? ∧
      m1.objs[p - 1]? = some { o with destroyed := true } := by
  have hget := (Mem.obj_ok ho).2.1
  cases efst with
  | false =>
    refine ⟨m.setObj p { o with destroyed := true }, ?_, rfl, ?_⟩
    · simp only [Mem.destroyPointee, ho, bind, Except.bind, pure, Except.pure,
        Bool.false_eq_true, if_false]
    · rw [Mem.getElem?_setObj hget, if_pos rfl]
  | true =>
    obtain ⟨m0, h0, hb0, ho0⟩ := WeakPtr.TryDeleteBlock_other (h rfl)
    refine ⟨m0.setObj p { o with destroyed := true }, ?_, hb0, ?_⟩
    · simp only [Mem.destroyPointee, ho, bind, Except.bind, pure, Except.pure, if_true, h0]
    · rw [Mem.getElem?_setObj (by rw [ho0]; exact hget), if_pos rfl]

/-- The destructor of a living pointee whose `weak_this_` references block `b`. -/
theorem Mem.destroyPointee_self {m : Mem} {p b : Nat} {o : Pointee} {blk : Block}
    (ho : m.obj p = Except.ok o) (hc : o.weak_this_.control_block_ = some b)
    (hblk : m.block b = Except.ok blk) :
    m.destroyPointee true p = Except.ok ((m.setBlock b
      (if blk.base.ref_counter_ = 0 ∧ blk.base.weak_ref_counter_ = 1
        then { blk with freed := true } else { blk with base := blk.base.DecWeakRef })).setObj
      p { o with destroyed := true }) := by
  simp only [Mem.destroyPointee, ho, bind, Except.bind, pure, Except.pure, if_true,
    WeakPtr.TryDeleteBlock_self hc hblk]

/-- The call `DeleteT` on a block whose pointee is alive, seen from a block `b` that the
`weak_this_` of the pointee does not reference. -/
theorem Mem.DeleteT_other {efst : Bool} {m : Mem} {b : Nat} {blk : Block} {o : Pointee}
    (hblk : m.block b = Except.ok blk) (ho : m.obj blk.pointee = Except.ok o)
    (h : efst = true → ∀ c, o.weak_this_.control_block_ = some c →
      c ≠ b ∧ ∃ blkc, m.block c = Except.ok blkc) :
    ∃ m1, m.DeleteT efst b = Except.ok m1 ∧
      m1.blocks[b]? = some { blk with deleteT_calls := blk.deleteT_calls + 1 } ∧
      m1.objs[blk.pointee - 1]? = some { o with destroyed := true } := by
  obtain ⟨hget, hf⟩ := Mem.block_ok.mp hblk
  have hp : blk.pointee ≠ 0 := (Mem.obj_ok ho).1
  have h2 : efst = true → ∀ c, o.weak_this_.control_block_ = some c → c ≠ b ∧
      ∃ blkc, (m.setBlock b { blk with deleteT_calls := blk.deleteT_calls + 1 }).block c
        = Except.ok blkc := by
    intro he c hc
    obtain ⟨hne, blkc, hblkc⟩ := h he c hc
    exact ⟨hne, blkc, by rw [Mem.block_setBlock_ne hget hne]; exact hblkc⟩
  obtain ⟨m1, hd, hb1, ho1⟩ := Mem.destroyPointee_other
    (m := m.setBlock b { blk with deleteT_calls := blk.deleteT_calls + 1 })
    (by rw [Mem.obj_setBlock]; exact ho) h2
  rw [Mem.getElem?_setBlock hget, if_pos rfl] at hb1
  refine ⟨m1, ?_, hb1, ho1⟩
  unfold Block.pointee at hp hd
  unfold Mem.DeleteT
  cases hk : blk.kind with
  | pointer p =>
    rw [hk] at hp hd
    simp only at hp hd
    simp only [hblk, bind, Except.bind, hk, hp, if_false, hd]
  | holder p =>
    rw [hk] at hd
    simp only at hd
    simp only [hblk, bind, Except.bind, hk, hd]

/-- The call `DeleteT` on a block `b` whose living pointee has a `weak_this_` that
references `b`: the weak reference is released inside the call. -/
theorem Mem.DeleteT_self {m : Mem} {b : Nat} {blk : Block} {o : Pointee}
    (hblk : m.block b = Except.ok blk) (ho : m.obj blk.pointee = Except.ok o)
    (hc : o.weak_this_.control_block_ = some b) :
    ∃ m1, m.DeleteT true b = Except.ok m1 ∧
      m1.blocks[b]? = some
        (if blk.base.ref_counter_ = 0 ∧ blk.base.weak_ref_counter_ = 1
          then { blk with deleteT_calls := blk.deleteT_calls + 1, freed := true }
          else { blk with base := blk.base.DecWeakRef,
                          deleteT_calls := blk.deleteT_calls + 1 }) ∧
      m1.objs[blk.pointee - 1]? = some { o with destroyed := true } := by
  obtain ⟨hget, hf⟩ := Mem.block_ok.mp hblk
  have hp : blk.pointee ≠ 0 := (Mem.obj_ok ho).1
  have hobj := (Mem.obj_ok ho).2.1
  have hread : (m.setBlock b { blk with deleteT_calls := blk.deleteT_calls + 1 }).block b
      = Except.ok { blk with deleteT_calls := blk.deleteT_calls + 1 } :=
    Mem.block_setBlock hget hf
  have hd := Mem.destroyPointee_self
    (m := m.setBlock b { blk with deleteT_calls := blk.deleteT_calls + 1 })
    (p := blk.pointee) (by rw [Mem.obj_setBlock]; exact ho) hc hread
  have hget2 : (m.setBlock b { blk with deleteT_calls := blk.deleteT_calls + 1 }).blocks[b]?
      = some { blk with deleteT_calls := blk.deleteT_calls + 1 } := by
    rw [Mem.getElem?_setBlock hget, if_pos rfl]
  refine ⟨((m.setBlock b { blk with deleteT_calls := blk.deleteT_calls + 1 }).setBlock b
      (if blk.base.ref_counter_ = 0 ∧ blk.base.weak_ref_counter_ = 1
        then { blk with deleteT_calls := blk.deleteT_calls + 1, freed := true }
        else { blk with base := blk.base.DecWeakRef,
                        deleteT_calls := blk.deleteT_calls + 1 })).setObj blk.pointee
      { o with destroyed := true }, ?_, ?_, ?_⟩
  · have hd2 : (m.setBlock b { blk with deleteT_calls := blk.deleteT_calls + 1 }).destroyPointee
        true blk.pointee = Except.ok
        (((m.setBlock b { blk with deleteT_calls := blk.deleteT_calls + 1 }).setBlock b
          (if blk.base.ref_counter_ = 0 ∧ blk.base.weak_ref_counter_ = 1
            then { blk with deleteT_calls := blk.deleteT_calls + 1, freed := true }
            else { blk with base := blk.base.DecWeakRef,
                            deleteT_calls := blk.deleteT_calls + 1 })).setObj blk.pointee
          { o with destroyed := true }) := by
      rw [hd]
    clear hd
    unfold Block.pointee at hp hd2
    unfold Mem.DeleteT Block.pointee
    cases hk : blk.kind with
    | pointer p =>
      rw [hk] at hp hd2
      simp only at hp hd2
      simp only [hblk, bind, Except.bind, hk, hp, if_false, hd2]
    | holder p =>
      rw [hk] at hd2
      simp only at hd2
      simp only [hblk, bind, Except.bind, hk, hd2]
  · show ((m.setBlock b _).setBlock b _).blocks[b]? = _
    rw [Mem.getElem?_setBlock hget2, if_pos rfl]
  · rw [Mem.getElem?_setObj (by exact hobj), if_pos rfl]

/-! ## C3 -/

/-- Counterexample to C3 as stated. For a pointee type that derives from
`EnableSharedFromThis`: after `MakeShared` the block has strong counter `1` and weak
counter `1` (the member `weak_this_`); releasing the handle runs `DeleteT`, which destroys
`weak_this_`, and that release frees the block. The claim says that for strong `1` and
weak `> 0` the weak counter is unchanged and the block is not freed. And for any pointee
type: after `SharedPtr<T> a(x), b(x)` and the destructor of `a`, the block of `b` has strong
counter `1` and weak counter `0` and its pointee is destroyed already; releasing `b` deletes
the object a second time, which is undefined behaviour. -/
theorem C3_counterexample :
    (run true [Op.sMakeShared] State.init).map
        (fun s => s.mem.blocks.map
          (fun b => (b.base.ref_counter_, b.base.weak_ref_counter_, b.freed)))
      = Except.ok [(1, 1, false)] ∧
    (run true [Op.sMakeShared, Op.sDestroy 0] State.init).map
        (fun s => s.mem.blocks.map (fun b => b.freed))
      = Except.ok [true] ∧
    (run false [Op.newObj, Op.sFromRaw 1, Op.sFromRaw 1, Op.sDestroy 0] State.init).map
        (fun s => (s.shared[1]?,
          s.mem.blocks.map (fun b => (b.base.ref_counter_, b.base.weak_ref_counter_, b.freed)),
          s.mem.objs.map Pointee.destroyed, SharedPtr.dtor false ⟨1, some 1⟩ s.mem))
      = Except.ok (some (some ⟨1, some 1⟩), [(1, 0, true), (1, 0, false)], [true],
          Except.error Err.dangling) := by
  refine ⟨?_, ?_, ?_⟩ <;> rfl

/-- C3, amended. Releasing a `SharedPtr` whose control block is `blk`, in a state that a
program reaches (destructor, `Reset`, left side of an assignment all start with
`TryToDeleteBlock`), with `o` the living pointee of the block: for strong `1` and weak `0`
the pointee is destroyed and the block freed; for strong `1` and weak `> 0` the pointee is
destroyed and the strong counter becomes `0`, and the weak counter is unchanged and the
block not freed unless `weak_this_` of the pointee references this block, in which case
the destruction of the pointee releases that reference: the block is freed if the weak
counter was `1`, the weak counter is decremented otherwise; a block made from a null
pointer has no pointee and is treated in the same way; for strong `> 1`, in every heap, the
strong counter decreases by one and nothing else changes. -/
theorem C3_release_by_cases (efst : Bool) (ops : List Op) (s : State)
    (hlen : 2 * ops.length + 2 < SIZE) (hrun : run efst ops State.init = Except.ok s)
    (this : SharedPtr) (b : Nat) (blk : Block)
    (hb : this.control_block_ = some b) (hblk : s.mem.block b = Except.ok blk) :
    (blk.base.ref_counter_ = 1 → blk.base.weak_ref_counter_ = 0 →
      (∀ o, s.mem.obj blk.pointee = Except.ok o →
        ∃ m1, this.TryToDeleteBlock efst s.mem = Except.ok m1 ∧
          m1.blocks[b]? = some { blk with deleteT_calls := blk.deleteT_calls + 1,
                                          freed := true } ∧
          m1.objs[blk.pointee - 1]? = some { o with destroyed := true }) ∧
      (blk.kind = BlockKind.pointer 0 →
        ∃ m1, this.TryToDeleteBlock efst s.mem = Except.ok m1 ∧
          m1.blocks[b]? = some { blk with deleteT_calls := blk.deleteT_calls + 1,
                                          freed := true } ∧
          m1.objs = s.mem.objs)) ∧
    (blk.base.ref_counter_ = 1 → 0 < blk.base.weak_ref_counter_ →
      (∀ o, s.mem.obj blk.pointee = Except.ok o →
        ∃ m1, this.TryToDeleteBlock efst s.mem = Except.ok m1 ∧
          m1.objs[blk.pointee - 1]? = some { o with destroyed := true } ∧
          (¬ (efst = true ∧ o.weak_this_.control_block_ = some b) →
            m1.blocks[b]? = some { blk with
              base := { weak_ref_counter_ := blk.base.weak_ref_counter_, ref_counter_ := 0 },
              deleteT_calls := blk.deleteT_calls + 1 }) ∧
          (efst = true → o.weak_this_.control_block_ = some b →
            blk.base.weak_ref_counter_ = 1 →
            m1.blocks[b]? = some { blk with
              base := { weak_ref_counter_ := 1, ref_counter_ := 0 },
              deleteT_calls := blk.deleteT_calls + 1, freed := true }) ∧
          (efst = true → o.weak_this_.control_block_ = some b →
            1 < blk.base.weak_ref_counter_ →
            m1.blocks[b]? = some { blk with
              base := { weak_ref_counter_ := blk.base.weak_ref_counter_ - 1,
                        ref_counter_ := 0 },
              deleteT_calls := blk.deleteT_calls + 1 })) ∧
      (blk.kind = BlockKind.pointer 0 →
        ∃ m1, this.TryToDeleteBlock efst s.mem = Except.ok m1 ∧
          m1.blocks[b]? = some { blk with
            base := { weak_ref_counter_ := blk.base.weak_ref_counter_, ref_counter_ := 0 },
            deleteT_calls := blk.deleteT_calls + 1 } ∧
          m1.objs = s.mem.objs)) ∧
    (∀ (e : Bool) (m : Mem) (blk0 : Block), m.block b = Except.ok blk0 →
      1 < blk0.base.ref_counter_ →
      this.TryToDeleteBlock e m = Except.ok (m.setBlock b { blk0 with
        base := { weak_ref_counter_ := blk0.base.weak_ref_counter_,
                  ref_counter_ := blk0.base.ref_counter_ - 1 } })) ∧
    (∀ (e : Bool) (m : Mem), this.dtor e m = this.TryToDeleteBlock e m) ∧
    (∀ (e : Bool) (m : Mem), this.Reset e m
      = (this.TryToDeleteBlock e m).map (fun m1 => (SharedPtr.default, m1))) ∧
    (∀ (e : Bool) (m : Mem) other, this.moveAssign e other m
      = (this.TryToDeleteBlock e m).map
          (fun m1 => ({ ptr_ := other.ptr_, control_block_ := other.control_block_ },
            SharedPtr.default, m1))) ∧
    (∀ (e : Bool) (m : Mem) other, this.copyAssign e other m
      = (this.TryToDeleteBlock e m).bind (fun m1 =>
          match other.control_block_ with
          | some c => (m1.AddReference c).map
              (fun m2 => ({ ptr_ := other.ptr_, control_block_ := other.control_block_ }, m2))
          | none => Except.ok
              ({ ptr_ := other.ptr_, control_block_ := other.control_block_ }, m1))) := by
  obtain ⟨hinv, -⟩ := reach_inv hlen hrun
  obtain ⟨hget, hf⟩ := Mem.block_ok.mp hblk
  have hread : (s.mem.setBlock b { blk with base := blk.base.RemoveReference }).block b
      = Except.ok { blk with base := blk.base.RemoveReference } :=
    Mem.block_setBlock hget hf
  have hgetr : (s.mem.setBlock b { blk with base := blk.base.RemoveReference }).blocks[b]?
      = some { blk with base := blk.base.RemoveReference } := by
    rw [Mem.getElem?_setBlock hget, if_pos rfl]
  have hnull : ∀ (m : Mem) (blk0 : Block), m.block b = Except.ok blk0 →
      blk0.kind = BlockKind.pointer 0 →
      m.DeleteT efst b
        = Except.ok (m.setBlock b { blk0 with deleteT_calls := blk0.deleteT_calls + 1 }) := by
    intro m blk0 h0 hk
    simp only [Mem.DeleteT, h0, bind, Except.bind, hk, if_true, pure, Except.pure]
  refine ⟨fun hr hw => ⟨fun o ho => ?_, fun hk => ?_⟩,
    fun hr hw => ⟨fun o ho => ?_, fun hk => ?_⟩,
    fun e m blk0 h0 hr => ?_,
    fun _ _ => rfl, fun e m => ?_, fun e m other => ?_, fun e m other => ?_⟩
  · have hrel : efst = true → ∀ c, o.weak_this_.control_block_ = some c →
        c ≠ b ∧ ∃ blkc, s.mem.block c = Except.ok blkc := by
      intro he c hc
      obtain ⟨blkc, hbc, hpos⟩ :=
        hinv.self_block he (Mem.obj_ok ho).2.1 (Mem.obj_ok ho).2.2 hc
      refine ⟨fun e => ?_, blkc, hbc⟩
      subst e
      rw [hblk] at hbc
      cases hbc
      omega
    obtain ⟨m1, hd, hb1, ho1⟩ := Mem.DeleteT_other hblk ho hrel
    have hread1 : m1.block b
        = Except.ok { blk with deleteT_calls := blk.deleteT_calls + 1 } :=
      Mem.block_ok.mpr ⟨hb1, hf⟩
    refine ⟨m1.setBlock b { blk with deleteT_calls := blk.deleteT_calls + 1, freed := true },
      ?_, ?_, ho1⟩
    · simp only [SharedPtr.TryToDeleteBlock, hb, hblk, bind, Except.bind,
        ControlBlockBase.GetWeakRefCounter, ControlBlockBase.GetRefCounter, hr, hw,
        and_self, if_true, hd]
      exact Mem.free_eq hread1
    · rw [Mem.getElem?_setBlock hb1, if_pos rfl]
  · have hread1 : (s.mem.setBlock b { blk with deleteT_calls := blk.deleteT_calls + 1 }).block b
        = Except.ok { blk with deleteT_calls := blk.deleteT_calls + 1 } :=
      Mem.block_setBlock hget hf
    have hget1 : (s.mem.setBlock b { blk with deleteT_calls := blk.deleteT_calls + 1 }).blocks[b]?
        = some { blk with deleteT_calls := blk.deleteT_calls + 1 } := by
      rw [Mem.getElem?_setBlock hget, if_pos rfl]
    refine ⟨(s.mem.setBlock b { blk with deleteT_calls := blk.deleteT_calls + 1 }).setBlock b
      { blk with deleteT_calls := blk.deleteT_calls + 1, freed := true }, ?_, ?_, rfl⟩
    · simp only [SharedPtr.TryToDeleteBlock, hb, hblk, bind, Except.bind,
        ControlBlockBase.GetWeakRefCounter, ControlBlockBase.GetRefCounter, hr, hw,
        and_self, if_true, hnull s.mem blk hblk hk]
      exact Mem.free_eq hread1
    · rw [Mem.getElem?_setBlock hget1, if_pos rfl]
  · have hne : ¬ (blk.base.weak_ref_counter_ = 0) := by omega
    have hto : this.TryToDeleteBlock efst s.mem
        = (s.mem.setBlock b { blk with base := blk.base.RemoveReference }).DeleteT efst b := by
      simp only [SharedPtr.TryToDeleteBlock, hb, hblk, bind, Except.bind,
        ControlBlockBase.GetWeakRefCounter, ControlBlockBase.GetRefCounter, hr, hw, hne,
        false_and, and_self, if_true, if_false, gt_iff_lt, Mem.RemoveReference_eq hblk]
    have ho2 : (s.mem.setBlock b { blk with base := blk.base.RemoveReference }).obj
        (Block.pointee { blk with base := blk.base.RemoveReference }) = Except.ok o := ho
    by_cases hself : efst = true ∧ o.weak_this_.control_block_ = some b
    · obtain ⟨he, hc⟩ := hself
      subst he
      obtain ⟨m1, hd, hb1, ho1⟩ := Mem.DeleteT_self hread ho2 hc
      refine ⟨m1, by rw [hto]; exact hd, ho1, fun hn => absurd ⟨rfl, hc⟩ hn,
        fun _ _ hw1 => ?_, fun _ _ hw1 => ?_⟩
      · rw [hb1]
        simp [ControlBlockBase.RemoveReference, hr, hw1]
      · rw [hb1]
        have hw2 : ¬ (blk.base.weak_ref_counter_ = 1) := by omega
        have hw3 : ¬ (blk.base.weak_ref_counter_ = 0) := by omega
        simp [ControlBlockBase.RemoveReference, ControlBlockBase.DecWeakRef, hr, hw2, hw3]
    · have hrel : efst = true → ∀ c, o.weak_this_.control_block_ = some c →
          c ≠ b ∧ ∃ blkc, (s.mem.setBlock b { blk with base := blk.base.RemoveReference }).block c
            = Except.ok blkc := by
        intro he c hc
        obtain ⟨blkc, hbc, -⟩ :=
          hinv.self_block he (Mem.obj_ok ho).2.1 (Mem.obj_ok ho).2.2 hc
        have hcb : c ≠ b := by
          intro e
          subst e
          exact hself ⟨he, hc⟩
        exact ⟨hcb, blkc, by rw [Mem.block_setBlock_ne hget hcb]; exact hbc⟩
      obtain ⟨m1, hd, hb1, ho1⟩ := Mem.DeleteT_other hread ho2 hrel
      refine ⟨m1, by rw [hto]; exact hd, ho1, fun _ => ?_,
        fun he hc _ => absurd ⟨he, hc⟩ hself, fun he hc _ => absurd ⟨he, hc⟩ hself⟩
      rw [hb1]
      simp [ControlBlockBase.RemoveReference, hr]
  · have hne : ¬ (blk.base.weak_ref_counter_ = 0) := by omega
    have hkr : Block.kind { blk with base := blk.base.RemoveReference }
        = BlockKind.pointer 0 := hk
    refine ⟨(s.mem.setBlock b { blk with base := blk.base.RemoveReference }).setBlock b
      { blk with base := blk.base.RemoveReference,
                 deleteT_calls := blk.deleteT_calls + 1 }, ?_, ?_, rfl⟩
    · simp only [SharedPtr.TryToDeleteBlock, hb, hblk, bind, Except.bind,
        ControlBlockBase.GetWeakRefCounter, ControlBlockBase.GetRefCounter, hr, hw, hne,
        false_and, and_self, if_true, if_false, gt_iff_lt, Mem.RemoveReference_eq hblk]
      exact hnull _ _ hread hkr
    · rw [Mem.getElem?_setBlock hgetr, if_pos rfl]
      simp [ControlBlockBase.RemoveReference, hr]
  · have h1 : ¬ (blk0.base.ref_counter_ = 1) := by omega
    have h2 : ¬ (blk0.base.ref_counter_ = 0) := by omega
    simp only [SharedPtr.TryToDeleteBlock, hb, h0, bind, Except.bind,
      ControlBlockBase.GetWeakRefCounter, ControlBlockBase.GetRefCounter, h1, and_false,
      if_false, Mem.RemoveReference_eq h0, ControlBlockBase.RemoveReference, h2]
  · cases h : this.TryToDeleteBlock e m <;>
      simp [SharedPtr.Reset, h, bind, Except.bind, pure, Except.pure, Except.map]
  · cases h : this.TryToDeleteBlock e m <;>
      simp [SharedPtr.moveAssign, h, bind, Except.bind, pure, Except.pure, Except.map]
  · cases h : this.TryToDeleteBlock e m with
    | error e => simp [SharedPtr.copyAssign, h, bind, Except.bind]
    | ok m1 =>
      cases hc : other.control_block_ with
      | none => simp [SharedPtr.copyAssign, h, hc, bind, Except.bind, pure, Except.pure]
      | some c =>
        cases h2 : m1.AddReference c <;>
          simp [SharedPtr.copyAssign, h, hc, h2, bind, Except.bind, pure, Except.pure,
            Except.map]

/-- Witness of C3, amended, one reachable state for each case. Strong `1` and weak `0`,
pointee type deriving from `EnableSharedFromThis` with a `weak_this_` that references
another block (`x = new T`, `a(x)`, `t = MakeShared`, `c(t, x)`, `d(std::move(c))`, release
of `a`): the pointee is destroyed and the block freed. Strong `1` and weak `1` after
`MakeShared` with `weak_this_` on the block: the block is freed. Strong `1` and weak `1`
after `s = MakeShared`, `w(s)` without `EnableSharedFromThis`: strong `0`, weak unchanged,
block not freed. Strong `2`: strong `1`. -/
theorem C3_witness :
    (∃ m1, SharedPtr.TryToDeleteBlock true ⟨1, some 0⟩
        ⟨[⟨⟨0, 1⟩, BlockKind.pointer 1, false, 0⟩, ⟨⟨2, 2⟩, BlockKind.holder 2, false, 0⟩],
          [⟨⟨1, some 1⟩, false⟩, ⟨⟨2, some 1⟩, false⟩]⟩ = Except.ok m1 ∧
      m1.blocks[0]? = some ⟨⟨0, 1⟩, BlockKind.pointer 1, true, 1⟩ ∧
      m1.objs[0]? = some ⟨⟨1, some 1⟩, true⟩) ∧
    (∃ m1, SharedPtr.TryToDeleteBlock true ⟨1, some 0⟩
        ⟨[⟨⟨1, 1⟩, BlockKind.holder 1, false, 0⟩], [⟨⟨1, some 0⟩, false⟩]⟩ = Except.ok m1 ∧
      m1.objs[0]? = some ⟨⟨1, some 0⟩, true⟩ ∧
      m1.blocks[0]? = some ⟨⟨1, 0⟩, BlockKind.holder 1, true, 1⟩) ∧
    (∃ m1, SharedPtr.TryToDeleteBlock false ⟨1, some 0⟩
        ⟨[⟨⟨1, 1⟩, BlockKind.holder 1, false, 0⟩], [⟨⟨0, none⟩, false⟩]⟩ = Except.ok m1 ∧
      m1.objs[0]? = some ⟨⟨0, none⟩, true⟩ ∧
      m1.blocks[0]? = some ⟨⟨1, 0⟩, BlockKind.holder 1, false, 1⟩) ∧
    SharedPtr.TryToDeleteBlock false ⟨1, some 0⟩
        ⟨[⟨⟨0, 2⟩, BlockKind.holder 1, false, 0⟩], [⟨⟨0, none⟩, false⟩]⟩
      = Except.ok (Mem.setBlock
          ⟨[⟨⟨0, 2⟩, BlockKind.holder 1, false, 0⟩], [⟨⟨0, none⟩, false⟩]⟩ 0
          ⟨⟨0, 1⟩, BlockKind.holder 1, false, 0⟩) := by
  refine ⟨?_, ?_, ?_, ?_⟩
  · exact ((C3_release_by_cases true
      [Op.newObj, Op.sFromRaw 1, Op.sMakeShared, Op.sAlias 1 1, Op.sMove 2]
      ⟨⟨[⟨⟨0, 1⟩, BlockKind.pointer 1, false, 0⟩, ⟨⟨2, 2⟩, BlockKind.holder 2, false, 0⟩],
          [⟨⟨1, some 1⟩, false⟩, ⟨⟨2, some 1⟩, false⟩]⟩,
        [some ⟨1, some 0⟩, some ⟨2, some 1⟩, some ⟨0, none⟩, some ⟨1, some 1⟩], []⟩
      (by decide) (by rfl) ⟨1, some 0⟩ 0 ⟨⟨0, 1⟩, BlockKind.pointer 1, false, 0⟩
      (by rfl) (by rfl)).1 rfl rfl).1 ⟨⟨1, some 1⟩, false⟩ (by rfl)
  · obtain ⟨m1, h1, h2, -, h3, -⟩ := ((C3_release_by_cases true [Op.sMakeShared]
      ⟨⟨[⟨⟨1, 1⟩, BlockKind.holder 1, false, 0⟩], [⟨⟨1, some 0⟩, false⟩]⟩,
        [some ⟨1, some 0⟩], []⟩
      (by decide) (by rfl) ⟨1, some 0⟩ 0 ⟨⟨1, 1⟩, BlockKind.holder 1, false, 0⟩
      (by rfl) (by rfl)).2.1 rfl (by decide)).1 ⟨⟨1, some 0⟩, false⟩ (by rfl)
    exact ⟨m1, h1, h2, h3 rfl rfl rfl⟩
  · obtain ⟨m1, h1, h2, h3, -⟩ := ((C3_release_by_cases false
      [Op.sMakeShared, Op.wFromShared 0]
      ⟨⟨[⟨⟨1, 1⟩, BlockKind.holder 1, false, 0⟩], [⟨⟨0, none⟩, false⟩]⟩,
        [some ⟨1, some 0⟩], [some ⟨1, some 0⟩]⟩
      (by decide) (by rfl) ⟨1, some 0⟩ 0 ⟨⟨1, 1⟩, BlockKind.holder 1, false, 0⟩
      (by rfl) (by rfl)).2.1 rfl (by decide)).1 ⟨⟨0, none⟩, false⟩ (by rfl)
    exact ⟨m1, h1, h2, h3 (by decide)⟩
  · exact (C3_release_by_cases false [Op.sMakeShared, Op.sCopy 0]
      ⟨⟨[⟨⟨0, 2⟩, BlockKind.holder 1, false, 0⟩], [⟨⟨0, none⟩, false⟩]⟩,
        [some ⟨1, some 0⟩, some ⟨1, some 0⟩], []⟩
      (by decide) (by rfl) ⟨1, some 0⟩ 0 ⟨⟨0, 2⟩, BlockKind.holder 1, false, 0⟩
      (by rfl) (by rfl)).2.2.1 false
      ⟨[⟨⟨0, 2⟩, BlockKind.holder 1, false, 0⟩], [⟨⟨0, none⟩, false⟩]⟩
      ⟨⟨0, 2⟩, BlockKind.holder 1, false, 0⟩ (by rfl) (by decide)

/-! ## C4 -/

/-- A block that manages a pointee is freed exactly when nothing references it any more:
no live `SharedPtr`, no live `WeakPtr`, no `weak_this_` of a live pointee. -/
theorem Inv.freed_iff {efst : Bool} {s : State} (hinv : Inv efst s) {b : Nat} {blk : Block}
    (hblk : s.mem.blocks[b]? = some blk) (hg : blk.good = true) :
    blk.freed = true ↔
      countShared s.shared b = 0 ∧ countWeak s.weak b + countThis efst s.mem.objs b = 0 := by
  have h := hinv b
  rw [hblk] at h
  have hgood := h.2.1 hg
  constructor
  · exact hgood.gone
  · intro hz
    by_contra hf
    have hf1 : blk.freed = false := by simpa using hf
    have := hgood.live hf1
    omega

/-- C4, the code at the failing input. `SharedPtr<T> p(static_cast<T*>(nullptr))` makes a
block whose strong counter is `0`. After `SharedPtr<T> q(p); q.Reset();` the counter went
from `0` to `1` and the release of `q` has freed the block although `p` is live and holds a
pointer to it; the destructor of `p` then reads the freed block. Without `q`, the
destructor of `p` takes the counter from `0` to `2 ^ 64 - 1` and the block is never
freed. -/
theorem C4_null_pointer_block_freed_under_live_handle :
    (run false [Op.sFromRaw 0, Op.sCopy 0, Op.sReset 1] State.init).map
        (fun s => (s.shared, s.mem.blocks.map (fun b => (b.base.ref_counter_, b.freed))))
      = Except.ok ([some ⟨0, some 0⟩, some SharedPtr.default], [(1, true)]) ∧
    run false [Op.sFromRaw 0, Op.sCopy 0, Op.sReset 1, Op.sDestroy 0] State.init
      = Except.error Err.dangling ∧
    (run false [Op.sFromRaw 0, Op.sDestroy 0] State.init).map
        (fun s => (s.shared, s.weak,
          s.mem.blocks.map (fun b => (b.base.ref_counter_, b.freed))))
      = Except.ok ([none], [], [(SIZE - 1, false)]) := by
  refine ⟨?_, ?_, ?_⟩ <;> rfl

/-! ## C5 -/

/-- C5. In a state that a program reaches, let `w` be a live `WeakPtr` with control block
`blk` (not freed). The weak counter is at least `1`. Releasing `w`: for strong `0` and
weak `1` the block is freed; in every other case the weak counter decreases by one, the
strong counter is unchanged and the block is not freed. No pointee and no other block is
touched and `DeleteT` is not called. Destructor, `Reset` and both assignments release
`w` in this way first. -/
theorem C5_weak_release_by_cases (efst : Bool) (ops : List Op) (s : State)
    (hlen : 2 * ops.length + 2 < SIZE) (hrun : run efst ops State.init = Except.ok s)
    (j : Nat) (w : WeakPtr) (b : Nat) (blk : Block)
    (hj : s.weak[j]? = some (some w)) (hb : w.control_block_ = some b)
    (hblk : s.mem.block b = Except.ok blk) :
    1 ≤ blk.base.weak_ref_counter_ ∧
    w.TryDeleteBlock s.mem = Except.ok (s.mem.setBlock b
      (if blk.base.ref_counter_ = 0 ∧ blk.base.weak_ref_counter_ = 1 then
        { blk with freed := true }
      else
        { blk with base := { weak_ref_counter_ := blk.base.weak_ref_counter_ - 1,
                             ref_counter_ := blk.base.ref_counter_ } })) ∧
    (∀ blk1, (s.mem.setBlock b blk1).objs = s.mem.objs ∧
      (s.mem.setBlock b blk1).blocks[b]? = some blk1 ∧
      ∀ x, x ≠ b → (s.mem.setBlock b blk1).blocks[x]? = s.mem.blocks[x]?) ∧
    w.dtor s.mem = w.TryDeleteBlock s.mem ∧
    w.Reset s.mem = (w.TryDeleteBlock s.mem).map (fun m1 => (WeakPtr.default, m1)) ∧
    (∀ other, w.moveAssign other s.mem
      = (w.TryDeleteBlock s.mem).map
          (fun m1 => ({ ptr_ := other.ptr_, control_block_ := other.control_block_ },
            WeakPtr.default, m1))) ∧
    (∀ other, w.copyAssign other s.mem
      = (w.TryDeleteBlock s.mem).bind (fun m1 =>
          match other.control_block_ with
          | some c => (m1.AddWeakRef c).map
              (fun m2 => ({ ptr_ := other.ptr_, control_block_ := other.control_block_ }, m2))
          | none => Except.ok
              ({ ptr_ := other.ptr_, control_block_ := other.control_block_ }, m1))) := by
  obtain ⟨hget, hf⟩ := Mem.block_ok.mp hblk
  have hinv := (reach_inv hlen hrun).1 b
  rw [hget] at hinv
  have hw := hinv.1 hf
  have hpos := countWeak_pos hj hb
  have h1 : 1 ≤ blk.base.weak_ref_counter_ := by omega
  have h0 : ¬ (blk.base.weak_ref_counter_ = 0) := by omega
  refine ⟨h1, ?_, fun blk1 => ⟨rfl, ?_, fun x hx => ?_⟩, rfl, ?_, fun other => ?_,
    fun other => ?_⟩
  · by_cases hc : blk.base.ref_counter_ = 0 ∧ blk.base.weak_ref_counter_ = 1
    · simp only [WeakPtr.TryDeleteBlock, hb, hblk, bind, Except.bind,
        ControlBlockBase.GetWeakRefCounter, ControlBlockBase.GetRefCounter, hc, and_self,
        if_true, Mem.free_eq hblk]
    · simp only [WeakPtr.TryDeleteBlock, hb, hblk, bind, Except.bind,
        ControlBlockBase.GetWeakRefCounter, ControlBlockBase.GetRefCounter, hc,
        if_false, Mem.DecWeakRef_eq hblk, ControlBlockBase.DecWeakRef, h0]
  · rw [Mem.getElem?_setBlock hget, if_pos rfl]
  · rw [Mem.getElem?_setBlock hget, if_neg hx]
  · cases h : w.TryDeleteBlock s.mem <;>
      simp [WeakPtr.Reset, h, bind, Except.bind, pure, Except.pure, Except.map]
  · cases h : w.TryDeleteBlock s.mem <;>
      simp [WeakPtr.moveAssign, h, bind, Except.bind, pure, Except.pure, Except.map]
  · cases h : w.TryDeleteBlock s.mem with
    | error e => simp [WeakPtr.copyAssign, h, bind, Except.bind]
    | ok m1 =>
      cases hc : other.control_block_ with
      | none => simp [WeakPtr.copyAssign, h, hc, bind, Except.bind, pure, Except.pure]
      | some c =>
        cases h2 : m1.AddWeakRef c <;>
          simp [WeakPtr.copyAssign, h, hc, h2, bind, Except.bind, pure, Except.pure,
            Except.map]

/-- Witness of C5: after `a = MakeShared`, `w(a)`, `a.Reset()` the weak handle `w` is the
last reference to the block (strong `0`, weak `1`). -/
theorem C5_witness :
    1 ≤ (1 : Nat) ∧
    WeakPtr.TryDeleteBlock ⟨1, some 0⟩
        ⟨[⟨⟨1, 0⟩, BlockKind.holder 1, false, 1⟩], [⟨WeakPtr.default, true⟩]⟩
      = Except.ok (Mem.setBlock
          ⟨[⟨⟨1, 0⟩, BlockKind.holder 1, false, 1⟩], [⟨WeakPtr.default, true⟩]⟩ 0
          (if (0 : Nat) = 0 ∧ (1 : Nat) = 1 then
            ⟨⟨1, 0⟩, BlockKind.holder 1, true, 1⟩
          else ⟨⟨1 - 1, 0⟩, BlockKind.holder 1, false, 1⟩)) :=
  have h := C5_weak_release_by_cases false [Op.sMakeShared, Op.wFromShared 0, Op.sReset 0]
    ⟨⟨[⟨⟨1, 0⟩, BlockKind.holder 1, false, 1⟩], [⟨WeakPtr.default, true⟩]⟩,
      [some SharedPtr.default], [some ⟨1, some 0⟩]⟩
    (by decide) (by rfl) 0 ⟨1, some 0⟩ 0 ⟨⟨1, 0⟩, BlockKind.holder 1, false, 1⟩
    (by rfl) (by rfl) (by rfl)
  ⟨h.1, h.2.1⟩

/-! ## Promotion, computed -/

theorem SharedPtr.ofWeak_eq {other : WeakPtr} {m : Mem} {b : Nat} {blk : Block}
    (hb : other.control_block_ = some b) (hblk : m.block b = Except.ok blk)
    (hr : blk.base.ref_counter_ ≠ 0) :
    SharedPtr.ofWeak other m = Except.ok
      ({ ptr_ := other.ptr_, control_block_ := other.control_block_ },
        m.setBlock b { blk with
          base := { weak_ref_counter_ := blk.base.weak_ref_counter_,
                    ref_counter_ := (blk.base.ref_counter_ + 1) % SIZE } }) := by
  simp only [SharedPtr.ofWeak, hb, hblk, bind, Except.bind, pure, Except.pure,
    ControlBlockBase.GetRefCounter, hr, if_false, Mem.AddReference_eq hblk,
    ControlBlockBase.AddReference]

theorem SharedPtr.ofWeak_bad {other : WeakPtr} {m : Mem} {b : Nat} {blk : Block}
    (hb : other.control_block_ = some b) (hblk : m.block b = Except.ok blk)
    (hr : blk.base.ref_counter_ = 0) :
    SharedPtr.ofWeak other m = Except.error Err.BadWeakPtr := by
  simp only [SharedPtr.ofWeak, hb, hblk, bind, Except.bind,
    ControlBlockBase.GetRefCounter, hr, if_true]

/-! ## C6 -/

/-- C6. Promotion `SharedPtr(const WeakPtr&)` from a handle whose control block is `blk`:
`BadWeakPtr` is thrown iff the strong counter is `0`, and then nothing has been written (a
program that catches the exception goes on in the same state); otherwise the new handle
has the observer pointer and the block of `other`, the strong counter is incremented
(a `size_t` increment, which is `+ 1` below `2 ^ 64 - 1`) and the weak counter, the ghost
fields and every other block are as before. -/
theorem C6_promotion_from_weak (other : WeakPtr) (m : Mem) (b : Nat) (blk : Block)
    (hb : other.control_block_ = some b) (hblk : m.block b = Except.ok blk) :
    (SharedPtr.ofWeak other m = Except.error Err.BadWeakPtr ↔ blk.base.ref_counter_ = 0) ∧
    (∀ efst s j, s.mem = m → s.weak[j]? = some (some other) → blk.base.ref_counter_ = 0 →
      step efst (Op.sFromWeak j) s = Except.ok s) ∧
    (blk.base.ref_counter_ ≠ 0 →
      SharedPtr.ofWeak other m = Except.ok
        ({ ptr_ := other.ptr_, control_block_ := other.control_block_ },
          m.setBlock b { blk with
            base := { weak_ref_counter_ := blk.base.weak_ref_counter_,
                      ref_counter_ := (blk.base.ref_counter_ + 1) % SIZE } })) ∧
    (blk.base.ref_counter_ ≠ 0 → blk.base.ref_counter_ + 1 < SIZE →
      ∃ this m1, SharedPtr.ofWeak other m = Except.ok (this, m1) ∧
        this.Get = other.ptr_ ∧ this.control_block_ = some b ∧
        m1.block b = Except.ok { blk with
          base := { weak_ref_counter_ := blk.base.weak_ref_counter_,
                    ref_counter_ := blk.base.ref_counter_ + 1 } } ∧
        m1.objs = m.objs ∧ ∀ x, x ≠ b → m1.blocks[x]? = m.blocks[x]?) := by
  obtain ⟨hget, hf⟩ := Mem.block_ok.mp hblk
  have hok := fun hr => SharedPtr.ofWeak_eq hb hblk hr
  have hbad := fun hr => SharedPtr.ofWeak_bad hb hblk hr
  refine ⟨⟨fun h => ?_, hbad⟩, fun efst s j hm hj hr => ?_, hok, fun hr hlt => ?_⟩
  · by_contra hr
    rw [hok hr] at h
    cases h
  · subst hm
    simp only [step, State.getWeak_ok.mpr hj, hbad hr, bind, Except.bind, pure, Except.pure]
  · refine ⟨_, _, hok hr, rfl, hb, ?_, rfl, fun x hx => ?_⟩
    · rw [Nat.mod_eq_of_lt hlt]
      exact Mem.block_setBlock hget hf
    · rw [Mem.getElem?_setBlock hget, if_neg hx]

/-- Witness of C6: promotion from a weak handle to a block with one strong and one weak
reference. -/
theorem C6_witness :
    SharedPtr.ofWeak ⟨1, some 0⟩
        ⟨[⟨⟨1, 1⟩, BlockKind.holder 1, false, 0⟩], [⟨WeakPtr.default, false⟩]⟩
      = Except.ok (⟨1, some 0⟩,
          Mem.setBlock ⟨[⟨⟨1, 1⟩, BlockKind.holder 1, false, 0⟩], [⟨WeakPtr.default, false⟩]⟩
            0 ⟨⟨1, (1 + 1) % SIZE⟩, BlockKind.holder 1, false, 0⟩) :=
  (C6_promotion_from_weak ⟨1, some 0⟩
    ⟨[⟨⟨1, 1⟩, BlockKind.holder 1, false, 0⟩], [⟨WeakPtr.default, false⟩]⟩ 0
    ⟨⟨1, 1⟩, BlockKind.holder 1, false, 0⟩ (by rfl) (by rfl)).2.2.1 (by decide)

/-! ## C7 -/

/-- C7. For a `WeakPtr` whose `Expired()` can be evaluated: if it is expired, `Lock()`
returns a null `SharedPtr` (`Get()` is null, `operator bool` false, `UseCount()` is `0`)
and the heap is as before; if it is not, `Lock()` returns a handle that shares the block of
`w` and whose `UseCount()` is the `UseCount()` of `w` before the call, incremented (a
`size_t` increment, which is `+ 1` below `2 ^ 64 - 1`). -/
theorem C7_lock_by_cases (w : WeakPtr) (m : Mem) (e : Bool)
    (he : w.Expired m = Except.ok e) :
    (e = true →
      w.Lock m = Except.ok (SharedPtr.default, m) ∧ SharedPtr.default.Get = 0 ∧
      SharedPtr.default.toBool = false ∧
      SharedPtr.UseCount SharedPtr.default m = Except.ok 0) ∧
    (e = false →
      ∃ n r m1, w.UseCount m = Except.ok n ∧ w.Lock m = Except.ok (r, m1) ∧
        r.control_block_ = w.control_block_ ∧ r.toBool = true ∧ r.Get = w.ptr_ ∧
        r.UseCount m1 = Except.ok ((n + 1) % SIZE) ∧
        (n + 1 < SIZE → r.UseCount m1 = Except.ok (n + 1))) := by
  rcases WeakPtr.Expired_ok he with ⟨hn, rfl⟩ | ⟨b, blk, hb, hget, hf, rfl⟩
  · refine ⟨fun _ => ⟨?_, rfl, rfl, rfl⟩, fun h => by cases h⟩
    simp only [WeakPtr.Lock, hn, pure, Except.pure]
  · have hblk : m.block b = Except.ok blk := Mem.block_ok.mpr ⟨hget, hf⟩
    constructor
    · intro h
      refine ⟨?_, rfl, rfl, rfl⟩
      simp only [WeakPtr.Lock, hb, he, h, bind, Except.bind, pure, Except.pure, if_true]
    · intro h
      have hr : blk.base.ref_counter_ ≠ 0 := by simpa using h
      have hprom := SharedPtr.ofWeak_eq hb hblk hr
      have hread := @Mem.block_setBlock m b blk { blk with
          base := { weak_ref_counter_ := blk.base.weak_ref_counter_,
                    ref_counter_ := (blk.base.ref_counter_ + 1) % SIZE } } hget hf
      have hu : SharedPtr.UseCount
          { ptr_ := w.ptr_, control_block_ := w.control_block_ }
          (m.setBlock b { blk with
            base := { weak_ref_counter_ := blk.base.weak_ref_counter_,
                      ref_counter_ := (blk.base.ref_counter_ + 1) % SIZE } })
          = Except.ok ((blk.base.ref_counter_ + 1) % SIZE) := by
        simp only [SharedPtr.UseCount, hb, hread, bind, Except.bind,
          pure, Except.pure, ControlBlockBase.GetRefCounter]
      refine ⟨blk.base.ref_counter_, { ptr_ := w.ptr_, control_block_ := w.control_block_ },
        _, ?_, ?_, rfl, ?_, rfl, hu, fun hlt => ?_⟩
      · simp only [WeakPtr.UseCount, hb, hblk, bind, Except.bind, pure, Except.pure,
          ControlBlockBase.GetRefCounter]
      · have hl : w.Lock m = SharedPtr.ofWeak w m := by
          simp only [WeakPtr.Lock, hb, he, h, bind, Except.bind, pure, Except.pure,
            Bool.false_eq_true, if_false]
        rw [hl]
        exact hprom
      · simp [SharedPtr.toBool, hb]
      · rw [hu, Nat.mod_eq_of_lt hlt]

/-- Witness of C7: `Lock()` on the weak handle of a block with one strong reference. -/
theorem C7_witness :
    ∃ n r m1, WeakPtr.UseCount ⟨1, some 0⟩
        ⟨[⟨⟨1, 1⟩, BlockKind.holder 1, false, 0⟩], [⟨WeakPtr.default, false⟩]⟩
        = Except.ok n ∧
      WeakPtr.Lock ⟨1, some 0⟩
        ⟨[⟨⟨1, 1⟩, BlockKind.holder 1, false, 0⟩], [⟨WeakPtr.default, false⟩]⟩
        = Except.ok (r, m1) ∧
      r.control_block_ = some 0 ∧ r.toBool = true ∧ r.Get = 1 ∧
      r.UseCount m1 = Except.ok ((n + 1) % SIZE) ∧
      (n + 1 < SIZE → r.UseCount m1 = Except.ok (n + 1)) :=
  (C7_lock_by_cases ⟨1, some 0⟩
    ⟨[⟨⟨1, 1⟩, BlockKind.holder 1, false, 0⟩], [⟨WeakPtr.default, false⟩]⟩ false
    (by rfl)).2 rfl

/-! ## C8 -/

/-- In a state that satisfies the invariant, a block that manages a pointee and is
referenced by a live `WeakPtr` has not been freed, and its strong counter is the number of
live `SharedPtr` variables that share it. -/
theorem Inv.observed {efst : Bool} {s : State} (hinv : Inv efst s) {j : Nat} {w : WeakPtr}
    {b : Nat} {blk : Block} (hj : s.weak[j]? = some (some w))
    (hb : w.control_block_ = some b) (hblk : s.mem.blocks[b]? = some blk)
    (hg : blk.good = true) :
    s.mem.block b = Except.ok blk ∧ blk.base.ref_counter_ = countShared s.shared b := by
  have h := hinv b
  rw [hblk] at h
  have hgood := h.2.1 hg
  have hpos := countWeak_pos hj hb
  have hf : blk.freed = false := by
    by_contra hf
    have hf1 : blk.freed = true := by simpa using hf
    have := (hgood.gone hf1).2
    omega
  exact ⟨Mem.block_ok.mpr ⟨hblk, hf⟩, hgood.ref_eq hf⟩

theorem Inv.expired {efst : Bool} {s : State} (hinv : Inv efst s) {j : Nat} {w : WeakPtr}
    {b : Nat} {blk : Block} (hj : s.weak[j]? = some (some w))
    (hb : w.control_block_ = some b) (hblk : s.mem.blocks[b]? = some blk)
    (hg : blk.good = true) :
    w.Expired s.mem = Except.ok (decide (countShared s.shared b = 0)) := by
  obtain ⟨hread, hr⟩ := Inv.observed hinv hj hb hblk hg
  simp only [WeakPtr.Expired, hb, hread, bind, Except.bind, pure, Except.pure,
    ControlBlockBase.GetRefCounter, hr]
  by_cases hz : countShared s.shared b = 0 <;> simp [hz]

/-- Counterexample to C8 as stated. After `SharedPtr<T> p(static_cast<T*>(nullptr))` and
`WeakPtr<T> w(p)` the handle `p` is live and shares the block of `w`, and `w.Expired()` is
true; after `SharedPtr<T> q(p)` it is false again. -/
theorem C8_counterexample :
    (run false [Op.sFromRaw 0, Op.wFromShared 0] State.init).map
        (fun s => (s.shared, s.weak, s.weak.map (Option.map (fun w => w.Expired s.mem))))
      = Except.ok ([some ⟨0, some 0⟩], [some ⟨0, some 0⟩], [some (Except.ok true)]) ∧
    (run false [Op.sFromRaw 0, Op.wFromShared 0, Op.sCopy 0] State.init).map
        (fun s => s.weak.map (Option.map (fun w => w.Expired s.mem)))
      = Except.ok [some (Except.ok false)] := by
  constructor <;> rfl

/-- C8, amended. For a control block made by `MakeShared` or from a raw pointer that is not
null, a state `s` that a program reaches and a state `s2` that it reaches later: in both,
`Expired()` of every live `WeakPtr` to the block is true iff no live `SharedPtr` shares the
block; and if none shares it in `s`, none shares it in `s2`, whatever the operations in
between are. -/
theorem C8_expired_iff_no_strong_handle (efst : Bool) (ops ops2 : List Op) (s s2 : State)
    (hlen : 2 * (ops.length + ops2.length) + 2 < SIZE)
    (hrun : run efst ops State.init = Except.ok s) (hrun2 : run efst ops2 s = Except.ok s2)
    (b : Nat) (blk : Block) (hblk : s.mem.blocks[b]? = some blk) (hgood : blk.good = true) :
    (∀ (j : Nat) (w : WeakPtr), s.weak[j]? = some (some w) → w.control_block_ = some b →
      w.Expired s.mem = Except.ok (decide (countShared s.shared b = 0))) ∧
    (∀ (j : Nat) (w : WeakPtr), s2.weak[j]? = some (some w) → w.control_block_ = some b →
      w.Expired s2.mem = Except.ok (decide (countShared s2.shared b = 0))) ∧
    (countShared s.shared b = 0 → countShared s2.shared b = 0) := by
  have hlen1 : 2 * ops.length + 2 < SIZE := by omega
  obtain ⟨hinv, hsz⟩ := reach_inv hlen1 hrun
  have hsize : s.size + 2 * ops2.length + 2 < SIZE := by omega
  obtain ⟨hinv2, -, hext⟩ := run_inv hinv hsize hrun2
  obtain ⟨blk2, hblk2, hk⟩ := hext b blk hblk
  have hg2 := Block.good_of_kind hk hgood
  exact ⟨fun j w hj hb => Inv.expired hinv hj hb hblk hgood,
    fun j w hj hb => Inv.expired hinv2 hj hb hblk2 hg2,
    fun hz => run_zero hinv hsize hrun2 hblk hgood hz⟩

/-- Witness of C8, amended: after `a = MakeShared`, `w(a)`, `a.Reset()` no handle shares the
block; `v(w)`, `w.Lock()` and the attempt `SharedPtr(w)` leave it so and both weak handles
are expired. -/
theorem C8_witness :
    (∀ (j : Nat) (w : WeakPtr),
      [some (⟨1, some 0⟩ : WeakPtr), some ⟨1, some 0⟩][j]? = some (some w) →
      w.control_block_ = some 0 →
      w.Expired ⟨[⟨⟨2, 0⟩, BlockKind.holder 1, false, 1⟩], [⟨WeakPtr.default, true⟩]⟩
        = Except.ok (decide (countShared [some SharedPtr.default, some SharedPtr.default] 0
            = 0))) ∧
    (countShared [some SharedPtr.default] 0 = 0 →
      countShared [some SharedPtr.default, some SharedPtr.default] 0 = 0) :=
  (C8_expired_iff_no_strong_handle false [Op.sMakeShared, Op.wFromShared 0, Op.sReset 0]
    [Op.wCopy 0, Op.wLock 1, Op.sFromWeak 0]
    ⟨⟨[⟨⟨1, 0⟩, BlockKind.holder 1, false, 1⟩], [⟨WeakPtr.default, true⟩]⟩,
      [some SharedPtr.default], [some ⟨1, some 0⟩]⟩
    ⟨⟨[⟨⟨2, 0⟩, BlockKind.holder 1, false, 1⟩], [⟨WeakPtr.default, true⟩]⟩,
      [some SharedPtr.default, some SharedPtr.default], [some ⟨1, some 0⟩, some ⟨1, some 0⟩]⟩
    (by decide) (by rfl) (by rfl) 0 ⟨⟨1, 0⟩, BlockKind.holder 1, false, 1⟩
    (by rfl) (by rfl)).2

/-! ## C9 -/

theorem WeakPtr.Lock_eq {w : WeakPtr} {m : Mem} {b : Nat} {blk : Block}
    (hb : w.control_block_ = some b) (hblk : m.block b = Except.ok blk)
    (hr : blk.base.ref_counter_ ≠ 0) : w.Lock m = SharedPtr.ofWeak w m := by
  have he : w.Expired m = Except.ok false := by
    simp only [WeakPtr.Expired, hb, hblk, bind, Except.bind, pure, Except.pure,
      ControlBlockBase.GetRefCounter]
    simp [hr]
  simp only [WeakPtr.Lock, hb, he, bind, Except.bind, pure, Except.pure,
    Bool.false_eq_true, if_false]

/-- C9. In a state `s` that a program reaches, let `h` be a live `SharedPtr` on a block that
manages a pointee. The program goes on with `WeakPtr<T> w(h)` and any operations `ops2`; if
in the state `s2` reached `w` is as constructed and some live `SharedPtr` shares the block
(then one did in every state in between, see `run_zero`), `w.Lock()` succeeds and returns a
handle with `Get()` equal to `h.Get()` and the control block of `h`. -/
theorem C9_round_trip (efst : Bool) (ops ops2 : List Op) (s s2 : State)
    (hlen : 2 * (ops.length + ops2.length) + 4 < SIZE)
    (hrun : run efst ops State.init = Except.ok s)
    (i : Nat) (h : SharedPtr) (b : Nat) (blk : Block)
    (hi : s.shared[i]? = some (some h)) (hb : h.control_block_ = some b)
    (hblk : s.mem.blocks[b]? = some blk) (hgood : blk.good = true)
    (hrun2 : run efst (Op.wFromShared i :: ops2) s = Except.ok s2)
    (hw : s2.weak[s.weak.length]? = some (some { ptr_ := h.ptr_, control_block_ := some b }))
    (hkeep : 1 ≤ countShared s2.shared b) :
    (∃ s1, step efst (Op.wFromShared i) s = Except.ok s1 ∧
      s1.weak = s.weak ++ [some { ptr_ := h.ptr_, control_block_ := some b }] ∧
      s1.shared = s.shared ∧ run efst ops2 s1 = Except.ok s2) ∧
    ∃ r m3, WeakPtr.Lock { ptr_ := h.ptr_, control_block_ := some b } s2.mem
        = Except.ok (r, m3) ∧
      r.Get = h.Get ∧ r.control_block_ = h.control_block_ ∧
      step efst (Op.wLock s.weak.length) s2
        = Except.ok { s2 with mem := m3, shared := s2.shared ++ [some r] } := by
  obtain ⟨s1, hstep, hrest⟩ := run_cons_ok.mp hrun2
  have hlen1 : 2 * ops.length + 2 < SIZE := by omega
  obtain ⟨hinv, hsz⟩ := reach_inv hlen1 hrun
  have hsize : s.size + 2 * (Op.wFromShared i :: ops2).length + 2 < SIZE := by
    simp only [List.length_cons]
    omega
  obtain ⟨hinv2, -, hext⟩ := run_inv hinv hsize hrun2
  obtain ⟨blk2, hblk2, hk⟩ := hext b blk hblk
  have hg2 := Block.good_of_kind hk hgood
  obtain ⟨hread, href⟩ := Inv.observed hinv2 hw rfl hblk2 hg2
  have hr : blk2.base.ref_counter_ ≠ 0 := by omega
  constructor
  · have hstep1 := hstep
    simp only [step, State.getShared_ok.mpr hi, bind_ok, pure_ok] at hstep1
    obtain ⟨h1, he, ⟨w, m1⟩, hof, hs1⟩ := hstep1
    cases he
    obtain ⟨b1, hb1, hweq, -⟩ := WeakPtr.ofShared_ok hof
    rw [hb] at hb1
    cases hb1
    subst hweq
    subst hs1
    exact ⟨_, hstep, rfl, rfl, hrest⟩
  · have hl := WeakPtr.Lock_eq (w := { ptr_ := h.ptr_, control_block_ := some b }) rfl hread hr
    have hprom := @SharedPtr.ofWeak_eq { ptr_ := h.ptr_, control_block_ := some b } s2.mem b
      blk2 rfl hread hr
    refine ⟨_, _, hl.trans hprom, rfl, hb.symm, ?_⟩
    simp only [step, State.getWeak_ok.mpr hw, hl, hprom, bind, Except.bind, pure, Except.pure]

/-- Witness of C9, for a pointee type with `EnableSharedFromThis`: `a = MakeShared`, `c(a)`,
then `w(c)`, `c.Reset()`, `v(w)`; the handle `a` keeps the pointee alive and `w.Lock()`
returns a handle to the same pointee and block. -/
theorem C9_witness :
    ∃ r m3, WeakPtr.Lock ⟨1, some 0⟩
        ⟨[⟨⟨3, 1⟩, BlockKind.holder 1, false, 0⟩], [⟨⟨1, some 0⟩, false⟩]⟩
        = Except.ok (r, m3) ∧
      r.Get = SharedPtr.Get ⟨1, some 0⟩ ∧ r.control_block_ = some 0 :=
  have h := (C9_round_trip true [Op.sMakeShared, Op.sCopy 0] [Op.sReset 1, Op.wCopy 0]
    ⟨⟨[⟨⟨1, 2⟩, BlockKind.holder 1, false, 0⟩], [⟨⟨1, some 0⟩, false⟩]⟩,
      [some ⟨1, some 0⟩, some ⟨1, some 0⟩], []⟩
    ⟨⟨[⟨⟨3, 1⟩, BlockKind.holder 1, false, 0⟩], [⟨⟨1, some 0⟩, false⟩]⟩,
      [some ⟨1, some 0⟩, some SharedPtr.default], [some ⟨1, some 0⟩, some ⟨1, some 0⟩]⟩
    (by decide) (by rfl) 1 ⟨1, some 0⟩ 0 ⟨⟨1, 2⟩, BlockKind.holder 1, false, 0⟩
    (by rfl) (by rfl) (by rfl) (by rfl) (by rfl) (by rfl) (by decide)).2
  let ⟨r, m3, h1, h2, h3, _⟩ := h
  ⟨r, m3, h1, h2, h3⟩

/-! ## C10 -/

/-- Counterexample to C10 as stated. With `p = MakeShared`, `a(p, q)` and `WeakPtr w(p)`,
releasing `p` and then `a` runs the teardown, but the block is not freed (the weak handle
still needs it). With `p(static_cast<T*>(nullptr))` and `a(p, q)`, releasing `p` frees the
block while `a` is live. -/
theorem C10_counterexample :
    (run false [Op.sMakeShared, Op.sAlias 0 7, Op.wFromShared 0, Op.sDestroy 0, Op.sDestroy 1]
        State.init).map
        (fun s => (s.shared, s.mem.blocks.map (fun b => (b.deleteT_calls, b.freed))))
      = Except.ok ([none, none], [(1, false)]) ∧
    (run false [Op.sFromRaw 0, Op.sAlias 0 7, Op.sDestroy 0] State.init).map
        (fun s => (s.shared, s.mem.blocks.map (fun b => (b.deleteT_calls, b.freed))))
      = Except.ok ([none, some ⟨7, some 0⟩], [(1, true)]) := by
  constructor <;> rfl

/-- C10, amended. In a state `s` that a program reaches, let `p` be a live `SharedPtr` on a
block made by `MakeShared` or from a raw pointer that is not null. The aliasing constructor
`a(p, q)` gives a handle with `Get() == q` on the block of `p` and takes `UseCount()` from
the number of sharing handles to that number plus one. In every state `s2` that the program
reaches afterwards: while `a` or another `SharedPtr` to the block is live the block is not
freed and `DeleteT` has not run; once none is live `DeleteT` has run exactly once, and the
block is freed iff no `WeakPtr` and no `weak_this_` references it. -/
theorem C10_aliasing_keeps_pointee (efst : Bool) (ops ops2 : List Op) (s s2 : State)
    (hlen : 2 * (ops.length + ops2.length) + 4 < SIZE)
    (hrun : run efst ops State.init = Except.ok s)
    (i : Nat) (p : SharedPtr) (q b : Nat) (blk : Block)
    (hi : s.shared[i]? = some (some p)) (hb : p.control_block_ = some b)
    (hblk : s.mem.blocks[b]? = some blk) (hgood : blk.good = true)
    (hrun2 : run efst (Op.sAlias i q :: ops2) s = Except.ok s2) :
    (∃ a m1, SharedPtr.aliasing p q s.mem = Except.ok (a, m1) ∧
      a.Get = q ∧ a.control_block_ = p.control_block_ ∧
      p.UseCount s.mem = Except.ok (countShared s.shared b) ∧
      a.UseCount m1 = Except.ok (countShared s.shared b + 1) ∧
      m1.block b = Except.ok { blk with
        base := { weak_ref_counter_ := blk.base.weak_ref_counter_,
                  ref_counter_ := blk.base.ref_counter_ + 1 } } ∧
      run efst ops2 { s with mem := m1, shared := s.shared ++ [some a] } = Except.ok s2) ∧
    ∃ blk2, s2.mem.blocks[b]? = some blk2 ∧
      (s2.shared[s.shared.length]? = some (some { ptr_ := q, control_block_ := some b }) →
        1 ≤ countShared s2.shared b) ∧
      (1 ≤ countShared s2.shared b → blk2.freed = false ∧ blk2.deleteT_calls = 0) ∧
      (countShared s2.shared b = 0 → blk2.deleteT_calls = 1 ∧
        (blk2.freed = true ↔
          countWeak s2.weak b + countThis efst s2.mem.objs b = 0)) := by
  have hlen1 : 2 * ops.length + 2 < SIZE := by omega
  obtain ⟨hinv, hsz⟩ := reach_inv hlen1 hrun
  have hsize : s.size + 2 * (Op.sAlias i q :: ops2).length + 2 < SIZE := by
    simp only [List.length_cons]
    omega
  obtain ⟨hinv2, -, hext⟩ := run_inv hinv hsize hrun2
  obtain ⟨blk2, hblk2, hk⟩ := hext b blk hblk
  have hg2 := Block.good_of_kind hk hgood
  have hpos := countShared_pos hi hb
  have hB := hinv b
  rw [hblk] at hB
  obtain ⟨hf, href, hdel⟩ := BInv.of_pos hB hgood hpos
  have hread : s.mem.block b = Except.ok blk := Mem.block_ok.mpr ⟨hblk, hf⟩
  have hle := countShared_le s.shared b
  have hlt : blk.base.ref_counter_ + 1 < SIZE := by
    have : s.shared.length ≤ s.size := by
      have hs : s.size = s.shared.length + s.weak.length + s.mem.objs.length := rfl
      omega
    omega
  have hal : SharedPtr.aliasing p q s.mem = Except.ok
      ({ ptr_ := q, control_block_ := p.control_block_ },
        s.mem.setBlock b { blk with
          base := { weak_ref_counter_ := blk.base.weak_ref_counter_,
                    ref_counter_ := blk.base.ref_counter_ + 1 } }) := by
    simp only [SharedPtr.aliasing, hb, bind, Except.bind, pure, Except.pure,
      Mem.AddReference_eq hread, ControlBlockBase.AddReference, Nat.mod_eq_of_lt hlt]
  have hread1 := @Mem.block_setBlock s.mem b blk { blk with
      base := { weak_ref_counter_ := blk.base.weak_ref_counter_,
                ref_counter_ := blk.base.ref_counter_ + 1 } } hblk hf
  constructor
  · refine ⟨_, _, hal, rfl, rfl, ?_, ?_, hread1, ?_⟩
    · simp only [SharedPtr.UseCount, hb, hread, bind, Except.bind, pure, Except.pure,
        ControlBlockBase.GetRefCounter, href]
    · rw [← href]
      simp only [SharedPtr.UseCount, hb, hread1, bind, Except.bind, pure, Except.pure,
        ControlBlockBase.GetRefCounter]
    · obtain ⟨s1, hstep, hrest⟩ := run_cons_ok.mp hrun2
      simp only [step, State.getShared_ok.mpr hi, hal, bind, Except.bind, pure, Except.pure,
        Except.ok.injEq] at hstep
      rw [hstep]
      exact hrest
  · have hB2 := hinv2 b
    rw [hblk2] at hB2
    refine ⟨blk2, hblk2, fun ha => countShared_pos ha rfl, fun h1 => ?_, fun h0 => ⟨?_, ?_⟩⟩
    · obtain ⟨hf2, -, hd2⟩ := BInv.of_pos hB2 hg2 h1
      exact ⟨hf2, hd2⟩
    · have := (hB2.2.1 hg2).deleted
      rw [if_pos h0] at this
      exact this
    · have := Inv.freed_iff hinv2 hblk2 hg2
      rw [this]
      constructor
      · exact fun h => h.2
      · exact fun h => ⟨h0, h⟩

/-- Witness of C10, amended: `p(new T)`, `w(p)`, then `a(p, q)`, the destructor of `p` and
`a.Reset()`; no `SharedPtr` is left, `DeleteT` has run once and the block is kept for `w`. -/
theorem C10_witness :
    ∃ blk2, [(⟨⟨1, 0⟩, BlockKind.pointer 1, false, 1⟩ : Block)][0]? = some blk2 ∧
      (countShared [none, some SharedPtr.default] 0 = 0 → blk2.deleteT_calls = 1 ∧
        (blk2.freed = true ↔
          countWeak [some ⟨1, some 0⟩] 0 + countThis false [⟨WeakPtr.default, true⟩] 0 = 0)) :=
  have h := (C10_aliasing_keeps_pointee false [Op.newObj, Op.sFromRaw 1, Op.wFromShared 0]
    [Op.sDestroy 0, Op.sReset 1]
    ⟨⟨[⟨⟨1, 1⟩, BlockKind.pointer 1, false, 0⟩], [⟨WeakPtr.default, false⟩]⟩,
      [some ⟨1, some 0⟩], [some ⟨1, some 0⟩]⟩
    ⟨⟨[⟨⟨1, 0⟩, BlockKind.pointer 1, false, 1⟩], [⟨WeakPtr.default, true⟩]⟩,
      [none, some SharedPtr.default], [some ⟨1, some 0⟩]⟩
    (by decide) (by rfl) 0 ⟨1, some 0⟩ 9 0 ⟨⟨1, 1⟩, BlockKind.pointer 1, false, 0⟩
    (by rfl) (by rfl) (by rfl) (by rfl) (by rfl)).2
  let ⟨blk2, h1, _, _, h4⟩ := h
  ⟨blk2, h1, h4⟩

/-! ## C11 -/

theorem one_mod_SIZE : (0 + 1) % SIZE = 1 := by decide

theorem two_mod_SIZE : (1 + 1) % SIZE = 2 := by decide

/-- The result of `MakeShared<T>()` for a `T` that derives from `EnableSharedFromThis<T>`,
in any heap: a new pointee, a new block with strong counter `1` and weak counter `1`, and
`weak_this_` of the pointee set to the new handle. -/
theorem SharedPtr.MakeShared_true_eq (m : Mem) :
    SharedPtr.MakeShared true m = Except.ok
      ({ ptr_ := m.objs.length + 1, control_block_ := some m.blocks.length },
        { blocks := m.blocks ++ [{ base := { weak_ref_counter_ := 1, ref_counter_ := 1 },
                                   kind := BlockKind.holder (m.objs.length + 1),
                                   freed := false, deleteT_calls := 0 }],
          objs := m.objs ++ [{ weak_this_ := { ptr_ := m.objs.length + 1,
                                               control_block_ := some m.blocks.length },
                               destroyed := false }] }) := by
  simp [SharedPtr.MakeShared, Mem.newObj, Mem.alloc, SharedPtr.ofHolder, Mem.block,
    ControlBlockHolder.new, Block.pointee, Mem.assignWeakThis, Mem.obj, WeakPtr.ofShared,
    Mem.AddWeakRef, WeakPtr.moveAssign, WeakPtr.TryDeleteBlock, WeakPtr.dtor, WeakPtr.default,
    Mem.setBlock, Mem.setObj, ControlBlockBase.init, ControlBlockBase.AddReference,
    ControlBlockBase.AddWeakRef, one_mod_SIZE, bind, Except.bind, pure, Except.pure]

/-- Counterexample to C11 as stated, for a type that derives from `EnableSharedFromThis`.
First run: `s = MakeShared`, `t = MakeShared`, `a(t, s.Get())`, `c(a)`: the copy
constructor executes `other.ptr_->weak_this_ = *this` and the object of `s` now references
the block of `t`; after `~c`, `~a`, `~t` the handle `s` is live with `UseCount() == 1` and
`SharedFromThis()` on its object throws `BadWeakPtr`. Second run: `s = MakeShared`, `c(s)`:
after `SharedFromThis()` the count is `3`, not `2`. Third run: `s = MakeShared`, `r`,
`r.Reset(s.Get())`, `~r`: a second control block, a `ControlBlockPointer` for the address
inside the holder, has run its `DeleteT` on the object while `s` is live (the heap records
the destructor call), and the call on the destroyed object is undefined behaviour. -/
theorem C11_counterexample :
    (run true [Op.sMakeShared, Op.sMakeShared, Op.sAlias 1 1, Op.sCopy 2, Op.sDestroy 3,
        Op.sDestroy 2, Op.sDestroy 1] State.init).map
        (fun s => (s.shared[0]?, SharedPtr.UseCount ⟨1, some 0⟩ s.mem,
          (EnableSharedFromThis.SharedFromThis 1 s.mem).map Prod.fst))
      = Except.ok (some (some ⟨1, some 0⟩), Except.ok 1, Except.error Err.BadWeakPtr) ∧
    (run true [Op.sMakeShared, Op.sCopy 0] State.init).bind
        (fun s => (EnableSharedFromThis.SharedFromThis 1 s.mem).bind
          (fun r => SharedPtr.UseCount ⟨1, some 0⟩ r.2))
      = Except.ok 3 ∧
    (run true [Op.sMakeShared, Op.sDefault, Op.sResetPtr 1 1, Op.sDestroy 1] State.init).map
        (fun s => (s.shared[0]?, SharedPtr.UseCount ⟨1, some 0⟩ s.mem,
          s.mem.objs.map Pointee.destroyed,
          (EnableSharedFromThis.SharedFromThis 1 s.mem).map Prod.fst))
      = Except.ok (some (some ⟨1, some 0⟩), Except.ok 1, [true],
          Except.error Err.dangling) := by
  refine ⟨?_, ?_, ?_⟩ <;> rfl

/-- C11, amended. For a type that derives from `EnableSharedFromThis`, in every state that a
program reaches: if `s` is a live handle on a `ControlBlockHolder` block whose storage is
the object `s.Get()` (the handle that `MakeShared` returned), the object is alive and its
`weak_this_` references the block of `s`, then `SharedFromThis()` on the object succeeds and
returns a handle `h` with `h.Get() == s.Get()` on the control block of `s`, and
`s.UseCount()`, the number of live handles on the block before the call, is one more after
it. And in any heap `s = MakeShared<T>()` succeeds with `s.UseCount() == 1`, and
`SharedFromThis()` on the new object then returns such an `h`, after which
`s.UseCount() == 2`. -/
theorem C11_shared_from_this_after_make_shared (ops : List Op) (st : State)
    (hlen : 2 * ops.length + 3 < SIZE) (hrun : run true ops State.init = Except.ok st)
    (i : Nat) (s : SharedPtr) (hs : st.shared[i]? = some (some s))
    (b : Nat) (hb : s.control_block_ = some b)
    (blk : Block) (hblk : st.mem.blocks[b]? = some blk)
    (hk : blk.kind = BlockKind.holder s.Get)
    (o : Pointee) (ho : st.mem.obj s.Get = Except.ok o)
    (hwt : o.weak_this_.control_block_ = some b) :
    (∃ h m1, EnableSharedFromThis.SharedFromThis s.Get st.mem = Except.ok (h, m1) ∧
      h.Get = s.Get ∧ h.control_block_ = s.control_block_ ∧
      SharedPtr.operatorEq h s = true ∧
      s.UseCount st.mem = Except.ok (countShared st.shared b) ∧
      s.UseCount m1 = Except.ok (countShared st.shared b + 1) ∧
      h.UseCount m1 = Except.ok (countShared st.shared b + 1)) ∧
    (∀ m : Mem, ∃ s m1 h m2, SharedPtr.MakeShared true m = Except.ok (s, m1) ∧
      s.UseCount m1 = Except.ok 1 ∧
      EnableSharedFromThis.SharedFromThis s.Get m1 = Except.ok (h, m2) ∧
      h.Get = s.Get ∧ h.control_block_ = s.control_block_ ∧
      SharedPtr.operatorEq h s = true ∧
      s.UseCount m2 = Except.ok 2 ∧ h.UseCount m2 = Except.ok 2) := by
  constructor
  · obtain ⟨hinv, hsz⟩ := reach_inv (by omega) hrun
    have hh := reach_heap hrun
    have hgood : blk.good = true := by simp [Block.good, hk]
    have hi := hinv b
    rw [hblk] at hi
    have hpos := countShared_pos hs hb
    obtain ⟨hf, href, -⟩ := BInv.of_pos hi hgood hpos
    have hbl : st.mem.block b = Except.ok blk := Mem.block_ok.mpr ⟨hblk, hf⟩
    have hle := countShared_le st.shared b
    have hsz2 : st.shared.length ≤ st.size := by
      simp only [State.size]
      omega
    have hmod : (blk.base.ref_counter_ + 1) % SIZE = countShared st.shared b + 1 := by
      rw [href]
      exact Nat.mod_eq_of_lt (by omega)
    obtain ⟨hp0, hobj, -⟩ := Mem.obj_ok ho
    have hptr : o.weak_this_.ptr_ = s.Get := by
      have := hh.self_ptr _ o b hobj hwt
      omega
    have hof := SharedPtr.ofWeak_eq hwt hbl (by omega)
    have hread : (st.mem.setBlock b { blk with
        base := { weak_ref_counter_ := blk.base.weak_ref_counter_,
                  ref_counter_ := (blk.base.ref_counter_ + 1) % SIZE } }).block b
        = Except.ok { blk with
            base := { weak_ref_counter_ := blk.base.weak_ref_counter_,
                      ref_counter_ := (blk.base.ref_counter_ + 1) % SIZE } } :=
      Mem.block_setBlock hblk hf
    have hread2 := hread
    rw [hmod] at hread2
    refine ⟨{ ptr_ := o.weak_this_.ptr_, control_block_ := o.weak_this_.control_block_ },
      st.mem.setBlock b { blk with
        base := { weak_ref_counter_ := blk.base.weak_ref_counter_,
                  ref_counter_ := (blk.base.ref_counter_ + 1) % SIZE } },
      ?_, hptr, by rw [hb]; exact hwt, ?_, ?_, ?_, ?_⟩
    · simp only [EnableSharedFromThis.SharedFromThis, ho, bind, Except.bind]
      exact hof
    · simp only [SharedPtr.operatorEq, SharedPtr.Get, beq_iff_eq]
      exact hptr
    · simp only [SharedPtr.UseCount, hb, hbl, bind, Except.bind, pure, Except.pure,
        ControlBlockBase.GetRefCounter, href]
    · simp only [SharedPtr.UseCount, hb, hmod, hread2, bind, Except.bind, pure, Except.pure,
        ControlBlockBase.GetRefCounter]
    · simp only [SharedPtr.UseCount, hwt, hmod, hread2, bind, Except.bind, pure, Except.pure,
        ControlBlockBase.GetRefCounter]
  · intro m
    refine ⟨_, _, { ptr_ := m.objs.length + 1, control_block_ := some m.blocks.length },
      { blocks := m.blocks ++ [{ base := { weak_ref_counter_ := 1, ref_counter_ := 2 },
                                 kind := BlockKind.holder (m.objs.length + 1),
                                 freed := false, deleteT_calls := 0 }],
        objs := m.objs ++ [{ weak_this_ := { ptr_ := m.objs.length + 1,
                                             control_block_ := some m.blocks.length },
                             destroyed := false }] },
      SharedPtr.MakeShared_true_eq m, ?_, ?_, rfl, rfl, ?_, ?_, ?_⟩
    · simp [SharedPtr.UseCount, Mem.block, ControlBlockBase.GetRefCounter, bind, Except.bind,
        pure, Except.pure]
    · simp [EnableSharedFromThis.SharedFromThis, SharedPtr.Get, Mem.obj, SharedPtr.ofWeak,
        Mem.block, Mem.AddReference, Mem.setBlock, ControlBlockBase.GetRefCounter,
        ControlBlockBase.AddReference, two_mod_SIZE, bind, Except.bind, pure, Except.pure]
    · simp [SharedPtr.operatorEq]
    · simp [SharedPtr.UseCount, Mem.block, ControlBlockBase.GetRefCounter, bind, Except.bind,
        pure, Except.pure]
    · simp [SharedPtr.UseCount, Mem.block, ControlBlockBase.GetRefCounter, bind, Except.bind,
        pure, Except.pure]

/-- Witness of C11, amended: after `s = MakeShared`, `c(s)`, `~c` the handle `s` is the only
one on its block and `weak_this_` of the object references that block; `SharedFromThis()`
returns a handle on it and the count goes from `1` to `2`. -/
theorem C11_witness :
    ∃ h m1, EnableSharedFromThis.SharedFromThis 1
        ⟨[⟨⟨1, 1⟩, BlockKind.holder 1, false, 0⟩], [⟨⟨1, some 0⟩, false⟩]⟩
        = Except.ok (h, m1) ∧
      h.Get = 1 ∧ h.control_block_ = some 0 ∧
      SharedPtr.operatorEq h ⟨1, some 0⟩ = true ∧
      SharedPtr.UseCount ⟨1, some 0⟩
          ⟨[⟨⟨1, 1⟩, BlockKind.holder 1, false, 0⟩], [⟨⟨1, some 0⟩, false⟩]⟩
        = Except.ok (countShared [some ⟨1, some 0⟩, none] 0) ∧
      SharedPtr.UseCount ⟨1, some 0⟩ m1
        = Except.ok (countShared [some ⟨1, some 0⟩, none] 0 + 1) ∧
      h.UseCount m1 = Except.ok (countShared [some ⟨1, some 0⟩, none] 0 + 1) :=
  (C11_shared_from_this_after_make_shared [Op.sMakeShared, Op.sCopy 0, Op.sDestroy 1]
    ⟨⟨[⟨⟨1, 1⟩, BlockKind.holder 1, false, 0⟩], [⟨⟨1, some 0⟩, false⟩]⟩,
      [some ⟨1, some 0⟩, none], []⟩
    (by decide) (by rfl) 0 ⟨1, some 0⟩ (by rfl) 0 (by rfl)
    ⟨⟨1, 1⟩, BlockKind.holder 1, false, 0⟩ (by rfl) (by rfl)
    ⟨⟨1, some 0⟩, false⟩ (by rfl) (by rfl)).1

/-! ## C12 -/

/-- C12, the code at the failing input. An object of a type that derives from
`EnableSharedFromThis` and that no `SharedPtr` has owned has a default constructed
`weak_this_`; `SharedFromThis()` hands it to `SharedPtr(const WeakPtr&)`, which reads
`other.control_block_->GetRefCounter()` through the null block pointer: undefined
behaviour, no `BadWeakPtr`. The observers of `WeakPtr` test the block pointer first:
`WeakFromThis().Lock()` on the same object returns a null handle. -/
theorem C12_shared_from_this_without_owner (m : Mem) :
    (m.newObj.2.obj m.newObj.1).map Pointee.weak_this_ = Except.ok WeakPtr.default ∧
    EnableSharedFromThis.SharedFromThis m.newObj.1 m.newObj.2 = Except.error Err.nullDeref ∧
    (EnableSharedFromThis.WeakFromThis m.newObj.1 m.newObj.2).bind
        (fun r => (r.1.Lock r.2).map Prod.fst) = Except.ok SharedPtr.default := by
  refine ⟨?_, ?_, ?_⟩
  · simp [Mem.newObj, Mem.obj, Except.map, WeakPtr.default]
  · simp [EnableSharedFromThis.SharedFromThis, Mem.newObj, Mem.obj, SharedPtr.ofWeak, bind,
      Except.bind]
  · simp [EnableSharedFromThis.WeakFromThis, Mem.newObj, Mem.obj, WeakPtr.copy, WeakPtr.Lock,
      bind, Except.bind, pure, Except.pure, Except.map]

/-! ## C13 -/

/-- The statement `x->weak_this_ = *this` for a living object `x` and a handle on block `b`,
when the old `weak_this_` references no block or a block other than `b` that is not freed:
block `b` gets one more weak reference and `weak_this_` is the weak pointer made from the
handle. -/
theorem Mem.assignWeakThis_ok {m : Mem} {x b : Nat} {this : SharedPtr} {o : Pointee}
    {blk : Block} (ho : m.obj x = Except.ok o) (hb : this.control_block_ = some b)
    (hblk : m.block b = Except.ok blk)
    (hwt : ∀ c, o.weak_this_.control_block_ = some c →
      c ≠ b ∧ ∃ blkc, m.block c = Except.ok blkc) :
    ∃ m1, m.assignWeakThis x this = Except.ok m1 ∧
      m1.blocks[b]? = some { blk with base := blk.base.AddWeakRef } ∧
      m1.objs[x - 1]? = some
        { o with weak_this_ := { ptr_ := this.ptr_, control_block_ := some b } } := by
  obtain ⟨hp, hobj, -⟩ := Mem.obj_ok ho
  obtain ⟨hget, hf⟩ := Mem.block_ok.mp hblk
  have hofs : WeakPtr.ofShared this m = Except.ok
      ({ ptr_ := this.ptr_, control_block_ := some b },
        m.setBlock b { blk with base := blk.base.AddWeakRef }) := by
    simp only [WeakPtr.ofShared, hb, Mem.AddWeakRef_eq hblk, bind, Except.bind, pure,
      Except.pure]
  have hrel : ∀ c, o.weak_this_.control_block_ = some c → c ≠ b ∧
      ∃ blkc, (m.setBlock b { blk with base := blk.base.AddWeakRef }).block c
        = Except.ok blkc := by
    intro c hc
    obtain ⟨hne, blkc, hbc⟩ := hwt c hc
    exact ⟨hne, blkc, by rw [Mem.block_setBlock_ne hget hne]; exact hbc⟩
  obtain ⟨mb, hmb, hbb, hob⟩ := WeakPtr.TryDeleteBlock_other hrel
  rw [Mem.getElem?_setBlock hget, if_pos rfl] at hbb
  have hmv : WeakPtr.moveAssign o.weak_this_ { ptr_ := this.ptr_, control_block_ := some b }
      (m.setBlock b { blk with base := blk.base.AddWeakRef })
      = Except.ok ({ ptr_ := this.ptr_, control_block_ := some b }, WeakPtr.default, mb) := by
    simp only [WeakPtr.moveAssign, hmb, bind, Except.bind, pure, Except.pure]
  refine ⟨mb.setObj x
    { o with weak_this_ := { ptr_ := this.ptr_, control_block_ := some b } }, ?_, hbb, ?_⟩
  · simp only [Mem.assignWeakThis, ho, hofs, hmv, WeakPtr.dtor_default, bind, Except.bind,
      pure, Except.pure]
  · rw [Mem.getElem?_setObj (by rw [hob]; exact hobj), if_pos rfl]

/-- The constructor `SharedPtr(T* ptr)` for a `T` that derives from `EnableSharedFromThis<T>`
and a pointer to a living object whose `weak_this_` references no block or a block that is
not freed: one new `ControlBlockPointer` with strong counter `1` and weak counter `1`, the
reference of `weak_this_`, which is set to the new handle. -/
theorem SharedPtr.ofRaw_true_ok {m : Mem} {ptr : Nat} {o : Pointee}
    (ho : m.obj ptr = Except.ok o)
    (hwt : ∀ c, o.weak_this_.control_block_ = some c → ∃ blkc, m.block c = Except.ok blkc) :
    ∃ m1, SharedPtr.ofRaw true ptr m
        = Except.ok ({ ptr_ := ptr, control_block_ := some m.blocks.length }, m1) ∧
      m1.blocks[m.blocks.length]? = some
        { base := { weak_ref_counter_ := 1, ref_counter_ := 1 },
          kind := BlockKind.pointer ptr, freed := false, deleteT_calls := 0 } ∧
      m1.objs[ptr - 1]? = some
        { o with weak_this_ := { ptr_ := ptr, control_block_ := some m.blocks.length } } := by
  obtain ⟨hp, hobj, -⟩ := Mem.obj_ok ho
  have hnew : (m.alloc (ControlBlockPointer.new ptr)).2.blocks[m.blocks.length]?
      = some { base := { weak_ref_counter_ := 0, ref_counter_ := 1 },
               kind := BlockKind.pointer ptr, freed := false, deleteT_calls := 0 } := by
    simp [Mem.alloc, ControlBlockPointer.new, hp, ControlBlockBase.init,
      ControlBlockBase.AddReference, one_mod_SIZE]
  have hblk := Mem.block_ok.mpr ⟨hnew, rfl⟩
  have hrel : ∀ c, o.weak_this_.control_block_ = some c → c ≠ m.blocks.length ∧
      ∃ blkc, (m.alloc (ControlBlockPointer.new ptr)).2.block c = Except.ok blkc := by
    intro c hc
    obtain ⟨blkc, hbc⟩ := hwt c hc
    have hlt : c < m.blocks.length := (List.getElem?_eq_some.mp (Mem.block_ok.mp hbc).1).1
    refine ⟨by omega, blkc, ?_⟩
    unfold Mem.block at hbc ⊢
    simp only [Mem.alloc]
    rw [List.getElem?_append_left hlt]
    exact hbc
  obtain ⟨m1, h1, h2, h3⟩ := @Mem.assignWeakThis_ok
    (m.alloc (ControlBlockPointer.new ptr)).2 ptr m.blocks.length
    { ptr_ := ptr, control_block_ := some m.blocks.length } o _ ho rfl hblk hrel
  have hdef : SharedPtr.ofRaw true ptr m
      = ((m.alloc (ControlBlockPointer.new ptr)).2.assignWeakThis ptr
          { ptr_ := ptr, control_block_ := some m.blocks.length }).bind
        (fun m2 => Except.ok ({ ptr_ := ptr, control_block_ := some m.blocks.length }, m2)) :=
    rfl
  refine ⟨m1, ?_, ?_, h3⟩
  · rw [hdef, h1]
    rfl
  · rw [h2]
    simp [ControlBlockBase.AddWeakRef, one_mod_SIZE]

/-- Counterexample to C13 as stated: `SharedPtr<T> p(static_cast<T*>(nullptr))` creates a
block whose strong counter is `0`, and `p.UseCount()` is `0`. For a `T` that derives from
`EnableSharedFromThis<T>` the same constructor executes `ptr->weak_this_ = *this`: through
the null pointer for a null `ptr`, and through a dangling pointer for a `ptr` that is not
null and does not point to a living object. -/
theorem C13_counterexample :
    (SharedPtr.ofRaw false 0 Mem.empty).map
        (fun r => (r.1.Get, r.1.UseCount r.2,
          r.2.blocks.map (fun b => (b.base.ref_counter_, b.base.weak_ref_counter_))))
      = Except.ok (0, Except.ok 0, [(0, 0)]) ∧
    SharedPtr.ofRaw true 0 Mem.empty = Except.error Err.nullDeref ∧
    SharedPtr.ofRaw true 1 Mem.empty = Except.error Err.dangling := by
  refine ⟨?_, ?_, ?_⟩ <;> rfl

/-- C13, amended. For a pointee type without `EnableSharedFromThis`, in any heap, the
constructor `SharedPtr(T* ptr)` creates one new `ControlBlockPointer` for `ptr` with weak
counter `0` and with strong counter `1` if `ptr` is not null and `0` if it is null; then
`Get() == ptr` and `UseCount()` is that strong counter. For a pointee type that derives from
`EnableSharedFromThis`, in every state that a program reaches and for every `ptr` that
points to a living object, it creates one new `ControlBlockPointer` for `ptr` with strong
counter `1` (and weak counter `1`, the `weak_this_` of the object, which references the new
block); then `Get() == ptr` and `UseCount() == 1`. -/
theorem C13_raw_pointer_constructor (m : Mem) (ptr : Nat) :
    SharedPtr.ofRaw false ptr m = Except.ok
      ({ ptr_ := ptr, control_block_ := some m.blocks.length },
        { m with blocks := m.blocks ++
            [{ base := { weak_ref_counter_ := 0, ref_counter_ := if ptr = 0 then 0 else 1 },
               kind := BlockKind.pointer ptr, freed := false, deleteT_calls := 0 }] }) ∧
    (∃ this m1, SharedPtr.ofRaw false ptr m = Except.ok (this, m1) ∧
      this.Get = ptr ∧ this.UseCount m1 = Except.ok (if ptr = 0 then 0 else 1)) ∧
    (∀ (ops : List Op) (st : State) (o : Pointee), 2 * ops.length + 2 < SIZE →
      run true ops State.init = Except.ok st → st.mem.obj ptr = Except.ok o →
      ∃ this m1, SharedPtr.ofRaw true ptr st.mem = Except.ok (this, m1) ∧
        this.control_block_ = some st.mem.blocks.length ∧
        m1.blocks[st.mem.blocks.length]? = some
          { base := { weak_ref_counter_ := 1, ref_counter_ := 1 },
            kind := BlockKind.pointer ptr, freed := false, deleteT_calls := 0 } ∧
        (m1.obj ptr).map Pointee.weak_this_ = Except.ok
          { ptr_ := ptr, control_block_ := some st.mem.blocks.length } ∧
        this.Get = ptr ∧ this.UseCount m1 = Except.ok 1) := by
  have h : SharedPtr.ofRaw false ptr m = Except.ok
      ({ ptr_ := ptr, control_block_ := some m.blocks.length },
        { m with blocks := m.blocks ++
            [{ base := { weak_ref_counter_ := 0, ref_counter_ := if ptr = 0 then 0 else 1 },
               kind := BlockKind.pointer ptr, freed := false, deleteT_calls := 0 }] }) := by
    by_cases hp : ptr = 0 <;>
      simp [SharedPtr.ofRaw, Mem.alloc, ControlBlockPointer.new, ControlBlockBase.init,
        ControlBlockBase.AddReference, one_mod_SIZE, hp, bind, Except.bind, pure, Except.pure]
  refine ⟨h, ⟨_, _, h, rfl, ?_⟩, fun ops st o hlen hrun ho => ?_⟩
  · simp [SharedPtr.UseCount, Mem.block, ControlBlockBase.GetRefCounter, bind, Except.bind,
      pure, Except.pure]
  · obtain ⟨hinv, -⟩ := reach_inv hlen hrun
    obtain ⟨hp, hobj, halive⟩ := Mem.obj_ok ho
    have hwt : ∀ c, o.weak_this_.control_block_ = some c →
        ∃ blkc, st.mem.block c = Except.ok blkc := by
      intro c hc
      obtain ⟨blkc, hbc, -⟩ := hinv.self_block rfl hobj halive hc
      exact ⟨blkc, hbc⟩
    obtain ⟨m1, h1, h2, h3⟩ := SharedPtr.ofRaw_true_ok ho hwt
    refine ⟨_, m1, h1, rfl, h2, ?_, rfl, ?_⟩
    · simp only [Mem.obj, hp, if_false, h3, Bool.false_eq_true, halive, Except.map]
    · simp only [SharedPtr.UseCount, Mem.block, h2, bind, Except.bind, pure, Except.pure,
        ControlBlockBase.GetRefCounter, Bool.false_eq_true, if_false]

/-- Witness of C13, amended, for a type that derives from `EnableSharedFromThis`:
after `x = new T` the constructor `SharedPtr<T> p(x)` makes block `0` with strong counter
`1`, sets `weak_this_` of the object and `p.UseCount() == 1`. -/
theorem C13_witness :
    ∃ this m1, SharedPtr.ofRaw true 1 ⟨[], [⟨⟨0, none⟩, false⟩]⟩ = Except.ok (this, m1) ∧
      this.control_block_ = some 0 ∧
      m1.blocks[0]? = some ⟨⟨1, 1⟩, BlockKind.pointer 1, false, 0⟩ ∧
      (m1.obj 1).map Pointee.weak_this_ = Except.ok ⟨1, some 0⟩ ∧
      this.Get = 1 ∧ this.UseCount m1 = Except.ok 1 :=
  (C13_raw_pointer_constructor Mem.empty 1).2.2 [Op.newObj]
    ⟨⟨[], [⟨⟨0, none⟩, false⟩]⟩, [], []⟩ ⟨⟨0, none⟩, false⟩ (by decide) (by rfl) (by rfl)

/-! ## C14 -/

/-- C14, the code at the failing input, for a type that derives from
`EnableSharedFromThis`. After `T* x = new T; SharedPtr<T> p; p.Reset(x);` the handle has
`UseCount() == 1`, but `weak_this_` of the object is still default constructed:
`WeakFromThis().UseCount()` is `0` and `SharedFromThis()` reads through a null block
pointer. The constructor `SharedPtr<T> p(x)` on the same object does set `weak_this_`. -/
theorem C14_reset_with_pointer_leaves_weak_this_unset :
    (run true [Op.newObj, Op.sDefault, Op.sResetPtr 0 1] State.init).map
        (fun s => (s.shared.map (Option.map (fun h => (h, h.UseCount s.mem))),
          s.mem.objs.map Pointee.weak_this_,
          (EnableSharedFromThis.WeakFromThis 1 s.mem).map (fun r => r.1.UseCount r.2),
          (EnableSharedFromThis.SharedFromThis 1 s.mem).map Prod.fst))
      = Except.ok ([some (⟨1, some 0⟩, Except.ok 1)], [WeakPtr.default],
          Except.ok (Except.ok 0), Except.error Err.nullDeref) ∧
    (run true [Op.newObj, Op.sFromRaw 1] State.init).map
        (fun s => (s.shared.map (Option.map (fun h => (h, h.UseCount s.mem))),
          s.mem.objs.map Pointee.weak_this_,
          (EnableSharedFromThis.WeakFromThis 1 s.mem).map (fun r => r.1.UseCount r.2),
          (EnableSharedFromThis.SharedFromThis 1 s.mem).map Prod.fst))
      = Except.ok ([some (⟨1, some 0⟩, Except.ok 1)], [⟨1, some 0⟩],
          Except.ok (Except.ok 1), Except.ok ⟨1, some 0⟩) := by
  constructor <;> rfl

/-! ## C15 -/

/-- C15. The comparison `a == b` of two `SharedPtr` handles is true iff
`a.Get() == b.Get()`, whatever their control blocks are: it is reflexive and symmetric, two
null handles are equal, and two handles with the same observer pointer are equal also when
their control blocks differ. -/
theorem C15_equality_is_pointer_identity :
    (∀ a b : SharedPtr, SharedPtr.operatorEq a b = true ↔ a.Get = b.Get) ∧
    (∀ (p q : Nat) (c1 c2 d1 d2 : Option Nat),
      SharedPtr.operatorEq ⟨p, c1⟩ ⟨q, c2⟩ = SharedPtr.operatorEq ⟨p, d1⟩ ⟨q, d2⟩) ∧
    (∀ a : SharedPtr, SharedPtr.operatorEq a a = true) ∧
    (∀ a b : SharedPtr, SharedPtr.operatorEq a b = SharedPtr.operatorEq b a) ∧
    SharedPtr.operatorEq SharedPtr.default SharedPtr.default = true ∧
    SharedPtr.operatorEq SharedPtr.default ⟨0, some 0⟩ = true ∧
    (∀ (p : Nat) (c1 c2 : Option Nat), SharedPtr.operatorEq ⟨p, c1⟩ ⟨p, c2⟩ = true) := by
  refine ⟨fun a b => ?_, fun p q c1 c2 d1 d2 => rfl, fun a => ?_, fun a b => ?_, rfl, rfl,
    fun p c1 c2 => ?_⟩
  · simp [SharedPtr.operatorEq]
  · simp [SharedPtr.operatorEq]
  · simp only [SharedPtr.operatorEq]
    exact Bool.beq_comm
  · simp [SharedPtr.operatorEq, SharedPtr.Get]

/-! ## Observer pointers of the handles -/

/-- C17. The scenario for a pointee type without `EnableSharedFromThis`, started in any
heap `m`: `a = MakeShared<T>()` (`UseCount()` is `1`), `b(a)` (`2`), `a.Reset()` (`1`, the
pointee alive), `w(b)` (weak counter `1`), `b.Reset()` (strong counter `0`, `DeleteT` run
once, pointee destroyed, block not freed), `w.Lock()` (a null handle, nothing changes), and
the destructor of `w` (block freed, still one `DeleteT` run). -/
theorem C17_scenario_trace (m : Mem) :
    ∃ m1 m2 m3 m4 m5 m7,
      SharedPtr.MakeShared false m
        = Except.ok (⟨m.objs.length + 1, some m.blocks.length⟩, m1) ∧
      SharedPtr.UseCount ⟨m.objs.length + 1, some m.blocks.length⟩ m1 = Except.ok 1 ∧
      SharedPtr.copy false ⟨m.objs.length + 1, some m.blocks.length⟩ m1
        = Except.ok (⟨m.objs.length + 1, some m.blocks.length⟩, m2) ∧
      SharedPtr.UseCount ⟨m.objs.length + 1, some m.blocks.length⟩ m2 = Except.ok 2 ∧
      SharedPtr.Reset false ⟨m.objs.length + 1, some m.blocks.length⟩ m2
        = Except.ok (SharedPtr.default, m3) ∧
      SharedPtr.UseCount ⟨m.objs.length + 1, some m.blocks.length⟩ m3 = Except.ok 1 ∧
      m3.obj (m.objs.length + 1) = Except.ok ⟨WeakPtr.default, false⟩ ∧
      m3.blocks[m.blocks.length]?
        = some ⟨⟨0, 1⟩, BlockKind.holder (m.objs.length + 1), false, 0⟩ ∧
      WeakPtr.ofShared ⟨m.objs.length + 1, some m.blocks.length⟩ m3
        = Except.ok (⟨m.objs.length + 1, some m.blocks.length⟩, m4) ∧
      m4.blocks[m.blocks.length]?
        = some ⟨⟨1, 1⟩, BlockKind.holder (m.objs.length + 1), false, 0⟩ ∧
      SharedPtr.Reset false ⟨m.objs.length + 1, some m.blocks.length⟩ m4
        = Except.ok (SharedPtr.default, m5) ∧
      m5.blocks[m.blocks.length]?
        = some ⟨⟨1, 0⟩, BlockKind.holder (m.objs.length + 1), false, 1⟩ ∧
      m5.objs[m.objs.length]? = some ⟨WeakPtr.default, true⟩ ∧
      WeakPtr.Lock ⟨m.objs.length + 1, some m.blocks.length⟩ m5
        = Except.ok (SharedPtr.default, m5) ∧
      SharedPtr.default.Get = 0 ∧ SharedPtr.default.toBool = false ∧
      WeakPtr.dtor ⟨m.objs.length + 1, some m.blocks.length⟩ m5 = Except.ok m7 ∧
      m7.blocks[m.blocks.length]?
        = some ⟨⟨1, 0⟩, BlockKind.holder (m.objs.length + 1), true, 1⟩ ∧
      m7.objs[m.objs.length]? = some ⟨WeakPtr.default, true⟩ := by
  refine ⟨⟨m.blocks ++ [⟨⟨0, 1⟩, BlockKind.holder (m.objs.length + 1), false, 0⟩],
      m.objs ++ [⟨WeakPtr.default, false⟩]⟩,
    ⟨m.blocks ++ [⟨⟨0, 2⟩, BlockKind.holder (m.objs.length + 1), false, 0⟩],
      m.objs ++ [⟨WeakPtr.default, false⟩]⟩,
    ⟨m.blocks ++ [⟨⟨0, 1⟩, BlockKind.holder (m.objs.length + 1), false, 0⟩],
      m.objs ++ [⟨WeakPtr.default, false⟩]⟩,
    ⟨m.blocks ++ [⟨⟨1, 1⟩, BlockKind.holder (m.objs.length + 1), false, 0⟩],
      m.objs ++ [⟨WeakPtr.default, false⟩]⟩,
    ⟨m.blocks ++ [⟨⟨1, 0⟩, BlockKind.holder (m.objs.length + 1), false, 1⟩],
      m.objs ++ [⟨WeakPtr.default, true⟩]⟩,
    ⟨m.blocks ++ [⟨⟨1, 0⟩, BlockKind.holder (m.objs.length + 1), true, 1⟩],
      m.objs ++ [⟨WeakPtr.default, true⟩]⟩,
    ?_, ?_, ?_, ?_, ?_, ?_, ?_, ?_, ?_, ?_, ?_, ?_, ?_, ?_, rfl, rfl, ?_, ?_, ?_⟩
  · simp [SharedPtr.MakeShared, Mem.newObj, Mem.alloc, SharedPtr.ofHolder, Mem.block,
      ControlBlockHolder.new, Block.pointee, ControlBlockBase.init,
      ControlBlockBase.AddReference, one_mod_SIZE, WeakPtr.default, bind, Except.bind, pure,
      Except.pure]
  · simp [SharedPtr.UseCount, Mem.block, ControlBlockBase.GetRefCounter, bind, Except.bind,
      pure, Except.pure]
  · simp [SharedPtr.copy, Mem.AddReference, Mem.block, Mem.setBlock,
      ControlBlockBase.AddReference, two_mod_SIZE, bind, Except.bind, pure, Except.pure]
  · simp [SharedPtr.UseCount, Mem.block, ControlBlockBase.GetRefCounter, bind, Except.bind,
      pure, Except.pure]
  · simp [SharedPtr.Reset, SharedPtr.TryToDeleteBlock, Mem.RemoveReference, Mem.block,
      Mem.setBlock, ControlBlockBase.RemoveReference, ControlBlockBase.GetRefCounter,
      ControlBlockBase.GetWeakRefCounter, bind, Except.bind, pure, Except.pure]
  · simp [SharedPtr.UseCount, Mem.block, ControlBlockBase.GetRefCounter, bind, Except.bind,
      pure, Except.pure]
  · simp [Mem.obj]
  · simp
  · simp [WeakPtr.ofShared, Mem.AddWeakRef, Mem.block, Mem.setBlock,
      ControlBlockBase.AddWeakRef, one_mod_SIZE, bind, Except.bind, pure, Except.pure]
  · simp
  · simp [SharedPtr.Reset, SharedPtr.TryToDeleteBlock, Mem.RemoveReference, Mem.block,
      Mem.setBlock, ControlBlockBase.RemoveReference, ControlBlockBase.GetRefCounter,
      ControlBlockBase.GetWeakRefCounter, Mem.DeleteT, Mem.destroyPointee, Mem.obj,
      Mem.setObj, bind, Except.bind, pure, Except.pure]
  · simp
  · simp
  · simp [WeakPtr.Lock, WeakPtr.Expired, Mem.block, ControlBlockBase.GetRefCounter, bind,
      Except.bind, pure, Except.pure]
  · simp [WeakPtr.dtor, WeakPtr.TryDeleteBlock, Mem.block, Mem.free, Mem.setBlock,
      ControlBlockBase.GetRefCounter, ControlBlockBase.GetWeakRefCounter, bind, Except.bind,
      pure, Except.pure]
  · simp
  · simp

/-! ## C18 -/

/-- Release of one of several strong references: the strong counter is decremented and
nothing else happens. -/
theorem SharedPtr.TryToDeleteBlock_dec {efst : Bool} {this : SharedPtr} {m : Mem} {b : Nat}
    {blk : Block} (hb : this.control_block_ = some b) (hblk : m.block b = Except.ok blk)
    (h2 : 1 < blk.base.ref_counter_) :
    this.TryToDeleteBlock efst m = Except.ok (m.setBlock b { blk with
      base := { weak_ref_counter_ := blk.base.weak_ref_counter_,
                ref_counter_ := blk.base.ref_counter_ - 1 } }) := by
  have h1 : ¬ (blk.base.ref_counter_ = 1) := by omega
  have h0 : ¬ (blk.base.ref_counter_ = 0) := by omega
  simp only [SharedPtr.TryToDeleteBlock, hb, hblk, bind, Except.bind,
    ControlBlockBase.GetWeakRefCounter, ControlBlockBase.GetRefCounter, h1, and_false,
    if_false, Mem.RemoveReference_eq hblk, ControlBlockBase.RemoveReference, h0]

/-- Copy assignment `a = b` between two handles that share one block with strong counter at
least `2`: the block is as before, counters included, and no pointee is touched. -/
theorem SharedPtr.copyAssign_shared {efst : Bool} {this other : SharedPtr} {m : Mem} {b : Nat}
    {blk : Block} (hb1 : this.control_block_ = some b) (hb2 : other.control_block_ = some b)
    (hblk : m.block b = Except.ok blk) (h2 : 1 < blk.base.ref_counter_)
    (hlt : blk.base.ref_counter_ < SIZE) :
    ∃ m1, SharedPtr.copyAssign efst this other m
        = Except.ok ({ ptr_ := other.ptr_, control_block_ := some b }, m1) ∧
      m1.block b = Except.ok blk ∧ m1.objs = m.objs ∧
      ∀ x, x ≠ b → m1.blocks[x]? = m.blocks[x]? := by
  obtain ⟨hget, hf⟩ := Mem.block_ok.mp hblk
  have hread := @Mem.block_setBlock m b blk { blk with
      base := { weak_ref_counter_ := blk.base.weak_ref_counter_,
                ref_counter_ := blk.base.ref_counter_ - 1 } } hget hf
  have hmod : (blk.base.ref_counter_ - 1 + 1) % SIZE = blk.base.ref_counter_ := by
    rw [Nat.sub_add_cancel (by omega), Nat.mod_eq_of_lt hlt]
  have hget1 : (m.setBlock b { blk with
      base := { weak_ref_counter_ := blk.base.weak_ref_counter_,
                ref_counter_ := blk.base.ref_counter_ - 1 } }).blocks[b]? = some { blk with
      base := { weak_ref_counter_ := blk.base.weak_ref_counter_,
                ref_counter_ := blk.base.ref_counter_ - 1 } } := by
    rw [Mem.getElem?_setBlock hget, if_pos rfl]
  refine ⟨(m.setBlock b { blk with
      base := { weak_ref_counter_ := blk.base.weak_ref_counter_,
                ref_counter_ := blk.base.ref_counter_ - 1 } }).setBlock b { blk with
      base := { weak_ref_counter_ := blk.base.weak_ref_counter_,
                ref_counter_ := blk.base.ref_counter_ } }, ?_, ?_, rfl, fun x hx => ?_⟩
  · simp only [SharedPtr.copyAssign, SharedPtr.TryToDeleteBlock_dec hb1 hblk h2, hb2,
      Mem.AddReference_eq hread, ControlBlockBase.AddReference, hmod, bind, Except.bind, pure,
      Except.pure]
  · exact Mem.block_setBlock hget1 hf
  · rw [Mem.getElem?_setBlock hget1, if_neg hx, Mem.getElem?_setBlock hget, if_neg hx]

/-- Copy assignment `a = b` after the release of the previous reference of `a`: the strong
counter of the block of `b` is incremented and `a` takes the pointers of `b`. -/
theorem SharedPtr.copyAssign_other {efst : Bool} {this other : SharedPtr} {m m0 : Mem}
    {c : Nat} {blk : Block} (hrel : this.TryToDeleteBlock efst m = Except.ok m0)
    (hc : other.control_block_ = some c) (hblk : m0.block c = Except.ok blk)
    (hlt : blk.base.ref_counter_ + 1 < SIZE) :
    SharedPtr.copyAssign efst this other m
      = Except.ok ({ ptr_ := other.ptr_, control_block_ := some c },
          m0.setBlock c { blk with
            base := { weak_ref_counter_ := blk.base.weak_ref_counter_,
                      ref_counter_ := blk.base.ref_counter_ + 1 } }) := by
  simp only [SharedPtr.copyAssign, hrel, hc, Mem.AddReference_eq hblk,
    ControlBlockBase.AddReference, Nat.mod_eq_of_lt hlt, bind, Except.bind, pure, Except.pure]

/-- Self-assignment `a = a` changes nothing. -/
theorem step_copyAssign_self (efst : Bool) (s : State) (i : Nat) (h : SharedPtr)
    (hi : s.shared[i]? = some (some h)) : step efst (Op.sCopyAssign i i) s = Except.ok s := by
  simp only [step, State.getShared_ok.mpr hi, bind, Except.bind, pure, Except.pure, if_true]

/-- C19, the code at the failing input. After `SharedPtr<T> p(static_cast<T*>(nullptr))`
and `SharedPtr<T> q(p)` the two handles share one block, whose strong counter is `1`. The
assignment `q = p` releases `q` first: with weak `0` and strong `1` the block is freed,
although `p` holds it, and `control_block_->AddReference()` then writes to the freed
block. -/
theorem C19_copy_assign_on_null_pointer_block :
    (run false [Op.sFromRaw 0, Op.sCopy 0] State.init).map
        (fun s => (s.shared, s.mem.blocks.map (fun b => (b.base.ref_counter_, b.freed))))
      = Except.ok ([some ⟨0, some 0⟩, some ⟨0, some 0⟩], [(1, false)]) ∧
    (run false [Op.sFromRaw 0, Op.sCopy 0] State.init).bind
        (fun s => (SharedPtr.TryToDeleteBlock false ⟨0, some 0⟩ s.mem).map
          (fun m => m.blocks.map (fun b => (b.base.ref_counter_, b.freed))))
      = Except.ok [(1, true)] ∧
    run false [Op.sFromRaw 0, Op.sCopy 0, Op.sCopyAssign 1 0] State.init
      = Except.error Err.dangling := by
  refine ⟨?_, ?_, ?_⟩ <;> rfl

/-! ## C20 -/

/-- The operations of `SharedPtr` leave the `WeakPtr` variables as they are. -/
theorem step_weak_eq {efst : Bool} {op : Op} {s s1 : State} (hop : op.isSharedOp = true)
    (hok : step efst op s = Except.ok s1) : s1.weak = s.weak := by
  cases op with
  | newObj => cases hop
  | sDefault =>
    simp only [step, pure_ok] at hok
    subst hok
    rfl
  | sFromRaw ptr =>
    simp only [step, bind_ok, pure_ok] at hok
    obtain ⟨⟨h, m⟩, -, rfl⟩ := hok
    rfl
  | sMakeShared =>
    simp only [step, bind_ok, pure_ok] at hok
    obtain ⟨⟨h, m⟩, -, rfl⟩ := hok
    rfl
  | sCopy src =>
    simp only [step, bind_ok, pure_ok] at hok
    obtain ⟨other, -, ⟨h, m⟩, -, rfl⟩ := hok
    rfl
  | sMove src =>
    simp only [step, bind_ok, pure_ok] at hok
    obtain ⟨other, -, ⟨h, other1, m⟩, -, rfl⟩ := hok
    rfl
  | sAlias src ptr =>
    simp only [step, bind_ok, pure_ok] at hok
    obtain ⟨other, -, ⟨h, m⟩, -, rfl⟩ := hok
    rfl
  | sFromWeak src =>
    simp only [step, bind_ok] at hok
    obtain ⟨other, -, hok⟩ := hok
    cases hres : SharedPtr.ofWeak other s.mem with
    | error e =>
      rw [hres] at hok
      cases e <;> simp only [pure_ok, reduceCtorEq] at hok
      subst hok
      rfl
    | ok r =>
      rw [hres] at hok
      simp only [pure_ok] at hok
      subst hok
      rfl
  | sCopyAssign dst src =>
    simp only [step, bind_ok] at hok
    obtain ⟨this, -, other, -, hok⟩ := hok
    by_cases hds : dst = src
    · simp only [hds, if_true, pure_ok] at hok
      subst hok
      rfl
    · simp only [hds, if_false, bind_ok, pure_ok] at hok
      obtain ⟨⟨this1, m⟩, -, rfl⟩ := hok
      rfl
  | sMoveAssign dst src =>
    simp only [step, bind_ok] at hok
    obtain ⟨this, -, other, -, hok⟩ := hok
    by_cases hds : dst = src
    · simp only [hds, if_true, pure_ok] at hok
      subst hok
      rfl
    · simp only [hds, if_false, bind_ok, pure_ok] at hok
      obtain ⟨⟨this1, other1, m⟩, -, rfl⟩ := hok
      rfl
  | sReset h =>
    simp only [step, bind_ok, pure_ok] at hok
    obtain ⟨this, -, ⟨this1, m⟩, -, rfl⟩ := hok
    rfl
  | sResetPtr h ptr =>
    simp only [step, bind_ok, pure_ok] at hok
    obtain ⟨this, -, ⟨this1, m⟩, -, rfl⟩ := hok
    rfl
  | sSwap a b =>
    simp only [step, bind_ok, pure_ok, SharedPtr.Swap] at hok
    obtain ⟨this, -, other, -, rfl⟩ := hok
    rfl
  | sDestroy h =>
    simp only [step, bind_ok, pure_ok] at hok
    obtain ⟨this, -, m, -, rfl⟩ := hok
    rfl
  | wDefault => cases hop
  | wCopy src => cases hop
  | wMove src => cases hop
  | wFromShared src => cases hop
  | wCopyAssign dst src => cases hop
  | wMoveAssign dst src => cases hop
  | wReset h => cases hop
  | wSwap a b => cases hop
  | wDestroy h => cases hop
  | wLock h => cases hop

/-- C20. In a state `s` that a program reaches and in the state `s1` after one more
operation, the weak counter of every block that is not freed is the number of live
`WeakPtr` variables that reference it plus the number of `weak_this_` members of live
pointees that do; and for a pointee type without `EnableSharedFromThis` an operation of
`SharedPtr` leaves the weak counter of the block as it was. -/
theorem C20_weak_count_is_number_of_weak_handles (efst : Bool) (ops : List Op) (s : State)
    (hlen : 2 * ops.length + 4 < SIZE) (hrun : run efst ops State.init = Except.ok s)
    (op : Op) (s1 : State) (hstep : step efst op s = Except.ok s1)
    (b : Nat) (blk blk1 : Block)
    (hblk : s.mem.blocks[b]? = some blk) (hf : blk.freed = false)
    (hblk1 : s1.mem.blocks[b]? = some blk1) (hf1 : blk1.freed = false) :
    blk.base.weak_ref_counter_ = countWeak s.weak b + countThis efst s.mem.objs b ∧
    blk1.base.weak_ref_counter_ = countWeak s1.weak b + countThis efst s1.mem.objs b ∧
    (efst = false → op.isSharedOp = true →
      blk1.base.weak_ref_counter_ = blk.base.weak_ref_counter_) := by
  have hlen1 : 2 * ops.length + 2 < SIZE := by omega
  obtain ⟨hinv, hsz⟩ := reach_inv hlen1 hrun
  have hsize : s.size + 2 < SIZE := by omega
  obtain ⟨hinv1, -, -, -⟩ := step_inv hinv hsize hstep
  have h0 := hinv b
  rw [hblk] at h0
  have h1 := hinv1 b
  rw [hblk1] at h1
  have e0 := h0.1 hf
  have e1 := h1.1 hf1
  refine ⟨e0, e1, fun he hop => ?_⟩
  subst he
  rw [e0, e1, step_weak_eq hop hstep]
  simp [countThis]

/-- Witness of C20: `a = MakeShared`, `w(a)`, `v(w)`, `b(a)` and then `a.Reset()`; the weak
counter is `2`, the number of weak handles, before and after. -/
theorem C20_witness :
    (2 : Nat) = countWeak [some ⟨1, some 0⟩, some ⟨1, some 0⟩] 0
        + countThis false [⟨WeakPtr.default, false⟩] 0 ∧
    (2 : Nat) = countWeak [some ⟨1, some 0⟩, some ⟨1, some 0⟩] 0
        + countThis false [⟨WeakPtr.default, false⟩] 0 ∧
    (2 : Nat) = 2 :=
  have h := C20_weak_count_is_number_of_weak_handles false
    [Op.sMakeShared, Op.wFromShared 0, Op.wCopy 0, Op.sCopy 0]
    ⟨⟨[⟨⟨2, 2⟩, BlockKind.holder 1, false, 0⟩], [⟨WeakPtr.default, false⟩]⟩,
      [some ⟨1, some 0⟩, some ⟨1, some 0⟩], [some ⟨1, some 0⟩, some ⟨1, some 0⟩]⟩
    (by decide) (by rfl) (Op.sReset 0)
    ⟨⟨[⟨⟨2, 1⟩, BlockKind.holder 1, false, 0⟩], [⟨WeakPtr.default, false⟩]⟩,
      [some SharedPtr.default, some ⟨1, some 0⟩], [some ⟨1, some 0⟩, some ⟨1, some 0⟩]⟩
    (by rfl) 0 ⟨⟨2, 2⟩, BlockKind.holder 1, false, 0⟩ ⟨⟨2, 1⟩, BlockKind.holder 1, false, 0⟩
    (by rfl) (by rfl) (by rfl) (by rfl)
  ⟨h.1, h.2.1, h.2.2 rfl rfl⟩

/-! ## C21 -/

/-- In a state that a program reaches, the weak counter of a block that is not freed is
at most the number of weak handles and pointees, and the strong counter of a block that
manages a pointee is at most the number of `SharedPtr` variables: both are far below
`2 ^ 64 - 1`. -/
theorem reach_counters_bounded {efst : Bool} {ops : List Op} {s : State}
    (hlen : 2 * ops.length + 2 < SIZE) (hrun : run efst ops State.init = Except.ok s)
    {b : Nat} {blk : Block} (hblk : s.mem.blocks[b]? = some blk) (hf : blk.freed = false) :
    blk.base.weak_ref_counter_ ≤ 2 * ops.length ∧
      (blk.good = true → blk.base.ref_counter_ ≤ 2 * ops.length) := by
  obtain ⟨hinv, hsz⟩ := reach_inv hlen hrun
  have hs : s.size = s.shared.length + s.weak.length + s.mem.objs.length := rfl
  have h := hinv b
  rw [hblk] at h
  have hw := h.1 hf
  have h1 := countWeak_le s.weak b
  have h2 := countThis_le efst s.mem.objs b
  refine ⟨by omega, fun hg => ?_⟩
  have hr := (h.2.1 hg).ref_eq hf
  have h3 := countShared_le s.shared b
  omega

/-- C21, the code at the failing input. After `SharedPtr<T> p(static_cast<T*>(nullptr))`
the handle `p` is live and the strong counter of its block is `0`. The destructor of `p`
finds neither "weak `0` and strong `1`" nor "weak `> 0` and strong `1`" and executes
`RemoveReference()`: the strong counter wraps around to `2 ^ 64 - 1`. -/
theorem C21_strong_counter_wraps_around :
    (run false [Op.sFromRaw 0] State.init).map
        (fun s => (s.shared, s.mem.blocks.map (fun b => b.base.ref_counter_)))
      = Except.ok ([some ⟨0, some 0⟩], [0]) ∧
    (run false [Op.sFromRaw 0] State.init).bind
        (fun s => SharedPtr.dtor false ⟨0, some 0⟩ s.mem)
      = (run false [Op.sFromRaw 0] State.init).bind (fun s => s.mem.RemoveReference 0) ∧
    (run false [Op.sFromRaw 0, Op.sDestroy 0] State.init).map
        (fun s => s.mem.blocks.map (fun b => b.base.ref_counter_))
      = Except.ok [18446744073709551615] ∧
    (18446744073709551615 : Nat) = 2 ^ 64 - 1 := by
  refine ⟨?_, ?_, ?_, ?_⟩
  · rfl
  · rfl
  · rfl
  · norm_num

/-! ## C23 -/

/-- C23, the code at the failing input. For a pointee type that derives from
`EnableSharedFromThis`, the copy constructor and the move constructor execute
`other.ptr_->weak_this_ = *this` whatever `other` is: from a null `SharedPtr` that is a
read through the null pointer `other.ptr_`, in any heap. Without `EnableSharedFromThis`
both constructors return a null handle and leave the heap as it is. -/
theorem C23_copy_and_move_from_null (m : Mem) :
    SharedPtr.copy true SharedPtr.default m = Except.error Err.nullDeref ∧
    SharedPtr.move true SharedPtr.default m = Except.error Err.nullDeref ∧
    SharedPtr.copy false SharedPtr.default m = Except.ok (SharedPtr.default, m) ∧
    SharedPtr.move false SharedPtr.default m
      = Except.ok (SharedPtr.default, SharedPtr.default, m) ∧
    SharedPtr.default.Get = 0 ∧ SharedPtr.default.toBool = false ∧
    SharedPtr.UseCount SharedPtr.default m = Except.ok 0 := by
  refine ⟨?_, ?_, ?_, ?_, rfl, rfl, rfl⟩
  · simp [SharedPtr.copy, SharedPtr.default, Mem.assignWeakThis, Mem.obj, bind, Except.bind,
      pure, Except.pure]
  · simp [SharedPtr.move, SharedPtr.default, Mem.assignWeakThis, Mem.obj, bind, Except.bind]
  · simp [SharedPtr.copy, SharedPtr.default, bind, Except.bind, pure, Except.pure]
  · simp [SharedPtr.move, SharedPtr.default, bind, Except.bind, pure, Except.pure]

/-! ## C24 -/

/-- C24, the code at the failing input. The constructors `WeakPtr(const SharedPtr<T>&)` and
`WeakPtr(const SharedPtr<Y>&)` execute `control_block_->AddWeakRef()` without a test: from
a null `SharedPtr` that is a call through a null block pointer, in any heap. The copy
constructor of `WeakPtr` tests the block pointer first and copies an empty `WeakPtr`
without touching the heap; such an empty handle is expired and its `Lock()` is null. -/
theorem C24_weak_from_null_shared (m : Mem) :
    WeakPtr.ofShared SharedPtr.default m = Except.error Err.nullDeref ∧
    (∀ ptr, WeakPtr.ofShared ⟨ptr, none⟩ m = Except.error Err.nullDeref) ∧
    WeakPtr.copy WeakPtr.default m = Except.ok (WeakPtr.default, m) ∧
    WeakPtr.Expired WeakPtr.default m = Except.ok true ∧
    WeakPtr.Lock WeakPtr.default m = Except.ok (SharedPtr.default, m) := by
  refine ⟨rfl, fun ptr => rfl, rfl, rfl, rfl⟩

/-! ## C25 -/

theorem UState.get_ok {s : UState} {i : Nat} {h : UniquePtr} :
    s.get i = Except.ok h ↔ s.ptrs[i]? = some (some h) := by
  unfold UState.get
  split
  · next h1 heq => simp [heq]
  · next hne =>
    constructor
    · intro h1
      cases h1
    · intro h1
      exact absurd h1 (hne h)

theorem List.set_same_of_getElem? {α : Type} {l : List α} {i : Nat} {a : α}
    (h : l[i]? = some a) : l.set i a = l := by
  apply List.ext_getElem?
  intro j
  by_cases hij : i = j
  · subst hij
    rw [List.getElem?_set_self (List.getElem?_eq_some.mp h).1, h]
  · rw [List.getElem?_set_ne hij]

/-- C25. `Release()` returns the pointer held before the call, leaves `Get()` null and
calls no deleter; `Reset(p)` leaves `Get() == p` and calls the deleter once, with the
pointer held before, if that pointer is not null, and not at all otherwise; the move
assignment of a `UniquePtr` to itself leaves the handle and the deleter calls as they
are. -/
theorem C25_release_reset_self_move :
    (∀ this : UniquePtr, (this.Release).1 = this.Get ∧ (this.Release).2.Get = 0) ∧
    (∀ (s : UState) (i : Nat) (h : UniquePtr), s.ptrs[i]? = some (some h) →
      ustep (UOp.uRelease i) s = Except.ok
        { ptrs := s.ptrs.set i (some { first := 0, second := h.second }), log := s.log,
          released := s.released ++ [h.Get] }) ∧
    (∀ (this : UniquePtr) (p : Nat) (log : List DeleterCall),
      (this.Reset p log).1.Get = p ∧ (this.Reset p log).1.second = this.second ∧
      (this.Reset p log).2
        = if this.Get ≠ 0 then log ++ [{ deleter := this.second, ptr := this.Get }]
          else log) ∧
    (∀ (s : UState) (i : Nat) (h : UniquePtr), s.ptrs[i]? = some (some h) →
      ustep (UOp.uMoveAssign i i) s = Except.ok s) := by
  refine ⟨fun this => ⟨rfl, rfl⟩, fun s i h hi => ?_, fun this p log => ?_, fun s i h hi => ?_⟩
  · simp only [ustep, UState.get_ok.mpr hi, UniquePtr.Release, UState.set, UniquePtr.Get,
      bind, Except.bind, pure, Except.pure]
  · unfold UniquePtr.Reset UniquePtr.Get
    by_cases h0 : this.first = 0 <;> simp [h0]
  · have hlt : i < s.ptrs.length := (List.getElem?_eq_some.mp hi).1
    have hg : ∀ (x : UniquePtr) (lg : List DeleterCall) (rl : List Nat),
        UState.get { ptrs := s.ptrs.set i (some x), log := lg, released := rl } i
          = Except.ok x := fun x lg rl =>
      UState.get_ok.mpr (List.getElem?_set_self hlt)
    simp only [ustep, UState.get_ok.mpr hi, UniquePtr.Release, UState.set, UniquePtr.Reset,
      hg, bind, Except.bind, pure, Except.pure, ne_eq, not_true_eq_false,
      if_false, List.set_set]
    rw [List.set_same_of_getElem? hi]

/-- Witness of C25: the self move assignment and `Release()` on the variable `p` that
holds pointer `5` with deleter `7`. -/
theorem C25_witness :
    ustep (UOp.uMoveAssign 0 0) ⟨[some ⟨5, 7⟩], [], []⟩ = Except.ok ⟨[some ⟨5, 7⟩], [], []⟩ ∧
    ustep (UOp.uRelease 0) ⟨[some ⟨5, 7⟩], [], []⟩
      = Except.ok ⟨[some ⟨5, 7⟩].set 0 (some ⟨0, 7⟩), [], [] ++ [UniquePtr.Get ⟨5, 7⟩]⟩ :=
  ⟨C25_release_reset_self_move.2.2.2 ⟨[some ⟨5, 7⟩], [], []⟩ 0 ⟨5, 7⟩ (by rfl),
    C25_release_reset_self_move.2.1 ⟨[some ⟨5, 7⟩], [], []⟩ 0 ⟨5, 7⟩ (by rfl)⟩

/-! ## C26 -/

/-- C26, the code at the failing input. `UniquePtr<T, D> p;` holds a null pointer and
`p = nullptr` executes `GetSecond()(GetFirst())` without a test: the deleter is called with
the null pointer. The destructor and `Reset()` on the same handle test the pointer and call
nothing. -/
theorem C26_assign_nullptr_calls_deleter_with_null :
    (urun [UOp.uNew 0 7, UOp.uAssignNull 0] UState.init).map (fun s => (s.ptrs, s.log))
      = Except.ok ([some ⟨0, 7⟩], [⟨7, 0⟩]) ∧
    (urun [UOp.uNew 0 7, UOp.uReset 0 0] UState.init).map (fun s => (s.ptrs, s.log))
      = Except.ok ([some ⟨0, 7⟩], []) ∧
    (urun [UOp.uNew 0 7, UOp.uDestroy 0] UState.init).map (fun s => (s.ptrs, s.log))
      = Except.ok ([none], []) ∧
    (∀ (this : UniquePtr) (log : List DeleterCall),
      (this.assignNull log).2 = log ++ [{ deleter := this.second, ptr := this.Get }]) := by
  refine ⟨?_, ?_, ?_, fun this log => rfl⟩ <;> rfl

/-! ### What holds of the deleter calls -/

theorem held_push (l : List (Option UniquePtr)) (h : UniquePtr) (p : Nat) :
    (l ++ [some h]).countP (holdsPtr p)
      = l.countP (holdsPtr p) + (if h.first = p then 1 else 0) := by
  simp [List.countP_append, List.countP_cons, holdsPtr]

theorem held_set {l : List (Option UniquePtr)} {i : Nat} {h : UniquePtr}
    (hi : l[i]? = some (some h)) (h1 : UniquePtr) (p : Nat) :
    (l.set i (some h1)).countP (holdsPtr p) + (if h.first = p then 1 else 0)
      = l.countP (holdsPtr p) + (if h1.first = p then 1 else 0) := by
  have e := countP_set_some (holdsPtr p) l i (some h) (some h1) hi
  simpa [holdsPtr] using e

theorem held_unset {l : List (Option UniquePtr)} {i : Nat} {h : UniquePtr}
    (hi : l[i]? = some (some h)) (p : Nat) :
    (l.set i none).countP (holdsPtr p) + (if h.first = p then 1 else 0)
      = l.countP (holdsPtr p) := by
  have e := countP_set_some (holdsPtr p) l i (some h) none hi
  simpa [holdsPtr] using e

theorem deleted_push (log : List DeleterCall) (c : DeleterCall) (p : Nat) :
    (log ++ [c]).countP (fun c => c.ptr == p)
      = log.countP (fun c => c.ptr == p) + (if c.ptr = p then 1 else 0) := by
  simp [List.countP_append, List.countP_cons]

/-- The move assignment between two different variables, computed. -/
theorem ustep_moveAssign_ne {s : UState} {dst src : Nat} {this other : UniquePtr}
    (hne : dst ≠ src) (hd : s.ptrs[dst]? = some (some this))
    (hs : s.ptrs[src]? = some (some other)) :
    ustep (UOp.uMoveAssign dst src) s = Except.ok
      { ptrs := (s.ptrs.set src (some { first := 0, second := other.second })).set dst
          (some { first := other.first, second := other.second }),
        log := if this.first ≠ 0 then
            s.log ++ [{ deleter := this.second, ptr := this.first }] else s.log,
        released := s.released } := by
  have hdl : dst < s.ptrs.length := (List.getElem?_eq_some.mp hd).1
  have hsl : src < s.ptrs.length := (List.getElem?_eq_some.mp hs).1
  have g1 : ∀ (x : UniquePtr) (lg : List DeleterCall) (rl : List Nat),
      UState.get { ptrs := s.ptrs.set src (some x), log := lg, released := rl } dst
        = Except.ok this := fun x lg rl =>
    UState.get_ok.mpr (by
      show (s.ptrs.set src (some x))[dst]? = some (some this)
      rw [List.getElem?_set_ne (Ne.symm hne)]
      exact hd)
  have g2 : ∀ (x y : UniquePtr) (lg : List DeleterCall) (rl : List Nat),
      UState.get { ptrs := (s.ptrs.set src (some x)).set dst (some y), log := lg,
                   released := rl } src = Except.ok x := fun x y lg rl =>
    UState.get_ok.mpr (by
      show ((s.ptrs.set src (some x)).set dst (some y))[src]? = some (some x)
      rw [List.getElem?_set_ne hne]
      exact List.getElem?_set_self hsl)
  have g3 : ∀ (x y : UniquePtr) (lg : List DeleterCall) (rl : List Nat),
      UState.get { ptrs := (s.ptrs.set src (some x)).set dst (some y), log := lg,
                   released := rl } dst = Except.ok y := fun x y lg rl =>
    UState.get_ok.mpr (by
      show ((s.ptrs.set src (some x)).set dst (some y))[dst]? = some (some y)
      exact List.getElem?_set_self (by simpa using hdl))
  by_cases h0 : this.first = 0
  · simp only [ustep, UState.get_ok.mpr hs, UniquePtr.Release, UState.set, UniquePtr.Reset,
      g1, g2, g3, h0, bind, Except.bind, pure, Except.pure, ne_eq, not_true_eq_false,
      if_false, List.set_set]
  · simp only [ustep, UState.get_ok.mpr hs, UniquePtr.Release, UState.set, UniquePtr.Reset,
      g1, g2, g3, h0, bind, Except.bind, pure, Except.pure, ne_eq, not_false_eq_true,
      if_true, List.set_set]

/-- The move assignment of a variable to itself changes nothing. -/
theorem ustep_moveAssign_self {s : UState} {i : Nat} {h : UniquePtr}
    (hi : s.ptrs[i]? = some (some h)) : ustep (UOp.uMoveAssign i i) s = Except.ok s := by
  have hlt : i < s.ptrs.length := (List.getElem?_eq_some.mp hi).1
  have hg : ∀ (x : UniquePtr) (lg : List DeleterCall) (rl : List Nat),
      UState.get { ptrs := s.ptrs.set i (some x), log := lg, released := rl } i
        = Except.ok x := fun x lg rl =>
    UState.get_ok.mpr (List.getElem?_set_self hlt)
  simp only [ustep, UState.get_ok.mpr hi, UniquePtr.Release, UState.set, UniquePtr.Reset,
    hg, bind, Except.bind, pure, Except.pure, ne_eq, not_true_eq_false,
    if_false, List.set_set]
  rw [List.set_same_of_getElem? hi]

/-- The ledger of one operation, for a pointer `p` that is not null: the deleter calls with
`p`, the variables that hold `p` and the `Release()` results `p` together grow by the number
of times the operation hands `p` to a `UniquePtr`. -/
theorem ustep_ledger {op : UOp} {s s1 : UState} {p : Nat} (hp : p ≠ 0)
    (hok : ustep op s = Except.ok s1) :
    s1.deleted p + s1.held p + s1.givenUp p
      = s.deleted p + s.held p + s.givenUp p + op.acquired p := by
  have hp0 : ¬ (0 = p) := fun h => hp h.symm
  cases op with
  | uNew q d =>
    simp only [ustep, pure_ok] at hok
    subst hok
    simp only [UState.deleted, UState.held, UState.givenUp, UOp.acquired, held_push,
      UniquePtr.ofPtr]
    omega
  | uMove src =>
    simp only [ustep, bind_ok, pure_ok, UState.get_ok, UniquePtr.move,
      UniquePtr.Release] at hok
    obtain ⟨other, ho, rfl⟩ := hok
    have e := held_set ho { first := 0, second := other.second } p
    simp only [hp0, if_false] at e
    simp only [UState.deleted, UState.held, UState.givenUp, UOp.acquired, held_push]
    omega
  | uMoveAssign dst src =>
    have hok1 := hok
    simp only [ustep, bind_ok, UState.get_ok] at hok1
    obtain ⟨other, ho, hrest⟩ := hok1
    by_cases hne : dst = src
    · subst hne
      rw [ustep_moveAssign_self ho] at hok
      cases hok
      simp [UOp.acquired]
    · have hd : ∃ this, s.ptrs[dst]? = some (some this) := by
        simp only [UniquePtr.Release, UState.set] at hrest
        obtain ⟨this, ht, -⟩ := hrest
        rw [List.getElem?_set_ne (Ne.symm hne)] at ht
        exact ⟨this, ht⟩
      obtain ⟨this, ht⟩ := hd
      rw [ustep_moveAssign_ne hne ht ho] at hok
      cases hok
      have e1 := held_set ho { first := 0, second := other.second } p
      have ht1 : (s.ptrs.set src (some ({ first := 0, second := other.second } : UniquePtr)))[dst]?
          = some (some this) := by
        rw [List.getElem?_set_ne (Ne.symm hne)]
        exact ht
      have e2 := held_set ht1 { first := other.first, second := other.second } p
      dsimp only at e2
      simp only [hp0, if_false] at e1
      simp only [UState.deleted, UState.held, UState.givenUp, UOp.acquired]
      by_cases h0 : this.first = 0
      · have hz : ¬ (this.first = p) := fun h => hp (h.symm.trans h0)
        simp only [h0, ne_eq, not_true_eq_false, if_false]
        simp only [hz, if_false] at e2
        omega
      · simp only [h0, ne_eq, not_false_eq_true, if_true, deleted_push]
        omega
  | uAssignNull h =>
    simp only [ustep, bind_ok, pure_ok, UState.get_ok, UniquePtr.assignNull,
      UState.set] at hok
    obtain ⟨this, ht, rfl⟩ := hok
    have e := held_set ht { first := 0, second := this.second } p
    simp only [hp0, if_false] at e
    simp only [UState.deleted, UState.held, UState.givenUp, UOp.acquired, deleted_push]
    omega
  | uDestroy h =>
    simp only [ustep, bind_ok, pure_ok, UState.get_ok, UniquePtr.dtor] at hok
    obtain ⟨this, ht, rfl⟩ := hok
    have e := held_unset ht p
    simp only [UState.deleted, UState.held, UState.givenUp, UOp.acquired]
    by_cases h0 : this.first = 0
    · have hz : ¬ (this.first = p) := fun h => hp (h.symm.trans h0)
      simp only [h0, ne_eq, not_true_eq_false, if_false]
      simp only [hz, if_false] at e
      omega
    · simp only [h0, ne_eq, not_false_eq_true, if_true, deleted_push]
      omega
  | uRelease h =>
    simp only [ustep, bind_ok, pure_ok, UState.get_ok, UniquePtr.Release,
      UState.set] at hok
    obtain ⟨this, ht, rfl⟩ := hok
    have e := held_set ht { first := 0, second := this.second } p
    simp only [hp0, if_false] at e
    simp only [UState.deleted, UState.held, UState.givenUp, UOp.acquired,
      List.count_append, List.count_singleton, beq_iff_eq]
    omega
  | uReset h q =>
    simp only [ustep, bind_ok, pure_ok, UState.get_ok, UniquePtr.Reset, UState.set] at hok
    obtain ⟨this, ht, rfl⟩ := hok
    have e := held_set ht { first := q, second := this.second } p
    dsimp only at e
    simp only [UState.deleted, UState.held, UState.givenUp, UOp.acquired]
    by_cases h0 : this.first = 0
    · have hz : ¬ (this.first = p) := fun h => hp (h.symm.trans h0)
      simp only [h0, ne_eq, not_true_eq_false, if_false]
      simp only [hz, if_false] at e
      omega
    · simp only [h0, ne_eq, not_false_eq_true, if_true, deleted_push]
      omega
  | uSwap a b =>
    simp only [ustep, bind_ok, pure_ok, UState.get_ok, UniquePtr.Swap] at hok
    obtain ⟨this, ht, other, ho, rfl⟩ := hok
    have halt : a < s.ptrs.length := (List.getElem?_eq_some.mp ht).1
    have hsrc : (s.ptrs.set a (some other))[b]? = some (some other) := by
      rw [getElem?_set_some ho halt]
      split <;> rfl
    have e1 := held_set ht other p
    have e2 := held_set hsrc this p
    simp only [UState.deleted, UState.held, UState.givenUp, UOp.acquired]
    omega

theorem urun_cons_ok {op : UOp} {ops : List UOp} {s s2 : UState} :
    urun (op :: ops) s = Except.ok s2 ↔
      ∃ s1, ustep op s = Except.ok s1 ∧ urun ops s1 = Except.ok s2 := by
  simp only [urun, bind_ok]

/-- The ledger of a program, for a pointer `p` that is not null: deleter calls with `p`,
variables that hold `p` and `Release()` results `p` together are the number of times the
program has handed `p` to a `UniquePtr`. In particular, once no variable holds `p`, the
deleter has been called with `p` once for every time `p` was handed over and not returned by
`Release()`. -/
theorem urun_ledger {p : Nat} (hp : p ≠ 0) : ∀ {ops : List UOp} {s s1 : UState},
    urun ops s = Except.ok s1 →
    s1.deleted p + s1.held p + s1.givenUp p
      = s.deleted p + s.held p + s.givenUp p + (ops.map (fun op => op.acquired p)).sum
  | [], s, s1, hok => by
    simp only [urun, pure_ok] at hok
    subst hok
    simp
  | op :: ops, s, s1, hok => by
    obtain ⟨s0, hstep, hrest⟩ := urun_cons_ok.mp hok
    have h1 := ustep_ledger hp hstep
    have h2 := urun_ledger hp hrest
    simp only [List.map_cons, List.sum_cons]
    omega

/-- Every operation but `operator=(std::nullptr_t)` calls the deleter with pointers that are
not null only. -/
theorem ustep_nonnull {op : UOp} {s s1 : UState} (hop : op.isAssignNull = false)
    (hlog : ∀ c ∈ s.log, c.ptr ≠ 0) (hok : ustep op s = Except.ok s1) :
    ∀ c ∈ s1.log, c.ptr ≠ 0 := by
  have push : ∀ (d q : Nat), q ≠ 0 →
      ∀ c ∈ s.log ++ [({ deleter := d, ptr := q } : DeleterCall)], c.ptr ≠ 0 := by
    intro d q hq c hc
    rcases List.mem_append.mp hc with h | h
    · exact hlog c h
    · simp only [List.mem_singleton] at h
      rw [h]
      exact hq
  cases op with
  | uNew q d =>
    simp only [ustep, pure_ok] at hok
    subst hok
    exact hlog
  | uMove src =>
    simp only [ustep, bind_ok, pure_ok, UState.get_ok, UniquePtr.move,
      UniquePtr.Release] at hok
    obtain ⟨other, ho, rfl⟩ := hok
    exact hlog
  | uMoveAssign dst src =>
    have hok1 := hok
    simp only [ustep, bind_ok, UState.get_ok] at hok1
    obtain ⟨other, ho, hrest⟩ := hok1
    by_cases hne : dst = src
    · subst hne
      rw [ustep_moveAssign_self ho] at hok
      cases hok
      exact hlog
    · have hd : ∃ this, s.ptrs[dst]? = some (some this) := by
        simp only [UniquePtr.Release, UState.set] at hrest
        obtain ⟨this, ht, -⟩ := hrest
        rw [List.getElem?_set_ne (Ne.symm hne)] at ht
        exact ⟨this, ht⟩
      obtain ⟨this, ht⟩ := hd
      rw [ustep_moveAssign_ne hne ht ho] at hok
      cases hok
      by_cases h0 : this.first = 0
      · simp only [h0, ne_eq, not_true_eq_false, if_false]
        exact hlog
      · simp only [h0, ne_eq, not_false_eq_true, if_true]
        exact push _ _ h0
  | uAssignNull h => cases hop
  | uDestroy h =>
    simp only [ustep, bind_ok, pure_ok, UState.get_ok, UniquePtr.dtor] at hok
    obtain ⟨this, ht, rfl⟩ := hok
    by_cases h0 : this.first = 0
    · simp only [h0, ne_eq, not_true_eq_false, if_false]
      exact hlog
    · simp only [h0, ne_eq, not_false_eq_true, if_true]
      exact push _ _ h0
  | uRelease h =>
    simp only [ustep, bind_ok, pure_ok, UState.get_ok, UniquePtr.Release,
      UState.set] at hok
    obtain ⟨this, ht, rfl⟩ := hok
    exact hlog
  | uReset h q =>
    simp only [ustep, bind_ok, pure_ok, UState.get_ok, UniquePtr.Reset, UState.set] at hok
    obtain ⟨this, ht, rfl⟩ := hok
    by_cases h0 : this.first = 0
    · simp only [h0, ne_eq, not_true_eq_false, if_false]
      exact hlog
    · simp only [h0, ne_eq, not_false_eq_true, if_true]
      exact push _ _ h0
  | uSwap a b =>
    simp only [ustep, bind_ok, pure_ok, UState.get_ok, UniquePtr.Swap] at hok
    obtain ⟨this, ht, other, ho, rfl⟩ := hok
    exact hlog

/-- In a program without `operator=(std::nullptr_t)` the deleter is never called with a null
pointer. -/
theorem urun_nonnull : ∀ {ops : List UOp} {s s1 : UState},
    (∀ op ∈ ops, op.isAssignNull = false) → (∀ c ∈ s.log, c.ptr ≠ 0) →
    urun ops s = Except.ok s1 → ∀ c ∈ s1.log, c.ptr ≠ 0
  | [], s, s1, _, hlog, hok => by
    simp only [urun, pure_ok] at hok
    subst hok
    exact hlog
  | op :: ops, s, s1, hna, hlog, hok => by
    obtain ⟨s0, hstep, hrest⟩ := urun_cons_ok.mp hok
    exact urun_nonnull (fun o ho => hna o (List.mem_cons_of_mem _ ho))
      (ustep_nonnull (hna op (List.mem_cons_self _ _)) hlog hstep) hrest

/-! ## C22: the two `SharedPtr` classes side by side -/

theorem Block.erase_freed (blk : Block) : blk.erase.freed = blk.freed := rfl

theorem Mem.erase_getElem? (m : Mem) (b : Nat) :
    m.erase.blocks[b]? = (m.blocks[b]?).map Block.erase := by
  simp [Mem.erase]

theorem Mem.erase_block (m : Mem) (b : Nat) :
    m.erase.block b = (m.block b).map Block.erase := by
  unfold Mem.block
  rw [Mem.erase_getElem?]
  cases h : m.blocks[b]? with
  | none => rfl
  | some blk =>
    simp only [Option.map_some']
    cases hf : blk.freed <;> simp [Block.erase, hf, Except.map]

theorem Mem.erase_setBlock (m : Mem) (b : Nat) (blk : Block) :
    (m.setBlock b blk).erase = m.erase.setBlock b blk.erase := by
  simp [Mem.erase, Mem.setBlock, List.map_set]

theorem Mem.erase_obj (m : Mem) (p : Nat) : m.erase.obj p = m.obj p := rfl

theorem Mem.erase_setObj (m : Mem) (p : Nat) (o : Pointee) :
    (m.setObj p o).erase = m.erase.setObj p o := rfl

theorem Mem.erase_alloc (m : Mem) (blk : Block) :
    m.erase.alloc blk.erase = ((m.alloc blk).1, (m.alloc blk).2.erase) := by
  simp [Mem.erase, Mem.alloc]

theorem Mem.erase_newObj (m : Mem) : m.erase.newObj = (m.newObj.1, m.newObj.2.erase) := rfl

theorem Mem.erase_AddReference (m : Mem) (b : Nat) :
    m.erase.AddReference b = (m.AddReference b).map Mem.erase := by
  unfold Mem.AddReference
  rw [Mem.erase_block]
  cases h : m.block b <;>
    simp [bind, Except.bind, pure, Except.pure, Except.map, Mem.erase_setBlock, Block.erase]

theorem Mem.erase_RemoveReference (m : Mem) (b : Nat) :
    m.erase.RemoveReference b = (m.RemoveReference b).map Mem.erase := by
  unfold Mem.RemoveReference
  rw [Mem.erase_block]
  cases h : m.block b <;>
    simp [bind, Except.bind, pure, Except.pure, Except.map, Mem.erase_setBlock, Block.erase]

theorem Mem.erase_free (m : Mem) (b : Nat) :
    m.erase.free b = (m.free b).map Mem.erase := by
  unfold Mem.free
  rw [Mem.erase_block]
  cases h : m.block b <;>
    simp [bind, Except.bind, pure, Except.pure, Except.map, Mem.erase_setBlock, Block.erase]

theorem Standalone.destroyPointee_erase (m : Mem) (p : Nat) :
    Standalone.destroyPointee m.erase p = (m.destroyPointee false p).map Mem.erase := by
  unfold Standalone.destroyPointee Mem.destroyPointee
  rw [Mem.erase_obj]
  cases h : m.obj p <;>
    simp [bind, Except.bind, pure, Except.pure, Except.map, Mem.erase_setObj]

/-- A call of `DeleteT` is not seen in the erased heap, apart from what it does to the
pointee. -/
theorem Mem.erase_setBlock_calls {m : Mem} {b : Nat} {blk : Block} (n : Nat)
    (hb : m.blocks[b]? = some blk) :
    (m.setBlock b { blk with deleteT_calls := n }).erase = m.erase := by
  rw [Mem.erase_setBlock]
  have h1 : m.erase.blocks[b]? = some blk.erase := by
    rw [Mem.erase_getElem?, hb]
    rfl
  have h2 : ({ blk with deleteT_calls := n } : Block).erase = blk.erase := rfl
  rw [h2]
  simp only [Mem.setBlock, List.set_same_of_getElem? h1]

theorem Mem.map_bind_erase {x : Except Err Mem} {f : Mem → Except Err Mem}
    {g : Mem → Except Err Mem} (h : ∀ m1, g m1.erase = (f m1).map Mem.erase) :
    (x.map Mem.erase).bind g = (x.bind f).map Mem.erase := by
  cases x with
  | error e => rfl
  | ok m1 => exact h m1

/-- The release of a `SharedPtr` in `shared/shared.h` and in `shared-from-this/shared.h` do
the same to what can be observed of the heap, for a pointee without `weak_this_` and a
block whose weak counter is `0`. -/
theorem Standalone.TryToDeleteBlock_erase {this : SharedPtr} {m : Mem}
    (hw : ∀ b blk, this.control_block_ = some b → m.block b = Except.ok blk →
      blk.base.weak_ref_counter_ = 0) :
    Standalone.TryToDeleteBlock this m.erase
      = (SharedPtr.TryToDeleteBlock false this m).map Mem.erase := by
  unfold Standalone.TryToDeleteBlock SharedPtr.TryToDeleteBlock
  cases hc : this.control_block_ with
  | none => rfl
  | some b =>
    simp only []
    rw [Mem.erase_block]
    cases hblk : m.block b with
    | error e => rfl
    | ok blk =>
      have hz := hw b blk hc hblk
      obtain ⟨hget, hf⟩ := Mem.block_ok.mp hblk
      have hnz : ¬ (0 < blk.base.weak_ref_counter_) := by omega
      by_cases h1 : blk.base.ref_counter_ = 1
      · simp only [Except.map, bind, Except.bind, ControlBlockBase.GetWeakRefCounter,
          ControlBlockBase.GetRefCounter, Block.erase, hz, h1, and_self, if_true]
        unfold Standalone.deleteBlock Mem.DeleteT
        rw [Mem.erase_block, hblk]
        simp only [Except.map, bind, Except.bind, Block.erase]
        have he := fun n => @Mem.erase_setBlock_calls m b blk n hget
        have hfree : ∀ m1 : Mem, m1.erase.free b = (m1.free b).map Mem.erase :=
          fun m1 => Mem.erase_free m1 b
        have hdes : ∀ p, (Standalone.destroyPointee m.erase p).bind (fun m1 => m1.free b)
            = (((m.setBlock b { blk with deleteT_calls := blk.deleteT_calls + 1
                }).destroyPointee false p).bind (fun m1 => m1.free b)).map Mem.erase := by
          intro p
          rw [← he (blk.deleteT_calls + 1), Standalone.destroyPointee_erase]
          exact Mem.map_bind_erase hfree
        cases hk : blk.kind with
        | pointer p =>
          by_cases hp : p = 0
          · simp only [hp, if_true, pure, Except.pure]
            have := hfree (m.setBlock b { blk with deleteT_calls := blk.deleteT_calls + 1 })
            rw [he] at this
            simp only [hk, hp] at this
            simpa [Except.map] using this
          · simp only [hp, if_false]
            have := hdes p
            simp only [hk] at this
            simpa [Except.map, Except.bind] using this
        | holder p =>
          simp only []
          have := hdes p
          simp only [hk] at this
          simpa [Except.map, Except.bind] using this
      · simp only [Except.map, bind, Except.bind, ControlBlockBase.GetWeakRefCounter,
          ControlBlockBase.GetRefCounter, Block.erase, hz, h1, and_false, if_false,
          gt_iff_lt, lt_self_iff_false, false_and]
        have := Mem.erase_RemoveReference m b
        simpa [Except.map] using this

theorem Standalone.ofRaw_erase (ptr : Nat) (m : Mem) :
    Standalone.ofRaw ptr m.erase
      = (SharedPtr.ofRaw false ptr m).map (fun r => (r.1, r.2.erase)) := by
  have h := Mem.erase_alloc m (ControlBlockPointer.new ptr)
  have h1 : (ControlBlockPointer.new ptr).erase = ControlBlockPointer.new ptr := rfl
  rw [h1] at h
  simp [Standalone.ofRaw, SharedPtr.ofRaw, h, bind, Except.bind, pure, Except.pure,
    Except.map]

theorem Standalone.MakeShared_erase (m : Mem) :
    Standalone.MakeShared true m.erase
      = (SharedPtr.MakeShared false m).map (fun r => (r.1, r.2.erase)) := by
  have h := Mem.erase_alloc m.newObj.2 (ControlBlockHolder.new m.newObj.1)
  have h1 : (ControlBlockHolder.new m.newObj.1).erase = ControlBlockHolder.new m.newObj.1 := rfl
  rw [h1] at h
  unfold Standalone.MakeShared SharedPtr.MakeShared Standalone.ofHolder SharedPtr.ofHolder
  simp only [if_true, Mem.erase_newObj, h, Mem.erase_block]
  cases hb : (m.newObj.2.alloc (ControlBlockHolder.new m.newObj.1)).2.block
      (m.newObj.2.alloc (ControlBlockHolder.new m.newObj.1)).1 <;>
    simp [bind, Except.bind, pure, Except.pure, Except.map, Block.erase, Block.pointee]

theorem Standalone.copy_erase (other : SharedPtr) (m : Mem) :
    Standalone.copy other m.erase
      = (SharedPtr.copy false other m).map (fun r => (r.1, r.2.erase)) := by
  unfold Standalone.copy SharedPtr.copy
  cases hc : other.control_block_ with
  | none => simp [bind, Except.bind, pure, Except.pure, Except.map]
  | some b =>
    simp only [Mem.erase_AddReference]
    cases h : m.AddReference b <;>
      simp [bind, Except.bind, pure, Except.pure, Except.map]

theorem Standalone.aliasing_erase (other : SharedPtr) (ptr : Nat) (m : Mem) :
    Standalone.aliasing other ptr m.erase
      = (SharedPtr.aliasing other ptr m).map (fun r => (r.1, r.2.erase)) := by
  unfold Standalone.aliasing SharedPtr.aliasing
  cases hc : other.control_block_ with
  | none => simp [bind, Except.bind, pure, Except.pure, Except.map]
  | some b =>
    simp only [Mem.erase_AddReference]
    cases h : m.AddReference b <;>
      simp [bind, Except.bind, pure, Except.pure, Except.map]

theorem Standalone.move_eq (other : SharedPtr) (m : Mem) :
    SharedPtr.move false other m
      = Except.ok ((Standalone.move other).1, (Standalone.move other).2, m) := by
  simp [SharedPtr.move, Standalone.move, bind, Except.bind, pure, Except.pure]

theorem Standalone.copyAssign_erase {this : SharedPtr} (other : SharedPtr) {m : Mem}
    (hw : ∀ b blk, this.control_block_ = some b → m.block b = Except.ok blk →
      blk.base.weak_ref_counter_ = 0) :
    Standalone.copyAssign this other m.erase
      = (SharedPtr.copyAssign false this other m).map (fun r => (r.1, r.2.erase)) := by
  unfold Standalone.copyAssign SharedPtr.copyAssign
  rw [Standalone.TryToDeleteBlock_erase hw]
  cases h : SharedPtr.TryToDeleteBlock false this m with
  | error e => rfl
  | ok m1 =>
    cases hc : other.control_block_ with
    | none => simp [bind, Except.bind, pure, Except.pure, Except.map]
    | some b =>
      simp only [Except.map, bind, Except.bind, Mem.erase_AddReference]
      cases h2 : m1.AddReference b <;> simp [pure, Except.pure, Except.map]

theorem Standalone.moveAssign_erase {this : SharedPtr} (other : SharedPtr) {m : Mem}
    (hw : ∀ b blk, this.control_block_ = some b → m.block b = Except.ok blk →
      blk.base.weak_ref_counter_ = 0) :
    Standalone.moveAssign this other m.erase
      = (SharedPtr.moveAssign false this other m).map
          (fun r => (r.1, r.2.1, r.2.2.erase)) := by
  unfold Standalone.moveAssign SharedPtr.moveAssign
  rw [Standalone.TryToDeleteBlock_erase hw]
  cases h : SharedPtr.TryToDeleteBlock false this m <;>
    simp [bind, Except.bind, pure, Except.pure, Except.map]

theorem Standalone.Reset_erase {this : SharedPtr} {m : Mem}
    (hw : ∀ b blk, this.control_block_ = some b → m.block b = Except.ok blk →
      blk.base.weak_ref_counter_ = 0) :
    Standalone.Reset this m.erase
      = (SharedPtr.Reset false this m).map (fun r => (r.1, r.2.erase)) := by
  unfold Standalone.Reset SharedPtr.Reset
  rw [Standalone.TryToDeleteBlock_erase hw]
  cases h : SharedPtr.TryToDeleteBlock false this m <;>
    simp [bind, Except.bind, pure, Except.pure, Except.map]

theorem Standalone.ResetPtr_erase {this : SharedPtr} (ptr : Nat) {m : Mem}
    (hw : ∀ b blk, this.control_block_ = some b → m.block b = Except.ok blk →
      blk.base.weak_ref_counter_ = 0) :
    Standalone.ResetPtr this ptr m.erase
      = (SharedPtr.ResetPtr false this ptr m).map (fun r => (r.1, r.2.erase)) := by
  unfold Standalone.ResetPtr SharedPtr.ResetPtr
  rw [Standalone.TryToDeleteBlock_erase hw]
  cases h : SharedPtr.TryToDeleteBlock false this m with
  | error e => rfl
  | ok m1 =>
    have h2 := Mem.erase_alloc m1 (ControlBlockPointer.new ptr)
    have h1 : (ControlBlockPointer.new ptr).erase = ControlBlockPointer.new ptr := rfl
    rw [h1] at h2
    simp [bind, Except.bind, pure, Except.pure, Except.map, h2]

theorem State.erase_getShared (s : State) (i : Nat) : s.erase.getShared i = s.getShared i :=
  rfl

/-- One operation in `shared/shared.h` (with `MakeShared` called with arguments) and in
`shared-from-this/shared.h` (pointee without `EnableSharedFromThis`), from states that
agree in what can be observed and in which every block has weak counter `0`: both fail, in
the same way, or both succeed and the new states agree in what can be observed. -/
theorem step_erase_standalone {op : Op} {s : State} (hop : op.isStandalone = true)
    (hw : ∀ b blk, s.mem.block b = Except.ok blk → blk.base.weak_ref_counter_ = 0) :
    Standalone.step true op s.erase = (step false op s).map State.erase := by
  have hw1 : ∀ (this : SharedPtr) b blk, this.control_block_ = some b →
      s.mem.block b = Except.ok blk → blk.base.weak_ref_counter_ = 0 :=
    fun _ b blk _ h => hw b blk h
  cases op with
  | newObj => rfl
  | sDefault => rfl
  | sFromRaw ptr =>
    simp only [Standalone.step, step]
    have h : s.erase.mem = s.mem.erase := rfl
    rw [h, Standalone.ofRaw_erase]
    cases hc : SharedPtr.ofRaw false ptr s.mem <;> rfl
  | sMakeShared =>
    simp only [Standalone.step, step]
    have h : s.erase.mem = s.mem.erase := rfl
    rw [h, Standalone.MakeShared_erase]
    cases hc : SharedPtr.MakeShared false s.mem <;> rfl
  | sCopy src =>
    simp only [Standalone.step, step, State.erase_getShared]
    cases hg : s.getShared src with
    | error e => rfl
    | ok other =>
      have h : s.erase.mem = s.mem.erase := rfl
      simp only [bind, Except.bind]
      rw [h, Standalone.copy_erase]
      cases hc : SharedPtr.copy false other s.mem <;> rfl
  | sMove src =>
    simp only [Standalone.step, step, State.erase_getShared]
    cases hg : s.getShared src with
    | error e => rfl
    | ok other =>
      simp only [bind, Except.bind]
      rw [Standalone.move_eq]
      rfl
  | sAlias src ptr =>
    simp only [Standalone.step, step, State.erase_getShared]
    cases hg : s.getShared src with
    | error e => rfl
    | ok other =>
      have h : s.erase.mem = s.mem.erase := rfl
      simp only [bind, Except.bind]
      rw [h, Standalone.aliasing_erase]
      cases hc : SharedPtr.aliasing other ptr s.mem <;> rfl
  | sFromWeak src => cases hop
  | sCopyAssign dst src =>
    simp only [Standalone.step, step, State.erase_getShared]
    cases hg : s.getShared dst with
    | error e => rfl
    | ok this =>
      cases hg2 : s.getShared src with
      | error e => rfl
      | ok other =>
        by_cases hds : dst = src
        · simp only [bind, Except.bind, hds, if_true]
          rfl
        · have h : s.erase.mem = s.mem.erase := rfl
          simp only [bind, Except.bind, hds, if_false]
          rw [h, Standalone.copyAssign_erase other (hw1 this)]
          cases hc : SharedPtr.copyAssign false this other s.mem <;> rfl
  | sMoveAssign dst src =>
    simp only [Standalone.step, step, State.erase_getShared]
    cases hg : s.getShared dst with
    | error e => rfl
    | ok this =>
      cases hg2 : s.getShared src with
      | error e => rfl
      | ok other =>
        by_cases hds : dst = src
        · simp only [bind, Except.bind, hds, if_true]
          rfl
        · have h : s.erase.mem = s.mem.erase := rfl
          simp only [bind, Except.bind, hds, if_false]
          rw [h, Standalone.moveAssign_erase other (hw1 this)]
          cases hc : SharedPtr.moveAssign false this other s.mem <;> rfl
  | sReset i =>
    simp only [Standalone.step, step, State.erase_getShared]
    cases hg : s.getShared i with
    | error e => rfl
    | ok this =>
      have h : s.erase.mem = s.mem.erase := rfl
      simp only [bind, Except.bind]
      rw [h, Standalone.Reset_erase (hw1 this)]
      cases hc : SharedPtr.Reset false this s.mem <;> rfl
  | sResetPtr i ptr =>
    simp only [Standalone.step, step, State.erase_getShared]
    cases hg : s.getShared i with
    | error e => rfl
    | ok this =>
      have h : s.erase.mem = s.mem.erase := rfl
      simp only [bind, Except.bind]
      rw [h, Standalone.ResetPtr_erase ptr (hw1 this)]
      cases hc : SharedPtr.ResetPtr false this ptr s.mem <;> rfl
  | sSwap a b =>
    simp only [Standalone.step, step, State.erase_getShared]
    cases hg : s.getShared a with
    | error e => rfl
    | ok this =>
      cases hg2 : s.getShared b <;> rfl
  | sDestroy i =>
    simp only [Standalone.step, step, State.erase_getShared]
    cases hg : s.getShared i with
    | error e => rfl
    | ok this =>
      have h : s.erase.mem = s.mem.erase := rfl
      simp only [bind, Except.bind, Standalone.dtor, SharedPtr.dtor]
      rw [h, Standalone.TryToDeleteBlock_erase (hw1 this)]
      cases hc : SharedPtr.TryToDeleteBlock false this s.mem <;> rfl
  | wDefault => cases hop
  | wCopy src => cases hop
  | wMove src => cases hop
  | wFromShared src => cases hop
  | wCopyAssign dst src => cases hop
  | wMoveAssign dst src => cases hop
  | wReset h => cases hop
  | wSwap a b => cases hop
  | wDestroy h => cases hop
  | wLock h => cases hop

theorem Inv.weak_zero {s : State} (hinv : Inv false s) (hw : s.weak = []) :
    ∀ b blk, s.mem.block b = Except.ok blk → blk.base.weak_ref_counter_ = 0 := by
  intro b blk hblk
  obtain ⟨hget, hf⟩ := Mem.block_ok.mp hblk
  have h := hinv b
  rw [hget] at h
  have h1 := h.1 hf
  rw [h1, hw]
  simp [countWeak, countThis]

theorem step_weak_nil {op : Op} {s s1 : State} (hop : op.isStandalone = true)
    (hw : s.weak = []) (hok : step false op s = Except.ok s1) : s1.weak = [] := by
  by_cases h : op.isSharedOp = true
  · rw [step_weak_eq h hok]
    exact hw
  · cases op with
    | newObj =>
      simp only [step, pure_ok] at hok
      subst hok
      exact hw
    | sDefault => exact absurd rfl h
    | sFromRaw ptr => exact absurd rfl h
    | sMakeShared => exact absurd rfl h
    | sCopy src => exact absurd rfl h
    | sMove src => exact absurd rfl h
    | sAlias src ptr => exact absurd rfl h
    | sFromWeak src => cases hop
    | sCopyAssign dst src => exact absurd rfl h
    | sMoveAssign dst src => exact absurd rfl h
    | sReset i => exact absurd rfl h
    | sResetPtr i ptr => exact absurd rfl h
    | sSwap a b => exact absurd rfl h
    | sDestroy i => exact absurd rfl h
    | wDefault => cases hop
    | wCopy src => cases hop
    | wMove src => cases hop
    | wFromShared src => cases hop
    | wCopyAssign dst src => cases hop
    | wMoveAssign dst src => cases hop
    | wReset i => cases hop
    | wSwap a b => cases hop
    | wDestroy i => cases hop
    | wLock i => cases hop

/-- A program over `SharedPtr` alone, run with the class of `shared/shared.h` (`MakeShared`
called with arguments) and with the class of `shared-from-this/shared.h` (pointee without
`EnableSharedFromThis`): both runs fail at the same operation in the same way, or both
succeed, and then the handles, the counters, the pointees (alive or destroyed) and the
blocks (freed or not) are the same. -/
theorem run_erase_standalone : ∀ {ops : List Op} {s : State},
    (∀ op ∈ ops, op.isStandalone = true) → Inv false s → s.weak = [] →
    s.size + 2 * ops.length + 2 < SIZE →
    Standalone.run true ops s.erase = (run false ops s).map State.erase
  | [], s, _, _, _, _ => rfl
  | op :: ops, s, hops, hinv, hw, hsize => by
    have hop := hops op (List.mem_cons_self _ _)
    have hstep := step_erase_standalone hop (Inv.weak_zero hinv hw)
    simp only [Standalone.run, run, hstep]
    cases hs : step false op s with
    | error e => rfl
    | ok s1 =>
      simp only [List.length_cons] at hsize
      obtain ⟨hinv1, hsz, -, -⟩ := step_inv hinv (by omega) hs
      have ih := run_erase_standalone (fun o ho => hops o (List.mem_cons_of_mem _ ho)) hinv1
        (step_weak_nil hop hw hs) (by omega)
      simpa [Except.map, bind, Except.bind] using ih

/-- The refinement from the start of a program. -/
theorem run_standalone_eq {ops : List Op} (hops : ∀ op ∈ ops, op.isStandalone = true)
    (hlen : 2 * ops.length + 2 < SIZE) :
    Standalone.run true ops State.init = (run false ops State.init).map State.erase := by
  have h0 : State.init.size = 0 := rfl
  have h := @run_erase_standalone ops State.init hops (Inv_init false) rfl (by omega)
  exact h

/-- C22, the code at the failing input. `MakeShared<T>()` without arguments: in
`shared/shared.h` the constructor `ControlBlockHolder()` is chosen, which constructs no `T`
in `storage_` (in `weak/sw_fwd.h` that constructor is commented out and the constructor
template builds the `T`). `Get()`, `UseCount()` and `operator bool` agree, but the handle
of `shared/shared.h` points to storage without an object, and the release of the handle
runs `GetPointer()->~T()` on that storage, where the other class destroys the object it
has built and frees the block. -/
theorem C22_make_shared_without_arguments :
    Standalone.run false [Op.sMakeShared] State.init
      = Except.ok ⟨⟨[⟨⟨0, 1⟩, BlockKind.holder 1, false, 0⟩], [⟨WeakPtr.default, true⟩]⟩,
          [some ⟨1, some 0⟩], []⟩ ∧
    run false [Op.sMakeShared] State.init
      = Except.ok ⟨⟨[⟨⟨0, 1⟩, BlockKind.holder 1, false, 0⟩], [⟨WeakPtr.default, false⟩]⟩,
          [some ⟨1, some 0⟩], []⟩ ∧
    Standalone.run false [Op.sMakeShared, Op.sReset 0] State.init
      = Except.error Err.dangling ∧
    (run false [Op.sMakeShared, Op.sReset 0] State.init).map State.erase
      = Except.ok ⟨⟨[⟨⟨0, 1⟩, BlockKind.holder 1, true, 0⟩], [⟨WeakPtr.default, true⟩]⟩,
          [some SharedPtr.default], []⟩ := by
  refine ⟨?_, ?_, ?_, ?_⟩ <;> rfl

end SmartPointers
